import Mathlib

/-!
# Graph search algorithms: Dijkstra, DFS and BFS

A shallow embedding of the three programs of the repository

* `Algoritmos de busca/Algoritmo Dijkstra/dijkstra.cpp`
* `Algoritmos de busca/BFS e DFS/dfs.cpp`
* `Algoritmos de busca/bfs.cpp`

and proofs about them.

Conventions of the embedding.

* A C++ `int` is a Lean `Int` in the range `[-2^31, 2^31)`; the only arithmetic the
  programs perform is `dist[u] + peso`, which is reduced with `wrapInt` (wrap-around
  on 32 bits, as in the two-complement representation).
* Indexing a `vector` outside its bounds is an error of the embedding
  (`Outcome.outOfBounds`).
* `std::priority_queue<pair<int,int>, ..., greater<...>>` is a finite bag of pairs; `top`
  is the least pair of the lexicographic order and `pop` removes one copy of it.
* What a program prints is the value the embedding returns: the list of emitted node
  values for `dfs` and `bfs`, the vector `dist` for `dijkstra`.
* The `while` loop of `dijkstra` is driven by a fuel counter; running out of it is
  reported as `Outcome.outOfFuel`, and `loop_ne_outOfFuel` shows that a fuel
  that suffices always exists.
* Statements about the course of a run are made with `runN` (the state after a number of
  whole turns), `RunPoint` (the states in between, after `pq.pop()` and after each
  relaxation), `expanded` (the pairs that pass the stale check) and `runFlags` (whether
  some evaluated sum `dist[u] + peso` is flagged, for instance because it overflows).
* Two variants of the loop serve as terms of comparison: `dijkstraNoStale`, without the
  stale check, and `dijkstraExact`, over unbounded integers.
-/

namespace Niad

/-! ## Trees (`dfs.cpp`, `bfs.cpp`) -/

/-- The `struct Node` of `dfs.cpp` and `bfs.cpp`: a value and the ordered children. The
inductive type holds exactly the finite trees. -/
inductive Node where
  | mk (value : Int) (children : List Node)

/-- Field `value` of a node. -/
def Node.value : Node → Int
  | .mk v _ => v

/-- Field `children` of a node. -/
def Node.children : Node → List Node
  | .mk _ cs => cs

mutual
/-- The function `dfs(node)` of `dfs.cpp`, threading the output stream: the value of the
node is written, then the `for` loop over the children runs. -/
def dfs : Node → List Int → List Int
  | .mk v cs, out => dfsChildren cs (out ++ [v])
/-- The loop `for (Node* child : node->children) dfs(child);`. -/
def dfsChildren : List Node → List Int → List Int
  | [], out => out
  | c :: cs, out => dfsChildren cs (dfs c out)
end

mutual
/-- Number of nodes of a tree. -/
def Node.size : Node → Nat
  | .mk _ cs => 1 + sizeList cs
/-- Number of nodes of a forest. -/
def sizeList : List Node → Nat
  | [] => 0
  | c :: cs => c.size + sizeList cs
end

/-- The loop `for (Node* child : current->children) q.push(child);` of `bfs.cpp`. -/
def pushChildren : List Node → List Node → List Node
  | q, [] => q
  | q, c :: cs => pushChildren (q ++ [c]) cs

/-- The `while (!q.empty())` loop of `bfs.cpp` on the queue `q` (front first) and the
output written so far. The fuel bounds the number of iterations; `none` means that the
fuel ran out before the queue was empty. -/
def bfsLoop : Nat → List Node → List Int → Option (List Int)
  | _, [], out => some out
  | 0, _ :: _, _ => none
  | fuel + 1, current :: q, out =>
      bfsLoop fuel (pushChildren q current.children) (out ++ [current.value])

/-- The function `bfs(root)` of `bfs.cpp`: the queue starts as `[root]`. One unit of fuel per node of the
tree is enough, see `bfsLoop_levelsFrom`. -/
def bfs (root : Node) : Option (List Int) :=
  bfsLoop root.size [root] []

/-- The tree built by `main` in `dfs.cpp` and in `bfs.cpp`. -/
def demoTree : Node :=
  .mk 1 [.mk 2 [.mk 5 [], .mk 6 []], .mk 3 [], .mk 4 [.mk 7 []]]

/-! ### Traversal orders (specification side) -/

mutual
/-- Pre-order of a tree: the value of the node, then the pre-orders of the children in the
order they are listed. -/
def preorder : Node → List Int
  | .mk v cs => v :: preorderList cs
/-- Concatenation of the pre-orders of the trees of a forest. -/
def preorderList : List Node → List Int
  | [] => []
  | c :: cs => preorder c ++ preorderList cs
end

/-- The children of the nodes of `l`, concatenated in order. -/
def nextLevel (l : List Node) : List Node := (l.map Node.children).flatten

/-- Level `k` below the forest `l`: level 0 is `l`, level `k + 1` holds the children of the
nodes of level `k`. -/
def levelFrom (l : List Node) : Nat → List Node
  | 0 => l
  | k + 1 => nextLevel (levelFrom l k)

/-- Level order of a tree: the values of levels 0, 1, 2, ... of the root, concatenated. A
tree has no node at a depth that reaches its number of nodes, so the levels
below `root.size` are all of them. -/
def levelOrder (root : Node) : List Int :=
  ((List.range root.size).map (fun k => (levelFrom [root] k).map Node.value)).flatten

/-- The values of the first `k` levels below the forest `l`, concatenated. -/
def levelsFrom : Nat → List Node → List Int
  | 0, _ => []
  | k + 1, l => l.map Node.value ++ levelsFrom k (nextLevel l)

/-! ## Dijkstra (`dijkstra.cpp`) -/

/-- The `struct Aresta`: destination and weight of an edge, both `int`. -/
structure Aresta where
  destino : Int
  peso : Int
  deriving DecidableEq, Repr

/-- The type `vector<vector<Aresta>>`. -/
abbrev Grafo := List (List Aresta)

/-- The constant `INT_MAX` of `<climits>` for a 32-bit `int`. -/
def INT_MAX : Int := 2147483647

/-- The value a 32-bit `int` holds after a computation whose mathematical result is `x`. -/
def wrapInt (x : Int) : Int := (x + 2147483648) % 4294967296 - 2147483648

/-- Read of `dist[i]`; `none` outside the bounds. -/
def readAt (dist : List Int) (i : Int) : Option Int :=
  if 0 ≤ i then dist[i.toNat]? else none

/-- Read of `grafo[u]`; `none` outside the bounds. -/
def adjAt (grafo : Grafo) (u : Int) : Option (List Aresta) :=
  if 0 ≤ u then grafo[u.toNat]? else none

/-- The state of the `while` loop: the vector `dist` and the content of `pq`. -/
structure State where
  dist : List Int
  pq : List (Int × Int)
  deriving DecidableEq, Repr

/-- The order `operator<` of `pair<int,int>`. -/
def pairLt (a b : Int × Int) : Bool :=
  decide (a.1 < b.1) || (decide (a.1 = b.1) && decide (a.2 < b.2))

/-- The call `pq.top()`: the least pair of the queue, `none` when the queue is empty. -/
def pqTop : List (Int × Int) → Option (Int × Int)
  | [] => none
  | x :: xs =>
    match pqTop xs with
    | none => some x
    | some y => if pairLt y x then some y else some x

/-- The call `pq.pop()`: one copy of the least pair leaves the queue. -/
def pqPop (pq : List (Int × Int)) : List (Int × Int) :=
  match pqTop pq with
  | none => pq
  | some x => pq.erase x

/-- The call `pq.push(x)`. -/
def pqPush (x : Int × Int) (pq : List (Int × Int)) : List (Int × Int) := x :: pq

/-- The body of the `for` loop, lines 37-44: the edge `a` out of `u` is relaxed. `none` is an
access outside the bounds of `dist`. -/
def relax (u : Int) (s : State) (a : Aresta) : Option State :=
  match readAt s.dist u, readAt s.dist a.destino with
  | some du, some dv =>
    if wrapInt (du + a.peso) < dv then
      some { dist := s.dist.set a.destino.toNat (wrapInt (du + a.peso)),
             pq := pqPush (wrapInt (du + a.peso), a.destino) s.pq }
    else some s
  | _, _ => none

/-- The loop `for (const Aresta& aresta : grafo[u])`, lines 36-45. -/
def relaxAll (u : Int) : List Aresta → State → Option State
  | [], s => some s
  | a :: rest, s =>
    match relax u s a with
    | some s1 => relaxAll u rest s1
    | none => none

/-- What one turn of the `while` loop does. -/
inductive Step where
  | finished
  | outOfBounds
  | next (s : State)
  deriving DecidableEq, Repr

/-- One turn of the `while` loop, lines 26-46. -/
def step (grafo : Grafo) (s : State) : Step :=
  match pqTop s.pq with
  | none => .finished
  | some (d, u) =>
    match readAt s.dist u with
    | none => .outOfBounds
    | some du =>
      if d > du then .next { dist := s.dist, pq := pqPop s.pq }
      else
        match adjAt grafo u with
        | none => .outOfBounds
        | some arestas =>
          match relaxAll u arestas { dist := s.dist, pq := pqPop s.pq } with
          | none => .outOfBounds
          | some s1 => .next s1

/-- How a run of `dijkstra` ends. -/
inductive Outcome where
  | done (dist : List Int)
  | outOfBounds
  | outOfFuel
  deriving DecidableEq, Repr

/-- The `while (!pq.empty())` loop, at most `fuel` turns of it. -/
def loop (grafo : Grafo) : Nat → State → Outcome
  | 0, s => if s.pq = [] then .done s.dist else .outOfFuel
  | fuel + 1, s =>
    match step grafo s with
    | .finished => .done s.dist
    | .outOfBounds => .outOfBounds
    | .next s1 => loop grafo fuel s1

/-- The state on entry to the `while` loop, lines 19-24, when `origem` is an index of
`dist`. -/
def initState (origem n : Int) : State :=
  { dist := (List.replicate n.toNat INT_MAX).set origem.toNat 0,
    pq := pqPush (0, origem) [] }

/-- The function `dijkstra(origem, n, grafo)`: the vector `dist` that the final loop prints. -/
def dijkstra (fuel : Nat) (origem n : Int) (grafo : Grafo) : Outcome :=
  if 0 ≤ origem ∧ origem < n then loop grafo fuel (initState origem n)
  else .outOfBounds

/-- The graph built by `main` in `dijkstra.cpp`. -/
def mainGrafo : Grafo :=
  [[⟨1, 1⟩, ⟨2, 4⟩], [⟨2, 2⟩, ⟨3, 5⟩], [⟨4, 3⟩], [⟨4, 1⟩], []]

/-- The graph of `main` with the adjacency lists of nodes 0 and 1 in the other order. -/
def mainGrafoSwapped : Grafo :=
  [[⟨2, 4⟩, ⟨1, 1⟩], [⟨3, 5⟩, ⟨2, 2⟩], [⟨4, 3⟩], [⟨4, 1⟩], []]

/-- Three nodes in a row, both edges of weight `2^30`: the sum of the two weights does not
fit an `int`. -/
def overflowGrafo : Grafo :=
  [[⟨1, 1073741824⟩], [⟨2, 1073741824⟩], []]

/-- The graph `overflowGrafo` with an edge of weight 0 from the last node back to the
first. -/
def overflowCycleGrafo : Grafo :=
  [[⟨1, 1073741824⟩], [⟨2, 1073741824⟩], [⟨0, 0⟩]]

/-- Two nodes; node 1 has two loops, of weights `INT_MAX` and `2^30 + 1`, in this order. -/
def loopsGrafo : Grafo :=
  [[⟨1, 1073741824⟩], [⟨1, 2147483647⟩, ⟨1, 1073741825⟩]]

/-- The graph `loopsGrafo` with the two loops of node 1 listed in the other order. -/
def loopsGrafoSwapped : Grafo :=
  [[⟨1, 1073741824⟩], [⟨1, 1073741825⟩, ⟨1, 2147483647⟩]]

/-- Two nodes and one edge, of weight `INT_MAX`. -/
def heavyEdgeGrafo : Grafo :=
  [[⟨1, 2147483647⟩], []]

/-- Two nodes, an edge of weight 1 between them and a loop of weight `-2^30` on the
second. -/
def negativeLoopGrafo : Grafo :=
  [[⟨1, 1⟩], [⟨1, -1073741824⟩]]

/-! ## Paths of a graph (specification side) -/

/-- The adjacency list of `u`, empty when `u` is not an index of the graph. -/
def adj (grafo : Grafo) (u : Int) : List Aresta := (adjAt grafo u).getD []

/-- The value `dist[v]`, for reasoning about an index that is known to be within bounds. -/
def dAt (dist : List Int) (v : Int) : Int := (readAt dist v).getD 0

/-- The edge sequence `p` is a directed walk from `u` to `v`. -/
def Walk (grafo : Grafo) : Int → List Aresta → Int → Prop
  | u, [], v => u = v
  | u, a :: p, v => a ∈ adj grafo u ∧ Walk grafo a.destino p v

/-- Sum of the weights along a path. -/
def pathWeight (p : List Aresta) : Int := (p.map Aresta.peso).sum

/-- The nodes a path starting at `u` goes through, in order. -/
def pathNodes (u : Int) (p : List Aresta) : List Int := u :: p.map Aresta.destino

/-- A simple path: a walk that visits no node twice. -/
def SimplePath (grafo : Grafo) (u : Int) (p : List Aresta) (v : Int) : Prop :=
  Walk grafo u p v ∧ (pathNodes u p).Nodup

/-- Node `v` can be reached from `u` by a directed path. -/
def Reachable (grafo : Grafo) (u v : Int) : Prop := ∃ p, Walk grafo u p v

/-- The number `d` is the minimum, over all simple paths from `u` to `v`, of the sum of the
edge weights along the path. -/
def IsMinPathWeight (grafo : Grafo) (u v : Int) (d : Int) : Prop :=
  (∃ p, SimplePath grafo u p v ∧ pathWeight p = d) ∧
    ∀ p, SimplePath grafo u p v → d ≤ pathWeight p

/-- The graph has `n` adjacency lists and every edge destination lies in `[0, n)`. -/
def InRange (grafo : Grafo) (n : Int) : Prop :=
  (grafo.length : Int) = n ∧ ∀ l ∈ grafo, ∀ a ∈ l, 0 ≤ a.destino ∧ a.destino < n

/-- No edge weight is negative. -/
def NonNeg (grafo : Grafo) : Prop := ∀ l ∈ grafo, ∀ a ∈ l, 0 ≤ a.peso

/-- Sum of the weights of all the edges of the graph. -/
def totalWeight (grafo : Grafo) : Int := (grafo.map pathWeight).sum

/-- The call `dijkstra(origem, n, grafo)` runs to completion and prints `dist`. -/
def DijkstraOutput (origem n : Int) (grafo : Grafo) (dist : List Int) : Prop :=
  ∃ fuel, dijkstra fuel origem n grafo = .done dist

/-- Termination measure of the `while` loop: the distance of every entry of `dist` above
the least `int`, summed, plus the number of pairs in the queue. -/
def potential (s : State) : Nat :=
  (s.dist.map (fun x => (x + 2147483648).toNat)).sum + s.pq.length

/-- Invariant of the `while` loop that holds for weights of either sign: indices stay
within bounds and only nodes reachable from `origem` are ever touched. -/
structure Safe (grafo : Grafo) (n origem : Int) (s : State) : Prop where
  len : (s.dist.length : Int) = n
  pqIdx : ∀ e ∈ s.pq, 0 ≤ e.2 ∧ e.2 < n ∧ Reachable grafo origem e.2
  reach : ∀ v, 0 ≤ v → v < n → dAt s.dist v ≠ INT_MAX → Reachable grafo origem v

/-- The part of the invariant for non-negative weights that speaks of `dist` and of the
pairs in the queue: every distance is `INT_MAX` or the weight of a walk from `origem`, and
no pair in the queue is below the distance of its node. -/
structure Core (grafo : Grafo) (n origem : Int) (s : State) : Prop where
  len : (s.dist.length : Int) = n
  rng : ∀ v, 0 ≤ v → v < n → 0 ≤ dAt s.dist v ∧ dAt s.dist v ≤ INT_MAX
  src : dAt s.dist origem = 0
  pqOk : ∀ e ∈ s.pq, 0 ≤ e.2 ∧ e.2 < n ∧ dAt s.dist e.2 ≤ e.1 ∧ e.1 < INT_MAX
  walk : ∀ v, 0 ≤ v → v < n → dAt s.dist v < INT_MAX →
    ∃ p, Walk grafo origem p v ∧ pathWeight p = dAt s.dist v

/-- Node `u`, if it has been reached, either waits in the queue with its current distance or
has all its outgoing edges relaxed. -/
def ClosedAt (grafo : Grafo) (s : State) (u : Int) : Prop :=
  dAt s.dist u < INT_MAX →
    (dAt s.dist u, u) ∈ s.pq ∨
      ∀ a ∈ adj grafo u, dAt s.dist a.destino ≤ dAt s.dist u + a.peso

/-- Invariant of the `while` loop for non-negative weights without overflow. -/
structure Inv (grafo : Grafo) (n origem : Int) (s : State) : Prop where
  core : Core grafo n origem s
  closed : ∀ u, 0 ≤ u → u < n → ClosedAt grafo s u

/-- Invariant of the `for` loop over the edges of `u`, taken out of the queue with
distance `d`, after the edges `done` have been handled. -/
structure InvIn (grafo : Grafo) (n origem u d : Int) (done : List Aresta) (s : State) :
    Prop where
  core : Core grafo n origem s
  fixed : dAt s.dist u = d
  others : ∀ w, 0 ≤ w → w < n → w ≠ u → ClosedAt grafo s w
  relaxed : ∀ a ∈ done, dAt s.dist a.destino ≤ d + a.peso

/-- The state after `k` whole turns of the `while` loop from `s`; `none` when the loop has
ended, or has read outside the bounds, before that. -/
def runN (grafo : Grafo) : Nat → State → Option State
  | 0, s => some s
  | k + 1, s =>
    match step grafo s with
    | .next s1 => runN grafo k s1
    | _ => none

/-- The state `s` is what the run of `dijkstra(origem, n, grafo)` has reached after some
number of whole turns of the `while` loop. -/
def AtTurn (grafo : Grafo) (origem n : Int) (s : State) : Prop :=
  ∃ k, runN grafo k (initState origem n) = some s

/-- The state `s1` is a point of the run of `dijkstra(origem, n, grafo)`: the state between
two turns of the `while` loop, or the state right after `pq.pop()`, or the state after the
`for` loop has relaxed the first few edges of the node taken out of the queue. -/
def RunPoint (grafo : Grafo) (origem n : Int) (s1 : State) : Prop :=
  ∃ s, AtTurn grafo origem n s ∧
    (s1 = s ∨ ∃ d u, pqTop s.pq = some (d, u) ∧
      (s1 = { dist := s.dist, pq := pqPop s.pq } ∨
        (d ≤ dAt s.dist u ∧ ∃ done rest, adj grafo u = done ++ rest ∧
          relaxAll u done { dist := s.dist, pq := pqPop s.pq } = some s1)))

/-- The sum `x + y` does not fit a 32-bit `int`. -/
def overflows (x y : Int) : Bool := decide (wrapInt (x + y) ≠ x + y)

/-- The sum `x + y` has `x = INT_MAX` or a value outside `[0, INT_MAX]`. -/
def outside (x y : Int) : Bool := decide (x = INT_MAX ∨ x + y < 0 ∨ INT_MAX < x + y)

/-- The check that flags no sum. -/
def noCheck (_ _ : Int) : Bool := false

/-- Some sum `dist[u] + peso` that the `for` loop evaluates on the edges `l` from the state
`s` is flagged by `bad`. -/
def relaxAllFlags (bad : Int → Int → Bool) (u : Int) : List Aresta → State → Bool
  | [], _ => false
  | a :: rest, s =>
    bad (dAt s.dist u) a.peso ||
      match relax u s a with
      | some s1 => relaxAllFlags bad u rest s1
      | none => false

/-- Some sum `dist[u] + peso` that the turn of the `while` loop starting in `s` evaluates
is flagged by `bad`. -/
def stepFlags (bad : Int → Int → Bool) (grafo : Grafo) (s : State) : Bool :=
  match pqTop s.pq with
  | none => false
  | some (d, u) =>
    if d > dAt s.dist u then false
    else relaxAllFlags bad u (adj grafo u) { dist := s.dist, pq := pqPop s.pq }

/-- Some sum `dist[u] + peso` evaluated in the first `fuel` turns of the `while` loop from
`s` is flagged by `bad`. With `bad := overflows` this says that an arithmetic overflow
occurs in these turns. -/
def runFlags (bad : Int → Int → Bool) (grafo : Grafo) : Nat → State → Bool
  | 0, _ => false
  | fuel + 1, s =>
    stepFlags bad grafo s ||
      match step grafo s with
      | .next s1 => runFlags bad grafo fuel s1
      | _ => false

/-- One turn of the `while` loop with the stale check `if (d > dist[u]) continue;`
removed: every pair taken out of the queue is expanded. -/
def stepNoStale (grafo : Grafo) (s : State) : Step :=
  match pqTop s.pq with
  | none => .finished
  | some (_, u) =>
    match adjAt grafo u with
    | none => .outOfBounds
    | some arestas =>
      match relaxAll u arestas { dist := s.dist, pq := pqPop s.pq } with
      | none => .outOfBounds
      | some s1 => .next s1

/-- The `while` loop without the stale check, at most `fuel` turns of it. -/
def loopNoStale (grafo : Grafo) : Nat → State → Outcome
  | 0, s => if s.pq = [] then .done s.dist else .outOfFuel
  | fuel + 1, s =>
    match stepNoStale grafo s with
    | .finished => .done s.dist
    | .outOfBounds => .outOfBounds
    | .next s1 => loopNoStale grafo fuel s1

/-- The function `dijkstra` without the stale check. -/
def dijkstraNoStale (fuel : Nat) (origem n : Int) (grafo : Grafo) : Outcome :=
  if 0 ≤ origem ∧ origem < n then loopNoStale grafo fuel (initState origem n)
  else .outOfBounds

/-- Node `u` waits in the queue with its current distance, or every edge of `l` out of `u`
has had its sum `dist[u] + peso` evaluated without a flag of `bad` and cannot be
relaxed. -/
def OpenOrDone (bad : Int → Int → Bool) (s : State) (u : Int) (l : List Aresta) : Prop :=
  (dAt s.dist u, u) ∈ s.pq ∨
    ∀ a ∈ l, bad (dAt s.dist u) a.peso = false ∧
      ¬ (wrapInt (dAt s.dist u + a.peso) < dAt s.dist a.destino)

/-- Invariant of the `while` loop for weights of either sign, as long as `bad` flags no
sum: the pairs in the queue are not below the distance of their node, and every node that
has been reached waits in the queue or has all its edges relaxed. -/
structure Gen (bad : Int → Int → Bool) (grafo : Grafo) (n : Int) (s : State) : Prop where
  len : (s.dist.length : Int) = n
  hi : ∀ v, 0 ≤ v → v < n → dAt s.dist v ≤ INT_MAX
  pqIdx : ∀ e ∈ s.pq, 0 ≤ e.2 ∧ e.2 < n
  pqGe : ∀ e ∈ s.pq, dAt s.dist e.2 ≤ e.1
  pqLt : ∀ e ∈ s.pq, e.1 < INT_MAX
  closed : ∀ u, 0 ≤ u → u < n → dAt s.dist u ≠ INT_MAX → OpenOrDone bad s u (adj grafo u)

/-- Invariant of the `for` loop over the edges of `u` that goes with `Gen`, after the
edges `done` have been handled. -/
structure GenIn (bad : Int → Int → Bool) (grafo : Grafo) (n u : Int) (done : List Aresta)
    (s : State) : Prop where
  len : (s.dist.length : Int) = n
  hi : ∀ v, 0 ≤ v → v < n → dAt s.dist v ≤ INT_MAX
  pqIdx : ∀ e ∈ s.pq, 0 ≤ e.2 ∧ e.2 < n
  pqGe : ∀ e ∈ s.pq, dAt s.dist e.2 ≤ e.1
  pqLt : ∀ e ∈ s.pq, e.1 < INT_MAX
  others : ∀ w, 0 ≤ w → w < n → w ≠ u → dAt s.dist w ≠ INT_MAX →
    OpenOrDone bad s w (adj grafo w)
  mine : OpenOrDone bad s u done

/-- Three nodes, edges 0 -> 1 (5), 0 -> 2 (2) and 1 -> 2 (-4): one negative weight and no
cycle. -/
def negativeEdgeGrafo : Grafo :=
  [[⟨1, 5⟩, ⟨2, 2⟩], [⟨2, -4⟩], []]

/-- The body of the `for` loop over unbounded integers: `dist[u] + peso` is the exact
sum. -/
def relaxExact (u : Int) (s : State) (a : Aresta) : Option State :=
  match readAt s.dist u, readAt s.dist a.destino with
  | some du, some dv =>
    if du + a.peso < dv then
      some { dist := s.dist.set a.destino.toNat (du + a.peso),
             pq := pqPush (du + a.peso, a.destino) s.pq }
    else some s
  | _, _ => none

/-- The `for` loop over unbounded integers. -/
def relaxAllExact (u : Int) : List Aresta → State → Option State
  | [], s => some s
  | a :: rest, s =>
    match relaxExact u s a with
    | some s1 => relaxAllExact u rest s1
    | none => none

/-- One turn of the `while` loop over unbounded integers. -/
def stepExact (grafo : Grafo) (s : State) : Step :=
  match pqTop s.pq with
  | none => .finished
  | some (d, u) =>
    match readAt s.dist u with
    | none => .outOfBounds
    | some du =>
      if d > du then .next { dist := s.dist, pq := pqPop s.pq }
      else
        match adjAt grafo u with
        | none => .outOfBounds
        | some arestas =>
          match relaxAllExact u arestas { dist := s.dist, pq := pqPop s.pq } with
          | none => .outOfBounds
          | some s1 => .next s1

/-- The `while` loop over unbounded integers, at most `fuel` turns of it. -/
def loopExact (grafo : Grafo) : Nat → State → Outcome
  | 0, s => if s.pq = [] then .done s.dist else .outOfFuel
  | fuel + 1, s =>
    match stepExact grafo s with
    | .finished => .done s.dist
    | .outOfBounds => .outOfBounds
    | .next s1 => loopExact grafo fuel s1

/-- The algorithm of `dijkstra` over unbounded integers, with the same sentinel. -/
def dijkstraExact (fuel : Nat) (origem n : Int) (grafo : Grafo) : Outcome :=
  if 0 ≤ origem ∧ origem < n then loopExact grafo fuel (initState origem n)
  else .outOfBounds

/-- The pairs `(d, u)` that pass the stale check in the first `fuel` turns of the `while`
loop from `s`, in the order in which they leave the queue. -/
def expanded (grafo : Grafo) : Nat → State → List (Int × Int)
  | 0, _ => []
  | fuel + 1, s =>
    match pqTop s.pq, step grafo s with
    | some (d, u), .next s1 =>
      if d > dAt s.dist u then expanded grafo fuel s1 else (d, u) :: expanded grafo fuel s1
    | _, _ => []

/-- What the loop keeps about the pairs `done` that have passed the stale check so far: no
pair is twice in the queue, the distance of a node that has passed is still the one it
passed with, no pair in the queue is below it, and the pairs of that node still in the
queue are strictly above it. -/
structure Settled (done : List (Int × Int)) (s : State) : Prop where
  nodup : s.pq.Nodup
  fixed : ∀ x ∈ done, dAt s.dist x.2 = x.1
  below : ∀ x ∈ done, ∀ e ∈ s.pq, x.1 ≤ e.1
  stale : ∀ x ∈ done, ∀ e ∈ s.pq, e.2 = x.2 → x.1 < e.1

/-- Three nodes in a row: an edge of weight `INT_MAX` followed by an edge of weight -5. -/
def sentinelPathGrafo : Grafo :=
  [[⟨1, 2147483647⟩], [⟨2, -5⟩], []]

/-- No cycle through a node that can be reached from `origem` has a negative weight. -/
def NoNegCycle (grafo : Grafo) (origem : Int) : Prop :=
  ∀ u p, Reachable grafo origem u → Walk grafo u p u → 0 ≤ pathWeight p

/-- The number `d` is the minimum, over all paths from `u` to `v`, simple or not, of the
sum of the edge weights along the path. -/
def IsMinWalkWeight (grafo : Grafo) (u v : Int) (d : Int) : Prop :=
  (∃ p, Walk grafo u p v ∧ pathWeight p = d) ∧ ∀ p, Walk grafo u p v → d ≤ pathWeight p

/-- Invariant of a run without overflow, for weights of either sign: the distance of the
origin is at most 0 and every distance other than `INT_MAX` is the weight of a walk from
the origin. -/
structure Walked (grafo : Grafo) (n origem : Int) (s : State) : Prop where
  srcLe : dAt s.dist origem ≤ 0
  walk : ∀ v, 0 ≤ v → v < n → dAt s.dist v ≠ INT_MAX →
    ∃ p, Walk grafo origem p v ∧ pathWeight p = dAt s.dist v

/-! ## Basic facts: indexing and the priority queue -/

theorem readAt_eq_dAt {dist : List Int} {v : Int} (h0 : 0 ≤ v) (h1 : v < dist.length) :
    readAt dist v = some (dAt dist v) := by
  have h2 : v.toNat < dist.length := by omega
  simp [dAt, readAt, h0, List.getElem?_eq_getElem h2]

theorem dAt_set {dist : List Int} {v w : Int} (x : Int) (hv : 0 ≤ v) (hw : 0 ≤ w)
    (h1 : v < dist.length) :
    dAt (dist.set v.toNat x) w = if w = v then x else dAt dist w := by
  have h2 : v.toNat < dist.length := by omega
  by_cases hwv : w = v
  · subst hwv
    simp [dAt, readAt, hw, List.getElem?_set_self h2, h2]
  · have hne : v.toNat ≠ w.toNat := by omega
    simp [dAt, readAt, hw, hwv, List.getElem?_set_ne hne]

theorem adjAt_eq_adj {grafo : Grafo} {u : Int} (h0 : 0 ≤ u) (h1 : u < grafo.length) :
    adjAt grafo u = some (adj grafo u) := by
  have h2 : u.toNat < grafo.length := by omega
  simp [adj, adjAt, h0, List.getElem?_eq_getElem h2]

theorem adj_mem_grafo {grafo : Grafo} {u : Int} {a : Aresta} (h : a ∈ adj grafo u) :
    ∃ l ∈ grafo, a ∈ l := by
  unfold adj adjAt at h
  split at h
  · cases hg : grafo[u.toNat]? with
    | none => simp [hg] at h
    | some l =>
      simp [hg] at h
      exact ⟨l, List.getElem?_mem hg, h⟩
  · simp at h

theorem pqTop_eq_none {pq : List (Int × Int)} : pqTop pq = none ↔ pq = [] := by
  cases pq with
  | nil => simp [pqTop]
  | cons x xs =>
    simp only [pqTop]
    cases pqTop xs with
    | none => simp
    | some y => by_cases h : pairLt y x <;> simp [h]

theorem pqTop_mem : ∀ {pq : List (Int × Int)} {x : Int × Int}, pqTop pq = some x → x ∈ pq
  | [], x, h => by simp [pqTop] at h
  | y :: ys, x, h => by
    simp only [pqTop] at h
    cases hy : pqTop ys with
    | none => simp [hy] at h; simp [h]
    | some z =>
      simp only [hy] at h
      by_cases hlt : pairLt z y
      · simp [hlt] at h
        subst h
        exact List.mem_cons_of_mem _ (pqTop_mem hy)
      · simp [hlt] at h
        simp [h]

theorem pqTop_le : ∀ {pq : List (Int × Int)} {x : Int × Int}, pqTop pq = some x →
    ∀ e ∈ pq, x.1 ≤ e.1
  | [], x, h => by simp [pqTop] at h
  | y :: ys, x, h => by
    intro e he
    simp only [pqTop] at h
    cases hy : pqTop ys with
    | none =>
      simp [hy] at h
      have : ys = [] := pqTop_eq_none.mp hy
      subst this h
      simp at he
      simp [he]
    | some z =>
      simp only [hy] at h
      have ih := pqTop_le hy
      by_cases hlt : pairLt z y
      · simp [hlt] at h
        subst h
        have hzy : z.1 ≤ y.1 := by
          simp [pairLt] at hlt
          omega
        rcases List.mem_cons.mp he with rfl | he
        · exact hzy
        · exact ih e he
      · simp [hlt] at h
        subst h
        have hzy : y.1 ≤ z.1 := by
          simp [pairLt] at hlt
          omega
        rcases List.mem_cons.mp he with rfl | he
        · exact le_refl _
        · exact le_trans hzy (ih e he)

theorem pqPop_of_top {pq : List (Int × Int)} {x : Int × Int} (h : pqTop pq = some x) :
    pqPop pq = pq.erase x := by
  simp [pqPop, h]

theorem pqPop_length {pq : List (Int × Int)} {x : Int × Int} (h : pqTop pq = some x) :
    (pqPop pq).length + 1 = pq.length := by
  rw [pqPop_of_top h, List.length_erase_of_mem (pqTop_mem h)]
  have : 0 < pq.length := List.length_pos_of_mem (pqTop_mem h)
  omega

/-! ## Depth-first and breadth-first traversal -/

theorem dfs_eq_preorder (t : Node) : ∀ out : List Int, dfs t out = out ++ preorder t := by
  refine Node.rec
    (motive_1 := fun t => ∀ out, dfs t out = out ++ preorder t)
    (motive_2 := fun cs => ∀ out, dfsChildren cs out = out ++ preorderList cs)
    ?_ ?_ ?_ t
  · intro v cs ih out
    simp [dfs, preorder, ih]
  · intro out
    simp [dfsChildren, preorderList]
  · intro c cs ihc ihcs out
    simp [dfsChildren, preorderList, ihc, ihcs]

theorem preorderList_eq_flatten (cs : List Node) :
    preorderList cs = (cs.map preorder).flatten := by
  induction cs with
  | nil => simp [preorderList]
  | cons c cs ih => simp [preorderList, ih]

theorem preorderList_append (a b : List Node) :
    preorderList (a ++ b) = preorderList a ++ preorderList b := by
  simp [preorderList_eq_flatten]

theorem pushChildren_eq (q cs : List Node) : pushChildren q cs = q ++ cs := by
  induction cs generalizing q with
  | nil => simp [pushChildren]
  | cons c cs ih => simp [pushChildren, ih]

theorem nextLevel_cons (c : Node) (q : List Node) :
    nextLevel (c :: q) = c.children ++ nextLevel q := by
  simp [nextLevel]

theorem sizeList_append (a b : List Node) : sizeList (a ++ b) = sizeList a + sizeList b := by
  induction a with
  | nil => simp [sizeList]
  | cons c a ih => simp [sizeList, ih]; omega

theorem size_children (c : Node) : c.size = 1 + sizeList c.children := by
  cases c with
  | mk v cs => simp [Node.size, Node.children]

theorem sizeList_nextLevel (q : List Node) :
    sizeList (nextLevel q) + q.length = sizeList q := by
  induction q with
  | nil => simp [sizeList, nextLevel]
  | cons c q ih =>
    rw [nextLevel_cons, sizeList_append]
    simp only [sizeList, List.length_cons, size_children c]
    omega

theorem length_le_sizeList (q : List Node) : q.length ≤ sizeList q := by
  have := sizeList_nextLevel q
  omega

theorem bfsLoop_level (q1 : List Node) : ∀ (q2 : List Node) (out : List Int) (fuel : Nat),
    q1.length ≤ fuel →
    bfsLoop fuel (q1 ++ q2) out =
      bfsLoop (fuel - q1.length) (q2 ++ nextLevel q1) (out ++ q1.map Node.value) := by
  induction q1 with
  | nil => intro q2 out fuel _; simp [nextLevel]
  | cons c q1 ih =>
    intro q2 out fuel h
    cases fuel with
    | zero => simp at h
    | succ fuel =>
      simp only [List.length_cons, Nat.add_le_add_iff_right] at h
      show bfsLoop (fuel + 1) (c :: (q1 ++ q2)) out = _
      simp only [bfsLoop, pushChildren_eq, List.append_assoc]
      rw [ih _ _ _ h, nextLevel_cons]
      simp

theorem levelsFrom_nil (k : Nat) : levelsFrom k [] = [] := by
  induction k with
  | zero => rfl
  | succ k ih => simpa [levelsFrom, nextLevel] using ih

theorem bfsLoop_levelsFrom (k : Nat) : ∀ (q : List Node) (out : List Int) (fuel : Nat),
    sizeList q ≤ k → sizeList q ≤ fuel →
    bfsLoop fuel q out = some (out ++ levelsFrom k q) := by
  induction k with
  | zero =>
    intro q out fuel hk _
    have hq : q = [] := by
      have := length_le_sizeList q
      exact List.length_eq_zero.mp (by omega)
    subst hq
    cases fuel <;> simp [bfsLoop, levelsFrom]
  | succ k ih =>
    intro q out fuel hk hf
    cases q with
    | nil => cases fuel <;> simp [bfsLoop, levelsFrom_nil]
    | cons c q =>
      have hlen := length_le_sizeList (c :: q)
      have hsz := sizeList_nextLevel (c :: q)
      have h1 := bfsLoop_level (c :: q) [] out fuel (by omega)
      simp only [List.append_nil, List.nil_append] at h1
      rw [h1, ih _ _ _ (by simp only [List.length_cons] at hsz; omega) (by omega)]
      simp [levelsFrom]

theorem levelFrom_succ (l : List Node) (k : Nat) :
    levelFrom l (k + 1) = levelFrom (nextLevel l) k := by
  induction k with
  | zero => rfl
  | succ k ih => simp only [levelFrom] at ih ⊢; rw [ih]

theorem levelsFrom_eq (k : Nat) : ∀ l : List Node,
    levelsFrom k l =
      ((List.range k).map (fun i => (levelFrom l i).map Node.value)).flatten := by
  induction k with
  | zero => intro l; simp [levelsFrom]
  | succ k ih =>
    intro l
    rw [List.range_succ_eq_map]
    simp only [levelsFrom, List.map_cons, List.flatten_cons, List.map_map, ih]
    simp only [Function.comp_def, Nat.succ_eq_add_one, levelFrom_succ]
    rfl

theorem bfs_eq_levelOrder (t : Node) : bfs t = some (levelOrder t) := by
  have h : sizeList [t] = t.size := by simp [sizeList]
  have := bfsLoop_levelsFrom t.size [t] [] t.size (by omega) (by omega)
  simpa [bfs, levelOrder, levelsFrom_eq] using this

theorem preorderList_perm_level (q : List Node) :
    (preorderList q).Perm (q.map Node.value ++ preorderList (nextLevel q)) := by
  induction q with
  | nil => simp [preorderList, nextLevel]
  | cons c q ih =>
    cases c with
    | mk v cs =>
      simp only [preorderList, preorder, nextLevel_cons, Node.children, preorderList_append,
        List.map_cons, Node.value, List.cons_append]
      refine List.Perm.cons v ?_
      refine (List.Perm.append_left _ ih).trans ?_
      exact List.perm_append_comm_assoc _ _ _

theorem levelsFrom_perm_preorder (k : Nat) : ∀ q : List Node, sizeList q ≤ k →
    (levelsFrom k q).Perm (preorderList q) := by
  induction k with
  | zero =>
    intro q hk
    have hq : q = [] := by
      have := length_le_sizeList q
      exact List.length_eq_zero.mp (by omega)
    subst hq
    simp [levelsFrom, preorderList]
  | succ k ih =>
    intro q hk
    cases q with
    | nil => simp [levelsFrom_nil, preorderList]
    | cons c q =>
      have hsz := sizeList_nextLevel (c :: q)
      simp only [List.length_cons] at hsz
      simp only [levelsFrom]
      exact (List.Perm.append_left _ (ih _ (by omega))).trans
        (preorderList_perm_level (c :: q)).symm

theorem levelOrder_perm_preorder (t : Node) : (levelOrder t).Perm (preorder t) := by
  have h := levelsFrom_perm_preorder t.size [t] (by simp [sizeList])
  simpa [levelOrder, levelsFrom_eq, preorderList] using h

theorem levelFrom_size_nil (l : List Node) : ∀ m, sizeList l ≤ m → levelFrom l m = [] := by
  intro m
  induction m generalizing l with
  | zero =>
    intro h
    have := length_le_sizeList l
    exact List.length_eq_zero.mp (by simp only [levelFrom]; omega)
  | succ m ih =>
    intro h
    rw [levelFrom_succ]
    cases l with
    | nil =>
      have : nextLevel ([] : List Node) = [] := by simp [nextLevel]
      rw [this]; exact ih [] (by simp [sizeList])
    | cons c q =>
      have hsz := sizeList_nextLevel (c :: q)
      simp only [List.length_cons] at hsz
      exact ih _ (by omega)

/-! ## Dijkstra: termination of the `while` loop -/

theorem wrapInt_ge (x : Int) : -2147483648 ≤ wrapInt x := by
  unfold wrapInt; omega

theorem wrapInt_le (x : Int) : wrapInt x ≤ 2147483647 := by
  unfold wrapInt; omega

theorem wrapInt_eq {x : Int} (h0 : -2147483648 ≤ x) (h1 : x ≤ 2147483647) : wrapInt x = x := by
  unfold wrapInt; omega

theorem readAt_some {dist : List Int} {v x : Int} (h : readAt dist v = some x) :
    0 ≤ v ∧ v < dist.length ∧ dAt dist v = x := by
  unfold readAt at h
  split at h
  · rename_i h0
    obtain ⟨hlt, -⟩ := List.getElem?_eq_some.mp h
    refine ⟨h0, by omega, ?_⟩
    simp [dAt, readAt, h0, h]
  · simp at h

theorem sum_map_set (f : Int → Nat) : ∀ (l : List Int) (i : Nat) (x : Int) (h : i < l.length),
    ((l.set i x).map f).sum + f (l.get ⟨i, h⟩) = (l.map f).sum + f x
  | [], i, x, h => by simp at h
  | y :: ys, 0, x, _ => by simp; omega
  | y :: ys, i + 1, x, h => by
    have ih := sum_map_set f ys i x (by simpa using h)
    simp only [List.set_cons_succ, List.map_cons, List.sum_cons, List.get_cons_succ] at ih ⊢
    omega

theorem dAt_eq_get {dist : List Int} {v : Int} (h0 : 0 ≤ v) (h : v.toNat < dist.length) :
    dAt dist v = dist.get ⟨v.toNat, h⟩ := by
  simp [dAt, readAt, h0, List.getElem?_eq_getElem h]

theorem relax_potential {u : Int} {s s1 : State} {a : Aresta} (h : relax u s a = some s1) :
    potential s1 ≤ potential s := by
  unfold relax at h
  cases hu : readAt s.dist u with
  | none => simp [hu] at h
  | some du =>
    cases hv : readAt s.dist a.destino with
    | none => simp [hu, hv] at h
    | some dv =>
      simp only [hu, hv] at h
      obtain ⟨h0, h1, h2⟩ := readAt_some hv
      have hlt : a.destino.toNat < s.dist.length := by omega
      split at h
      · rename_i hless
        have hs := sum_map_set (fun x => (x + 2147483648).toNat) s.dist a.destino.toNat
          (wrapInt (du + a.peso)) hlt
        rw [← dAt_eq_get h0 hlt, h2] at hs
        have hge := wrapInt_ge (du + a.peso)
        simp only [Option.some.injEq] at h
        subst h
        simp only [potential, pqPush, List.length_cons]
        omega
      · simp only [Option.some.injEq] at h
        subst h
        exact le_refl _

theorem relaxAll_potential {u : Int} : ∀ {l : List Aresta} {s s1 : State},
    relaxAll u l s = some s1 → potential s1 ≤ potential s
  | [], s, s1, h => by
    simp only [relaxAll, Option.some.injEq] at h
    subst h; exact le_refl _
  | a :: rest, s, s1, h => by
    simp only [relaxAll] at h
    cases hr : relax u s a with
    | none => simp [hr] at h
    | some s2 =>
      simp only [hr] at h
      exact le_trans (relaxAll_potential h) (relax_potential hr)

theorem step_finished_iff {grafo : Grafo} {s : State} : step grafo s = .finished ↔ s.pq = [] := by
  constructor
  · intro h
    unfold step at h
    cases ht : pqTop s.pq with
    | none => exact pqTop_eq_none.mp ht
    | some e =>
      obtain ⟨d, u⟩ := e
      simp only [ht] at h
      cases hr : readAt s.dist u with
      | none => simp [hr] at h
      | some du =>
        simp only [hr] at h
        split at h
        · simp at h
        · cases ha : adjAt grafo u with
          | none => simp [ha] at h
          | some l =>
            simp only [ha] at h
            cases hra : relaxAll u l { dist := s.dist, pq := pqPop s.pq } <;> simp [hra] at h
  · intro h
    simp [step, h, pqTop]

/-- What a turn of the loop that goes on has done: the least pair `(d, u)` was taken out of
the queue, and either it was stale or the edges out of `u` were relaxed. -/
theorem step_next_cases {grafo : Grafo} {s s1 : State} (h : step grafo s = .next s1) :
    ∃ d u, pqTop s.pq = some (d, u) ∧ 0 ≤ u ∧ u < s.dist.length ∧
      ((dAt s.dist u < d ∧ s1 = { dist := s.dist, pq := pqPop s.pq }) ∨
       (d ≤ dAt s.dist u ∧ ∃ l, adjAt grafo u = some l ∧
          relaxAll u l { dist := s.dist, pq := pqPop s.pq } = some s1)) := by
  unfold step at h
  cases ht : pqTop s.pq with
  | none => simp [ht] at h
  | some e =>
    obtain ⟨d, u⟩ := e
    simp only [ht] at h
    cases hr : readAt s.dist u with
    | none => simp [hr] at h
    | some du =>
      simp only [hr] at h
      obtain ⟨h0, h1, h2⟩ := readAt_some hr
      refine ⟨d, u, rfl, h0, h1, ?_⟩
      split at h
      · rename_i hgt
        simp only [Step.next.injEq] at h
        exact Or.inl ⟨by omega, h.symm⟩
      · rename_i hgt
        cases ha : adjAt grafo u with
        | none => simp [ha] at h
        | some l =>
          simp only [ha] at h
          cases hra : relaxAll u l { dist := s.dist, pq := pqPop s.pq } with
          | none => simp [hra] at h
          | some s2 =>
            simp only [hra, Step.next.injEq] at h
            subst h
            exact Or.inr ⟨by omega, l, rfl, hra⟩

theorem step_potential {grafo : Grafo} {s s1 : State} (h : step grafo s = .next s1) :
    potential s1 < potential s := by
  obtain ⟨d, u, ht, -, -, hc⟩ := step_next_cases h
  have hlen := pqPop_length ht
  have hpop : potential { dist := s.dist, pq := pqPop s.pq } < potential s := by
    simp only [potential]; omega
  rcases hc with ⟨-, rfl⟩ | ⟨-, l, -, hra⟩
  · exact hpop
  · exact lt_of_le_of_lt (relaxAll_potential hra) hpop

theorem loop_ne_outOfFuel (grafo : Grafo) : ∀ (fuel : Nat) (s : State),
    potential s < fuel → loop grafo fuel s ≠ .outOfFuel
  | 0, s, h => by omega
  | fuel + 1, s, h => by
    simp only [loop]
    cases hs : step grafo s with
    | finished => simp
    | outOfBounds => simp
    | next s1 =>
      have := step_potential hs
      exact loop_ne_outOfFuel grafo fuel s1 (by omega)

theorem loop_mono (grafo : Grafo) : ∀ (fuel : Nat) (s : State) (d : List Int),
    loop grafo fuel s = .done d → ∀ k, loop grafo (fuel + k) s = .done d
  | 0, s, d, h, k => by
    simp only [loop] at h
    split at h
    · rename_i hpq
      cases k with
      | zero => simp [loop, hpq, h]
      | succ k =>
        have : step grafo s = .finished := step_finished_iff.mpr hpq
        simp only [Nat.zero_add, loop, this]
        simpa using h
    · simp at h
  | fuel + 1, s, d, h, k => by
    have e : fuel + 1 + k = (fuel + k) + 1 := by omega
    rw [e]
    simp only [loop] at h ⊢
    cases hs : step grafo s with
    | finished => simpa [hs] using h
    | outOfBounds => simp [hs] at h
    | next s1 =>
      simp only [hs] at h ⊢
      exact loop_mono grafo fuel s1 d h k

theorem loop_done_unique {grafo : Grafo} {f1 f2 : Nat} {s : State} {d1 d2 : List Int}
    (h1 : loop grafo f1 s = .done d1) (h2 : loop grafo f2 s = .done d2) : d1 = d2 := by
  have e1 := loop_mono grafo f1 s d1 h1 f2
  have e2 := loop_mono grafo f2 s d2 h2 f1
  rw [Nat.add_comm] at e2
  rw [e1] at e2
  exact Outcome.done.inj e2

/-- A property of the state that every turn of the loop keeps, and under which no turn
reads outside the bounds, holds when the loop ends, and the loop does end. -/
theorem loop_invariant {grafo : Grafo} (P : State → Prop)
    (hkeep : ∀ s s1, P s → step grafo s = .next s1 → P s1)
    (hsafe : ∀ s, P s → step grafo s ≠ .outOfBounds) :
    ∀ (fuel : Nat) (s : State), P s → potential s < fuel →
      ∃ s1, loop grafo fuel s = .done s1.dist ∧ P s1 ∧ s1.pq = []
  | 0, s, _, h => by omega
  | fuel + 1, s, hP, h => by
    simp only [loop]
    cases hs : step grafo s with
    | finished => exact ⟨s, rfl, hP, step_finished_iff.mp hs⟩
    | outOfBounds => exact absurd hs (hsafe s hP)
    | next s1 =>
      have := step_potential hs
      exact loop_invariant P hkeep hsafe fuel s1 (hkeep s s1 hP hs) (by omega)

theorem dijkstraOutput_unique {origem n : Int} {grafo : Grafo} {d1 d2 : List Int}
    (h1 : DijkstraOutput origem n grafo d1) (h2 : DijkstraOutput origem n grafo d2) :
    d1 = d2 := by
  obtain ⟨f1, h1⟩ := h1
  obtain ⟨f2, h2⟩ := h2
  unfold dijkstra at h1 h2
  split at h1
  · rename_i hr
    simp only [hr, and_self, if_true] at h2
    exact loop_done_unique h1 h2
  · simp at h1

/-! ## Dijkstra: index safety and reachability, for weights of either sign -/

theorem walk_snoc {grafo : Grafo} : ∀ {p : List Aresta} {x y : Int} {a : Aresta},
    Walk grafo x p y → a ∈ adj grafo y → Walk grafo x (p ++ [a]) a.destino
  | [], x, y, a, h, ha => by
    simp only [Walk] at h
    subst h
    exact ⟨ha, rfl⟩
  | b :: p, x, y, a, h, ha => ⟨h.1, walk_snoc h.2 ha⟩

theorem pathWeight_snoc (p : List Aresta) (a : Aresta) :
    pathWeight (p ++ [a]) = pathWeight p + a.peso := by
  simp [pathWeight]

theorem reachable_refl (grafo : Grafo) (u : Int) : Reachable grafo u u := ⟨[], rfl⟩

theorem reachable_step {grafo : Grafo} {o u : Int} {a : Aresta}
    (h : Reachable grafo o u) (ha : a ∈ adj grafo u) : Reachable grafo o a.destino := by
  obtain ⟨p, hp⟩ := h
  exact ⟨p ++ [a], walk_snoc hp ha⟩

theorem adj_inRange {grafo : Grafo} {n u : Int} {a : Aresta} (hg : InRange grafo n)
    (ha : a ∈ adj grafo u) : 0 ≤ a.destino ∧ a.destino < n := by
  obtain ⟨l, hl, hal⟩ := adj_mem_grafo ha
  exact hg.2 l hl a hal

theorem relax_eq {u : Int} {s : State} {a : Aresta} (hu0 : 0 ≤ u) (hu1 : u < s.dist.length)
    (hv0 : 0 ≤ a.destino) (hv1 : a.destino < s.dist.length) :
    relax u s a = some (if wrapInt (dAt s.dist u + a.peso) < dAt s.dist a.destino then
      { dist := s.dist.set a.destino.toNat (wrapInt (dAt s.dist u + a.peso)),
        pq := (wrapInt (dAt s.dist u + a.peso), a.destino) :: s.pq }
      else s) := by
  unfold relax
  rw [readAt_eq_dAt hu0 hu1, readAt_eq_dAt hv0 hv1]
  simp only [pqPush]
  split <;> rfl

/-- Induction over the `for` loop: a property `Q done s` of the edges already handled and
the state, kept by every relaxation, holds for the whole list at the end, and the loop
reads only within bounds. -/
theorem relaxAll_induct {u : Int} (Q : List Aresta → State → Prop) (l : List Aresta)
    (hstep : ∀ done a s, a ∈ l → Q done s → ∃ s1, relax u s a = some s1 ∧ Q (done ++ [a]) s1) :
    ∀ (rest done : List Aresta) (s : State), done ++ rest = l → Q done s →
      ∃ s1, relaxAll u rest s = some s1 ∧ Q l s1
  | [], done, s, hl, hQ => by
    simp only [List.append_nil] at hl
    subst hl
    exact ⟨s, rfl, hQ⟩
  | a :: rest, done, s, hl, hQ => by
    have ha : a ∈ l := by rw [← hl]; simp
    obtain ⟨s1, hr, hQ1⟩ := hstep done a s ha hQ
    obtain ⟨s2, hr2, hQ2⟩ := relaxAll_induct Q l hstep rest (done ++ [a]) s1 (by simpa using hl) hQ1
    exact ⟨s2, by simp [relaxAll, hr, hr2], hQ2⟩

theorem step_eq {grafo : Grafo} {s : State} {d u : Int} (ht : pqTop s.pq = some (d, u))
    (h0 : 0 ≤ u) (h1 : u < s.dist.length) (h2 : u < grafo.length) :
    step grafo s =
      if d > dAt s.dist u then .next { dist := s.dist, pq := pqPop s.pq }
      else match relaxAll u (adj grafo u) { dist := s.dist, pq := pqPop s.pq } with
        | none => .outOfBounds
        | some s1 => .next s1 := by
  unfold step
  simp only [ht, readAt_eq_dAt h0 h1, adjAt_eq_adj h0 h2]

theorem mem_pqPop {pq : List (Int × Int)} {e : Int × Int} (h : e ∈ pqPop pq) : e ∈ pq := by
  unfold pqPop at h
  split at h
  · exact h
  · exact List.mem_of_mem_erase h

theorem safe_relax {grafo : Grafo} {n origem u : Int} {s : State} {a : Aresta}
    (hg : InRange grafo n) (hs : Safe grafo n origem s) (hu0 : 0 ≤ u) (hu1 : u < n)
    (hur : Reachable grafo origem u) (ha : a ∈ adj grafo u) :
    ∃ s1, relax u s a = some s1 ∧ Safe grafo n origem s1 := by
  obtain ⟨hv0, hv1⟩ := adj_inRange hg ha
  have hlen := hs.len
  refine ⟨_, relax_eq hu0 (by omega) hv0 (by omega), ?_⟩
  split
  · have hvr := reachable_step hur ha
    refine ⟨by simpa using hlen, ?_, ?_⟩
    · intro e he
      rcases List.mem_cons.mp he with rfl | he
      · exact ⟨hv0, hv1, hvr⟩
      · exact hs.pqIdx e he
    · intro v h0 h1 hne
      rw [dAt_set _ hv0 h0 (by omega)] at hne
      by_cases hv : v = a.destino
      · subst hv; exact hvr
      · simp only [hv, if_false] at hne
        exact hs.reach v h0 h1 hne
  · exact hs

theorem safe_relaxAll {grafo : Grafo} {n origem u : Int} {s : State}
    (hg : InRange grafo n) (hs : Safe grafo n origem s) (hu0 : 0 ≤ u) (hu1 : u < n)
    (hur : Reachable grafo origem u) :
    ∃ s1, relaxAll u (adj grafo u) s = some s1 ∧ Safe grafo n origem s1 :=
  relaxAll_induct (fun _ s => Safe grafo n origem s) (adj grafo u)
    (fun _ _ _ ha hQ => safe_relax hg hQ hu0 hu1 hur ha) (adj grafo u) [] s rfl hs

theorem safe_pop {grafo : Grafo} {n origem : Int} {s : State} (hs : Safe grafo n origem s) :
    Safe grafo n origem { dist := s.dist, pq := pqPop s.pq } :=
  ⟨hs.len, fun e he => hs.pqIdx e (mem_pqPop he), hs.reach⟩

theorem safe_step {grafo : Grafo} {n origem : Int} (hg : InRange grafo n) (s s1 : State)
    (hs : Safe grafo n origem s) (h : step grafo s = .next s1) : Safe grafo n origem s1 := by
  obtain ⟨d, u, ht, -, -, hc⟩ := step_next_cases h
  obtain ⟨hu0, hu1, hur⟩ := hs.pqIdx _ (pqTop_mem ht)
  rcases hc with ⟨-, rfl⟩ | ⟨-, l, hl, hra⟩
  · exact safe_pop hs
  · have hlen := hs.len
    have hgl := hg.1
    rw [adjAt_eq_adj hu0 (by omega)] at hl
    simp only [Option.some.injEq] at hl
    subst hl
    obtain ⟨s2, hr2, hs2⟩ := safe_relaxAll hg (safe_pop hs) hu0 hu1 hur
    rw [hr2] at hra
    simp only [Option.some.injEq] at hra
    subst hra
    exact hs2

theorem safe_no_outOfBounds {grafo : Grafo} {n origem : Int} (hg : InRange grafo n) (s : State)
    (hs : Safe grafo n origem s) : step grafo s ≠ .outOfBounds := by
  cases ht : pqTop s.pq with
  | none => simp [step, ht]
  | some e =>
    obtain ⟨d, u⟩ := e
    obtain ⟨hu0, hu1, hur⟩ := hs.pqIdx _ (pqTop_mem ht)
    have hlen := hs.len
    have hgl := hg.1
    rw [step_eq ht hu0 (by omega) (by omega)]
    split
    · simp
    · obtain ⟨s2, hr2, -⟩ := safe_relaxAll hg (safe_pop hs) hu0 hu1 hur
      simp [hr2]

theorem dAt_replicate {k : Nat} {x v : Int} (h0 : 0 ≤ v) (h1 : v < k) :
    dAt (List.replicate k x) v = x := by
  have h2 : v.toNat < k := by omega
  simp [dAt, readAt, h0, h2]

theorem dAt_init {origem n v : Int} (ho0 : 0 ≤ origem) (ho1 : origem < n) (h0 : 0 ≤ v)
    (h1 : v < n) : dAt (initState origem n).dist v = if v = origem then 0 else INT_MAX := by
  simp only [initState]
  rw [dAt_set _ ho0 h0 (by simp; omega)]
  split
  · rfl
  · exact dAt_replicate h0 (by omega)

theorem safe_init {grafo : Grafo} {n origem : Int} (ho0 : 0 ≤ origem) (ho1 : origem < n) :
    Safe grafo n origem (initState origem n) := by
  refine ⟨by simp [initState]; omega, ?_, ?_⟩
  · intro e he
    simp only [initState, pqPush, List.mem_singleton] at he
    subst he
    exact ⟨ho0, ho1, reachable_refl _ _⟩
  · intro v h0 h1 hne
    rw [dAt_init ho0 ho1 h0 h1] at hne
    by_cases hv : v = origem
    · subst hv; exact reachable_refl _ _
    · simp [hv] at hne

/-- On a graph with destinations in range the loop of `dijkstra` ends, reads only within
bounds, and ends in a state that satisfies `Safe`; the weights may have either sign. -/
theorem dijkstra_safe {grafo : Grafo} {n origem : Int} (hg : InRange grafo n)
    (ho0 : 0 ≤ origem) (ho1 : origem < n) :
    ∃ s, dijkstra (potential (initState origem n) + 1) origem n grafo = .done s.dist ∧
      Safe grafo n origem s ∧ s.pq = [] := by
  have := loop_invariant (Safe grafo n origem) (safe_step hg) (safe_no_outOfBounds hg)
    (potential (initState origem n) + 1) (initState origem n) (safe_init ho0 ho1) (by omega)
  simpa [dijkstra, ho0, ho1] using this

/-! ## Walks, simple paths and their weights -/

theorem adj_nonneg {grafo : Grafo} {u : Int} {a : Aresta} (hnn : NonNeg grafo)
    (ha : a ∈ adj grafo u) : 0 ≤ a.peso := by
  obtain ⟨l, hl, hal⟩ := adj_mem_grafo ha
  exact hnn l hl a hal

theorem walk_edges_nonneg {grafo : Grafo} (hnn : NonNeg grafo) :
    ∀ {p : List Aresta} {x y : Int}, Walk grafo x p y → ∀ a ∈ p, 0 ≤ a.peso
  | [], _, _, _, a, ha => by simp at ha
  | b :: p, _, _, h, a, ha => by
    rcases List.mem_cons.mp ha with rfl | ha
    · exact adj_nonneg hnn h.1
    · exact walk_edges_nonneg hnn h.2 a ha

theorem pathWeight_nonneg {p : List Aresta} (h : ∀ a ∈ p, 0 ≤ a.peso) : 0 ≤ pathWeight p := by
  unfold pathWeight
  apply List.sum_nonneg
  intro x hx
  obtain ⟨a, ha, rfl⟩ := List.mem_map.mp hx
  exact h a ha

theorem walk_weight_nonneg {grafo : Grafo} (hnn : NonNeg grafo) {p : List Aresta} {x y : Int}
    (h : Walk grafo x p y) : 0 ≤ pathWeight p :=
  pathWeight_nonneg (walk_edges_nonneg hnn h)

theorem pathWeight_cons (a : Aresta) (p : List Aresta) :
    pathWeight (a :: p) = a.peso + pathWeight p := by
  simp [pathWeight]

theorem pathWeight_append (p q : List Aresta) :
    pathWeight (p ++ q) = pathWeight p + pathWeight q := by
  simp [pathWeight]

theorem walk_inRange {grafo : Grafo} {n : Int} (hg : InRange grafo n) :
    ∀ {p : List Aresta} {x y : Int}, Walk grafo x p y → 0 ≤ x → x < n → 0 ≤ y ∧ y < n
  | [], x, y, h, h0, h1 => by
    simp only [Walk] at h
    subst h
    exact ⟨h0, h1⟩
  | a :: p, x, y, h, _, _ => by
    obtain ⟨hv0, hv1⟩ := adj_inRange hg h.1
    exact walk_inRange hg h.2 hv0 hv1

/-- A walk that goes through `x` can be cut there: what follows is a walk from `x`, and its
nodes are a final segment of the nodes of the whole walk. -/
theorem walk_split {grafo : Grafo} : ∀ {q : List Aresta} {y v x : Int},
    Walk grafo y q v → x ∈ pathNodes y q →
    ∃ q1 q2 front, q = q1 ++ q2 ∧ Walk grafo x q2 v ∧ pathNodes y q = front ++ pathNodes x q2
  | [], y, v, x, h, hx => by
    simp only [pathNodes, List.map_nil, List.mem_singleton] at hx
    subst hx
    exact ⟨[], [], [], rfl, h, rfl⟩
  | a :: q, y, v, x, h, hx => by
    by_cases hxy : x = y
    · subst hxy
      exact ⟨[], a :: q, [], rfl, h, rfl⟩
    · have hx2 : x ∈ pathNodes a.destino q := by
        simp only [pathNodes, List.map_cons, List.mem_cons] at hx ⊢
        rcases hx with hx | hx
        · exact absurd hx hxy
        · exact hx
      obtain ⟨q1, q2, front, hq, hw, hn⟩ := walk_split h.2 hx2
      refine ⟨a :: q1, q2, y :: front, by simp [hq], hw, ?_⟩
      simp only [pathNodes, List.map_cons, List.cons_append] at hn ⊢
      rw [hn]

/-- With non-negative weights every walk contains a simple path between the same nodes
that weighs no more. -/
theorem exists_simple {grafo : Grafo} (hnn : NonNeg grafo) :
    ∀ {p : List Aresta} {x v : Int}, Walk grafo x p v →
      ∃ q, SimplePath grafo x q v ∧ pathWeight q ≤ pathWeight p
  | [], x, v, h => ⟨[], ⟨h, by simp [pathNodes]⟩, le_refl _⟩
  | a :: p, x, v, h => by
    obtain ⟨q, ⟨hq, hnd⟩, hle⟩ := exists_simple hnn h.2
    have ha := adj_nonneg hnn h.1
    by_cases hx : x ∈ pathNodes a.destino q
    · obtain ⟨q1, q2, front, hsplit, hw, hn⟩ := walk_split hq hx
      refine ⟨q2, ⟨hw, ?_⟩, ?_⟩
      · have hsuf : pathNodes x q2 <:+ pathNodes a.destino q := ⟨front, hn.symm⟩
        exact hnd.sublist hsuf.sublist
      · have h1 : 0 ≤ pathWeight q1 := by
          apply pathWeight_nonneg
          intro b hb
          exact walk_edges_nonneg hnn hq b (by rw [hsplit]; exact List.mem_append_left _ hb)
        rw [hsplit, pathWeight_append] at hle
        rw [pathWeight_cons]
        omega
    · refine ⟨a :: q, ⟨⟨h.1, hq⟩, ?_⟩, ?_⟩
      · have : pathNodes x (a :: q) = x :: pathNodes a.destino q := by simp [pathNodes]
        rw [this]
        exact List.nodup_cons.mpr ⟨hx, hnd⟩
      · rw [pathWeight_cons, pathWeight_cons]
        omega

theorem pathNodes_cons (x : Int) (a : Aresta) (p : List Aresta) :
    pathNodes x (a :: p) = x :: pathNodes a.destino p := by
  simp [pathNodes]

theorem pathNodes_inRange {grafo : Grafo} {n : Int} (hg : InRange grafo n) :
    ∀ {p : List Aresta} {x y : Int}, Walk grafo x p y → 0 ≤ x → x < n →
      ∀ z ∈ pathNodes x p, 0 ≤ z ∧ z < n
  | [], x, y, _, h0, h1, z, hz => by
    simp only [pathNodes, List.map_nil, List.mem_singleton] at hz
    subst hz
    exact ⟨h0, h1⟩
  | a :: p, x, y, h, h0, h1, z, hz => by
    rw [pathNodes_cons] at hz
    rcases List.mem_cons.mp hz with rfl | hz
    · exact ⟨h0, h1⟩
    · obtain ⟨hv0, hv1⟩ := adj_inRange hg h.1
      exact pathNodes_inRange hg h.2 hv0 hv1 z hz

/-- The weight of a walk is at most the sum, over the nodes it leaves, of the weight of
all the edges out of that node. -/
theorem walk_weight_le_sources {grafo : Grafo} (hnn : NonNeg grafo) :
    ∀ {p : List Aresta} {x y : Int}, Walk grafo x p y →
      pathWeight p ≤ (((pathNodes x p).dropLast).map (fun u => pathWeight (adj grafo u))).sum
  | [], x, y, _ => by simp [pathWeight, pathNodes]
  | a :: p, x, y, h => by
    have ih := walk_weight_le_sources hnn h.2
    have hne : pathNodes a.destino p ≠ [] := by simp [pathNodes]
    rw [pathNodes_cons, List.dropLast_cons_of_ne_nil hne, List.map_cons, List.sum_cons,
      pathWeight_cons]
    have hle : a.peso ≤ pathWeight (adj grafo x) := by
      unfold pathWeight
      apply List.single_le_sum
      · intro w hw
        obtain ⟨b, hb, rfl⟩ := List.mem_map.mp hw
        exact adj_nonneg hnn hb
      · exact List.mem_map.mpr ⟨a, h.1, rfl⟩
    omega

theorem sum_range_getD (F : List Aresta → Int) : ∀ g : Grafo,
    ∑ i ∈ Finset.range g.length, F (g[i]?.getD []) = (g.map F).sum
  | [] => by simp
  | l :: g => by
    rw [List.length_cons, Finset.sum_range_succ', List.map_cons, List.sum_cons]
    simp only [List.getElem?_cons_succ, List.getElem?_cons_zero, Option.getD_some]
    rw [sum_range_getD F g]
    omega

/-- The edges out of pairwise different nodes weigh together at most as much as all the
edges of the graph. -/
theorem sum_sources_le_total {grafo : Grafo} {n : Int} (hg : InRange grafo n)
    (hnn : NonNeg grafo) (L : List Int) (hnd : L.Nodup) (hL : ∀ z ∈ L, 0 ≤ z ∧ z < n) :
    (L.map (fun u => pathWeight (adj grafo u))).sum ≤ totalWeight grafo := by
  have hmap : L.map (fun u => pathWeight (adj grafo u)) =
      (L.map Int.toNat).map (fun i => pathWeight (grafo[i]?.getD [])) := by
    rw [List.map_map]
    apply List.map_congr_left
    intro z hz
    have := (hL z hz).1
    simp [adj, adjAt, this]
  have hnd2 : (L.map Int.toNat).Nodup := by
    apply List.Nodup.map_on _ hnd
    intro x hx y hy hxy
    have := (hL x hx).1
    have := (hL y hy).1
    omega
  have hlen := hg.1
  rw [hmap, ← List.sum_toFinset _ hnd2, totalWeight, ← sum_range_getD pathWeight grafo]
  apply Finset.sum_le_sum_of_subset_of_nonneg
  · intro i hi
    simp only [List.mem_toFinset, List.mem_map] at hi
    obtain ⟨z, hz, rfl⟩ := hi
    have := hL z hz
    simp only [Finset.mem_range]
    omega
  · intro i _ _
    apply pathWeight_nonneg
    intro a ha
    cases hgi : grafo[i]? with
    | none => simp [hgi] at ha
    | some l =>
      simp only [hgi, Option.getD_some] at ha
      exact hnn l (List.getElem?_mem hgi) a ha

/-- A simple path followed by one more edge weighs at most as much as all the edges of
the graph. -/
theorem simple_snoc_le_total {grafo : Grafo} {n : Int} (hg : InRange grafo n)
    (hnn : NonNeg grafo) {o u : Int} {q : List Aresta} {a : Aresta} (ho0 : 0 ≤ o) (ho1 : o < n)
    (hq : SimplePath grafo o q u) (ha : a ∈ adj grafo u) :
    pathWeight q + a.peso ≤ totalWeight grafo := by
  have hw := walk_snoc hq.1 ha
  have h1 := walk_weight_le_sources hnn hw
  have hnodes : (pathNodes o (q ++ [a])).dropLast = pathNodes o q := by
    simp [pathNodes]
    rw [← List.cons_append, List.dropLast_concat]
  rw [hnodes, pathWeight_snoc] at h1
  exact le_trans h1 (sum_sources_le_total hg hnn _ hq.2 (pathNodes_inRange hg hq.1 ho0 ho1))

theorem simple_le_total {grafo : Grafo} {n : Int} (hg : InRange grafo n)
    (hnn : NonNeg grafo) {o u : Int} {q : List Aresta} (ho0 : 0 ≤ o) (ho1 : o < n)
    (hq : SimplePath grafo o q u) : pathWeight q ≤ totalWeight grafo := by
  have h1 := walk_weight_le_sources hnn hq.1
  refine le_trans h1 (sum_sources_le_total hg hnn _ (hq.2.sublist (List.dropLast_sublist _)) ?_)
  intro z hz
  exact pathNodes_inRange hg hq.1 ho0 ho1 z ((List.dropLast_sublist _).subset hz)

/-! ## Dijkstra: the invariant for non-negative weights -/

/-- Along any walk that starts at a node whose distance is at most `c`, either the
distance of the end node is at most `c` plus the weight of the walk, or some pair still in
the queue is. -/
theorem inv_walk_bound {grafo : Grafo} {n origem : Int} {s : State} (hg : InRange grafo n)
    (hnn : NonNeg grafo) (hs : Inv grafo n origem s) :
    ∀ (p : List Aresta) (x y c : Int), Walk grafo x p y → 0 ≤ x → x < n → dAt s.dist x ≤ c →
      dAt s.dist y ≤ c + pathWeight p ∨ ∃ e ∈ s.pq, e.1 ≤ c + pathWeight p
  | [], x, y, c, h, _, _, hc => by
    simp only [Walk] at h
    subst h
    left
    simpa [pathWeight] using hc
  | a :: p, x, y, c, h, h0, h1, hc => by
    have hwp := walk_weight_nonneg hnn h.2
    have hap := adj_nonneg hnn h.1
    obtain ⟨hv0, hv1⟩ := adj_inRange hg h.1
    rw [pathWeight_cons]
    by_cases hx : dAt s.dist x < INT_MAX
    · rcases hs.closed x h0 h1 hx with hin | hrel
      · right
        exact ⟨_, hin, by simp only; omega⟩
      · have h2 := hrel a h.1
        rcases inv_walk_bound hg hnn hs p a.destino y (c + a.peso) h.2 hv0 hv1 (by omega) with
          h3 | ⟨e, he, h3⟩
        · left; omega
        · right; exact ⟨e, he, by omega⟩
    · left
      obtain ⟨hy0, hy1⟩ := walk_inRange hg h.2 hv0 hv1
      have := (hs.core.rng y hy0 hy1).2
      omega

theorem core_pop {grafo : Grafo} {n origem : Int} {s : State} (hs : Core grafo n origem s) :
    Core grafo n origem { dist := s.dist, pq := pqPop s.pq } :=
  ⟨hs.len, hs.rng, hs.src, fun e he => hs.pqOk e (mem_pqPop he), hs.walk⟩

theorem mem_pqPop_of_ne {pq : List (Int × Int)} {e t : Int × Int} (ht : pqTop pq = some t)
    (he : e ∈ pq) (hne : e ≠ t) : e ∈ pqPop pq := by
  rw [pqPop_of_top ht]
  exact (List.mem_erase_of_ne hne).mpr he

/-- One relaxation keeps the invariant of the `for` loop, as long as `d + peso` does not
overflow. -/
theorem invIn_relax {grafo : Grafo} {n origem u d : Int} {done : List Aresta} {s : State}
    {a : Aresta} (hg : InRange grafo n) (hnn : NonNeg grafo) (ho0 : 0 ≤ origem)
    (hu0 : 0 ≤ u) (hu1 : u < n) (hd0 : 0 ≤ d)
    (hno : ∀ b ∈ adj grafo u, d + b.peso ≤ INT_MAX)
    (hs : InvIn grafo n origem u d done s) (ha : a ∈ adj grafo u) :
    ∃ s1, relax u s a = some s1 ∧ InvIn grafo n origem u d (done ++ [a]) s1 := by
  obtain ⟨hv0, hv1⟩ := adj_inRange hg ha
  have hlen := hs.core.len
  have hap := adj_nonneg hnn ha
  have hov := hno a ha
  have hfix := hs.fixed
  have hwrap : wrapInt (d + a.peso) = d + a.peso := by
    unfold INT_MAX at hov
    exact wrapInt_eq (by omega) hov
  refine ⟨_, relax_eq hu0 (by omega) hv0 (by omega), ?_⟩
  rw [hfix, hwrap]
  split
  · rename_i hlt
    have hD : ∀ w, 0 ≤ w → dAt (s.dist.set a.destino.toNat (d + a.peso)) w =
        if w = a.destino then d + a.peso else dAt s.dist w :=
      fun w hw => dAt_set _ hv0 hw (by omega)
    have hmono : ∀ w, dAt (s.dist.set a.destino.toNat (d + a.peso)) w ≤ dAt s.dist w := by
      intro w
      by_cases hw : 0 ≤ w
      · rw [hD w hw]
        split
        · rename_i hwv; subst hwv; omega
        · exact le_refl _
      · simp [dAt, readAt, hw]
    have hvu : a.destino ≠ u := by
      intro h; rw [h] at hlt; omega
    have hvo : a.destino ≠ origem := by
      intro h; rw [h, hs.core.src] at hlt; omega
    have hvmax := (hs.core.rng a.destino hv0 hv1).2
    refine ⟨⟨by simpa using hlen, ?_, ?_, ?_, ?_⟩, ?_, ?_, ?_⟩
    · intro w h0 h1
      rw [hD w h0]
      split
      · omega
      · exact hs.core.rng w h0 h1
    · rw [hD origem ho0, if_neg (Ne.symm hvo)]
      exact hs.core.src
    · intro e he
      rcases List.mem_cons.mp he with rfl | he
      · refine ⟨hv0, hv1, ?_, by simp only; omega⟩
        simp only
        rw [hD _ hv0, if_pos rfl]
      · obtain ⟨h0, h1, h2, h3⟩ := hs.core.pqOk e he
        exact ⟨h0, h1, le_trans (hmono _) h2, h3⟩
    · intro w h0 h1 hlt2
      rw [hD w h0] at hlt2 ⊢
      by_cases hwv : w = a.destino
      · subst hwv
        simp only [if_true]
        obtain ⟨p, hp, hpw⟩ := hs.core.walk u hu0 hu1 (by rw [hfix]; omega)
        exact ⟨p ++ [a], walk_snoc hp ha, by rw [pathWeight_snoc, hpw, hfix]⟩
      · simp only [hwv, if_false] at hlt2 ⊢
        exact hs.core.walk w h0 h1 hlt2
    · show dAt (s.dist.set a.destino.toNat (d + a.peso)) u = d
      rw [hD u hu0, if_neg (Ne.symm hvu)]
      exact hfix
    · intro w h0 h1 hwu hlt2
      simp only at hlt2 ⊢
      by_cases hwv : w = a.destino
      · left
        rw [hD w h0, if_pos hwv, hwv]
        exact List.mem_cons_self _ _
      · rw [hD w h0, if_neg hwv] at hlt2 ⊢
        rcases hs.others w h0 h1 hwu hlt2 with hin | hrel
        · left; exact List.mem_cons_of_mem _ hin
        · right
          intro b hb
          exact le_trans (hmono _) (hrel b hb)
    · intro b hb
      simp only
      rcases List.mem_append.mp hb with hb | hb
      · exact le_trans (hmono _) (hs.relaxed b hb)
      · simp only [List.mem_singleton] at hb
        subst hb
        rw [hD _ hv0, if_pos rfl]
  · rename_i hnlt
    refine ⟨hs.core, hfix, hs.others, ?_⟩
    intro b hb
    rcases List.mem_append.mp hb with hb | hb
    · exact hs.relaxed b hb
    · simp only [List.mem_singleton] at hb
      subst hb
      omega

/-- When the least pair `(d, u)` of the queue is not stale, `d` is the distance of `u` and
no walk from `origem` to `u` weighs less. -/
theorem inv_top_min {grafo : Grafo} {n origem : Int} {s : State} (hg : InRange grafo n)
    (hnn : NonNeg grafo) (ho0 : 0 ≤ origem) (ho1 : origem < n) (hs : Inv grafo n origem s)
    {d u : Int} (ht : pqTop s.pq = some (d, u)) (hd : d ≤ dAt s.dist u) :
    dAt s.dist u = d ∧ ∀ p, Walk grafo origem p u → d ≤ pathWeight p := by
  obtain ⟨-, -, hle, -⟩ := hs.core.pqOk _ (pqTop_mem ht)
  simp only at hle
  have heq : dAt s.dist u = d := le_antisymm hle hd
  refine ⟨heq, ?_⟩
  intro p hp
  rcases inv_walk_bound hg hnn hs p origem u 0 hp ho0 ho1 (le_of_eq hs.core.src) with h | ⟨e, he, h⟩
  · omega
  · have := pqTop_le ht e he
    simp only at this
    omega

theorem inv_pop_stale {grafo : Grafo} {n origem : Int} {s : State}
    (hs : Inv grafo n origem s) {d u : Int} (ht : pqTop s.pq = some (d, u))
    (hstale : dAt s.dist u < d) : Inv grafo n origem { dist := s.dist, pq := pqPop s.pq } := by
  refine ⟨core_pop hs.core, ?_⟩
  intro w h0 h1 hlt
  rcases hs.closed w h0 h1 hlt with hin | hrel
  · left
    refine mem_pqPop_of_ne ht hin ?_
    intro heq
    have h1 := congrArg Prod.fst heq
    have h2 := congrArg Prod.snd heq
    simp only at h1 h2
    subst h2
    omega
  · right; exact hrel

/-- A turn of the loop that takes a pair that is not stale: the `for` loop reads within
bounds and re-establishes the invariant. -/
theorem inv_expand {grafo : Grafo} {n origem : Int} {s : State} (hg : InRange grafo n)
    (hnn : NonNeg grafo) (htot : totalWeight grafo ≤ INT_MAX) (ho0 : 0 ≤ origem)
    (ho1 : origem < n) (hs : Inv grafo n origem s) {d u : Int}
    (ht : pqTop s.pq = some (d, u)) (hd : d ≤ dAt s.dist u) :
    ∃ s2, relaxAll u (adj grafo u) { dist := s.dist, pq := pqPop s.pq } = some s2 ∧
      Inv grafo n origem s2 := by
  obtain ⟨hu0, hu1, -, hdmax⟩ := hs.core.pqOk _ (pqTop_mem ht)
  simp only at hu0 hu1 hdmax
  obtain ⟨hfix, hmin⟩ := inv_top_min hg hnn ho0 ho1 hs ht hd
  have hd0 : 0 ≤ d := by
    have := (hs.core.rng u hu0 hu1).1
    omega
  obtain ⟨p, hp, hpw⟩ := hs.core.walk u hu0 hu1 (by omega)
  obtain ⟨q, hq, hqw⟩ := exists_simple hnn hp
  have hqd : pathWeight q = d := by
    have := hmin q hq.1
    omega
  have hno : ∀ b ∈ adj grafo u, d + b.peso ≤ INT_MAX := by
    intro b hb
    have := simple_snoc_le_total hg hnn ho0 ho1 hq hb
    omega
  have hstart : InvIn grafo n origem u d [] { dist := s.dist, pq := pqPop s.pq } := by
    refine ⟨core_pop hs.core, hfix, ?_, by simp⟩
    intro w h0 h1 hwu hlt
    rcases hs.closed w h0 h1 hlt with hin | hrel
    · left
      refine mem_pqPop_of_ne ht hin ?_
      intro heq
      exact hwu (congrArg Prod.snd heq)
    · right; exact hrel
  obtain ⟨s2, hr2, hs2⟩ := relaxAll_induct
    (fun done s => InvIn grafo n origem u d done s) (adj grafo u)
    (fun _ _ _ ha hQ => invIn_relax hg hnn ho0 hu0 hu1 hd0 hno hQ ha)
    (adj grafo u) [] _ rfl hstart
  refine ⟨s2, hr2, hs2.core, ?_⟩
  intro w h0 h1
  by_cases hwu : w = u
  · subst hwu
    intro _
    right
    intro b hb
    rw [hs2.fixed]
    exact hs2.relaxed b hb
  · exact hs2.others w h0 h1 hwu

theorem inv_step {grafo : Grafo} {n origem : Int} (hg : InRange grafo n) (hnn : NonNeg grafo)
    (htot : totalWeight grafo ≤ INT_MAX) (ho0 : 0 ≤ origem) (ho1 : origem < n)
    (s s1 : State) (hs : Inv grafo n origem s) (h : step grafo s = .next s1) :
    Inv grafo n origem s1 := by
  obtain ⟨d, u, ht, -, -, hc⟩ := step_next_cases h
  obtain ⟨hu0, hu1, -, -⟩ := hs.core.pqOk _ (pqTop_mem ht)
  simp only at hu0 hu1
  rcases hc with ⟨hstale, rfl⟩ | ⟨hd, l, hl, hra⟩
  · exact inv_pop_stale hs ht hstale
  · have hlen := hs.core.len
    have hgl := hg.1
    rw [adjAt_eq_adj hu0 (by omega)] at hl
    simp only [Option.some.injEq] at hl
    subst hl
    obtain ⟨s2, hr2, hs2⟩ := inv_expand hg hnn htot ho0 ho1 hs ht hd
    rw [hr2] at hra
    simp only [Option.some.injEq] at hra
    subst hra
    exact hs2

theorem inv_no_outOfBounds {grafo : Grafo} {n origem : Int} (hg : InRange grafo n)
    (hnn : NonNeg grafo) (htot : totalWeight grafo ≤ INT_MAX) (ho0 : 0 ≤ origem)
    (ho1 : origem < n) (s : State) (hs : Inv grafo n origem s) :
    step grafo s ≠ .outOfBounds := by
  cases ht : pqTop s.pq with
  | none => simp [step, ht]
  | some e =>
    obtain ⟨d, u⟩ := e
    obtain ⟨hu0, hu1, -, -⟩ := hs.core.pqOk _ (pqTop_mem ht)
    simp only at hu0 hu1
    have hlen := hs.core.len
    have hgl := hg.1
    rw [step_eq ht hu0 (by omega) (by omega)]
    split
    · simp
    · rename_i hd
      obtain ⟨s2, hr2, -⟩ := inv_expand hg hnn htot ho0 ho1 hs ht (by omega)
      simp [hr2]

theorem inv_init {grafo : Grafo} {n origem : Int} (ho0 : 0 ≤ origem) (ho1 : origem < n) :
    Inv grafo n origem (initState origem n) := by
  have hD : ∀ v, 0 ≤ v → v < n →
      dAt (initState origem n).dist v = if v = origem then 0 else INT_MAX :=
    fun v h0 h1 => dAt_init ho0 ho1 h0 h1
  have hpq : (initState origem n).pq = [(0, origem)] := rfl
  refine ⟨⟨by simp [initState]; omega, ?_, ?_, ?_, ?_⟩, ?_⟩
  · intro v h0 h1
    rw [hD v h0 h1]
    split <;> simp [INT_MAX]
  · rw [hD origem ho0 ho1, if_pos rfl]
  · intro e he
    rw [hpq, List.mem_singleton] at he
    subst he
    refine ⟨ho0, ho1, ?_, by simp [INT_MAX]⟩
    simp only
    rw [hD origem ho0 ho1, if_pos rfl]
  · intro v h0 h1 hlt
    rw [hD v h0 h1] at hlt ⊢
    by_cases hv : v = origem
    · subst hv
      exact ⟨[], rfl, by simp [pathWeight]⟩
    · simp [hv] at hlt
  · intro u h0 h1 hlt
    left
    rw [hD u h0 h1] at hlt ⊢
    by_cases hu : u = origem
    · subst hu
      simp [hpq]
    · simp [hu] at hlt

/-- With destinations in range, non-negative weights and a total weight of at most
`INT_MAX`, the loop of `dijkstra` ends in a state with an empty queue that satisfies the
invariant. -/
theorem dijkstra_inv {grafo : Grafo} {n origem : Int} (hg : InRange grafo n)
    (hnn : NonNeg grafo) (htot : totalWeight grafo ≤ INT_MAX) (ho0 : 0 ≤ origem)
    (ho1 : origem < n) :
    ∃ s, dijkstra (potential (initState origem n) + 1) origem n grafo = .done s.dist ∧
      Inv grafo n origem s ∧ s.pq = [] := by
  have := loop_invariant (Inv grafo n origem) (inv_step hg hnn htot ho0 ho1)
    (inv_no_outOfBounds hg hnn htot ho0 ho1)
    (potential (initState origem n) + 1) (initState origem n) (inv_init ho0 ho1) (by omega)
  simpa [dijkstra, ho0, ho1] using this

/-- The distances printed by `dijkstra`, under the same conditions: the length is `n`, the
distance of a node that can be reached is the least weight of a simple path to it, and
every other distance is `INT_MAX`. -/
theorem dijkstra_exact {grafo : Grafo} {n origem : Int} (hg : InRange grafo n)
    (hnn : NonNeg grafo) (htot : totalWeight grafo ≤ INT_MAX) (ho0 : 0 ≤ origem)
    (ho1 : origem < n) :
    ∃ dist, DijkstraOutput origem n grafo dist ∧ (dist.length : Int) = n ∧
      ∀ v, 0 ≤ v → v < n →
        (Reachable grafo origem v → IsMinPathWeight grafo origem v (dAt dist v)) ∧
        (¬ Reachable grafo origem v → dAt dist v = INT_MAX) := by
  obtain ⟨s, hrun, hs, hpq⟩ := dijkstra_inv hg hnn htot ho0 ho1
  refine ⟨s.dist, ⟨_, hrun⟩, hs.core.len, ?_⟩
  intro v h0 h1
  have hbound : ∀ p, Walk grafo origem p v → dAt s.dist v ≤ pathWeight p := by
    intro p hp
    rcases inv_walk_bound hg hnn hs p origem v 0 hp ho0 ho1 (le_of_eq hs.core.src) with
      h | ⟨e, he, -⟩
    · omega
    · rw [hpq] at he; simp at he
  have hmax := (hs.core.rng v h0 h1).2
  constructor
  · rintro ⟨p0, hp0⟩
    by_cases hlt : dAt s.dist v < INT_MAX
    · obtain ⟨p, hp, hpw⟩ := hs.core.walk v h0 h1 hlt
      obtain ⟨q, hq, hqw⟩ := exists_simple hnn hp
      have := hbound q hq.1
      exact ⟨⟨q, hq, by omega⟩, fun r hr => hbound r hr.1⟩
    · obtain ⟨q, hq, hqw⟩ := exists_simple hnn hp0
      have h1 := hbound q hq.1
      have h2 := simple_le_total hg hnn ho0 ho1 hq
      exact ⟨⟨q, hq, by omega⟩, fun r hr => hbound r hr.1⟩
  · intro hnr
    by_contra hne
    obtain ⟨p, hp, -⟩ := hs.core.walk v h0 h1 (by omega)
    exact hnr ⟨p, hp⟩

/-! ## Graphs that differ in the order of the adjacency lists -/

theorem isMinPathWeight_unique {grafo : Grafo} {u v a b : Int}
    (ha : IsMinPathWeight grafo u v a) (hb : IsMinPathWeight grafo u v b) : a = b := by
  obtain ⟨⟨p, hp, hpa⟩, hamin⟩ := ha
  obtain ⟨⟨q, hq, hqb⟩, hbmin⟩ := hb
  have h1 := hamin q hq
  have h2 := hbmin p hp
  omega

theorem forall₂_perm_getD {g1 g2 : Grafo} (h : List.Forall₂ List.Perm g1 g2) :
    ∀ i : Nat, ((g1[i]?).getD []).Perm ((g2[i]?).getD []) := by
  induction h with
  | nil => intro i; simp
  | cons hp _ ih =>
    intro i
    cases i with
    | zero => simpa using hp
    | succ i => simpa using ih i

theorem adj_perm {g1 g2 : Grafo} (h : List.Forall₂ List.Perm g1 g2) (u : Int) :
    (adj g1 u).Perm (adj g2 u) := by
  unfold adj adjAt
  split
  · exact forall₂_perm_getD h _
  · simp

theorem walk_mono {g1 g2 : Grafo} (h : ∀ u a, a ∈ adj g1 u → a ∈ adj g2 u) :
    ∀ {p : List Aresta} {x y : Int}, Walk g1 x p y → Walk g2 x p y
  | [], _, _, hw => hw
  | _ :: _, _, _, hw => ⟨h _ _ hw.1, walk_mono h hw.2⟩

theorem walk_perm {g1 g2 : Grafo} (h : List.Forall₂ List.Perm g1 g2) {p : List Aresta}
    {x y : Int} : Walk g1 x p y ↔ Walk g2 x p y :=
  ⟨walk_mono (fun u _ ha => (adj_perm h u).subset ha),
   walk_mono (fun u _ ha => (adj_perm h u).symm.subset ha)⟩

theorem mem_of_forall₂_perm {g1 g2 : Grafo} (h : List.Forall₂ List.Perm g1 g2) :
    ∀ l2 ∈ g2, ∃ l1 ∈ g1, l1.Perm l2 := by
  induction h with
  | nil => intro l2 hl; simp at hl
  | cons hp _ ih =>
    intro l2 hl
    rcases List.mem_cons.mp hl with rfl | hl
    · exact ⟨_, List.mem_cons_self _ _, hp⟩
    · obtain ⟨l1, h1, h2⟩ := ih l2 hl
      exact ⟨l1, List.mem_cons_of_mem _ h1, h2⟩

theorem inRange_perm {g1 g2 : Grafo} {n : Int} (h : List.Forall₂ List.Perm g1 g2)
    (hg : InRange g1 n) : InRange g2 n := by
  refine ⟨by rw [← h.length_eq]; exact hg.1, ?_⟩
  intro l2 hl a ha
  obtain ⟨l1, h1, hp⟩ := mem_of_forall₂_perm h l2 hl
  exact hg.2 l1 h1 a (hp.symm.subset ha)

theorem nonNeg_perm {g1 g2 : Grafo} (h : List.Forall₂ List.Perm g1 g2) (hnn : NonNeg g1) :
    NonNeg g2 := by
  intro l2 hl a ha
  obtain ⟨l1, h1, hp⟩ := mem_of_forall₂_perm h l2 hl
  exact hnn l1 h1 a (hp.symm.subset ha)

theorem totalWeight_perm {g1 g2 : Grafo} (h : List.Forall₂ List.Perm g1 g2) :
    totalWeight g1 = totalWeight g2 := by
  unfold totalWeight
  induction h with
  | nil => rfl
  | cons hp _ ih =>
    simp only [List.map_cons, List.sum_cons, ih]
    congr 1
    exact (hp.map Aresta.peso).sum_eq

theorem isMinPathWeight_perm {g1 g2 : Grafo} (h : List.Forall₂ List.Perm g1 g2)
    {u v d : Int} (hm : IsMinPathWeight g1 u v d) : IsMinPathWeight g2 u v d := by
  obtain ⟨⟨p, hp, hpw⟩, hmin⟩ := hm
  exact ⟨⟨p, ⟨(walk_perm h).mp hp.1, hp.2⟩, hpw⟩,
    fun q hq => hmin q ⟨(walk_perm h).mpr hq.1, hq.2⟩⟩

theorem ext_dAt {d1 d2 : List Int} {n : Int} (h1 : (d1.length : Int) = n)
    (h2 : (d2.length : Int) = n) (h : ∀ v, 0 ≤ v → v < n → dAt d1 v = dAt d2 v) : d1 = d2 := by
  apply List.ext_getElem (by omega)
  intro i hi1 hi2
  have := h (i : Int) (by omega) (by omega)
  rw [dAt_eq_get (by omega) (by simpa using hi1), dAt_eq_get (by omega) (by simpa using hi2)]
    at this
  simpa using this

theorem reachable_inRange {grafo : Grafo} {n origem v : Int} (hg : InRange grafo n)
    (ho0 : 0 ≤ origem) (ho1 : origem < n) (h : Reachable grafo origem v) : 0 ≤ v ∧ v < n := by
  obtain ⟨p, hp⟩ := h
  exact walk_inRange hg hp ho0 ho1

/-! ## Concrete graphs -/

theorem mainGrafo_inRange : InRange mainGrafo 5 := by unfold InRange; decide

theorem mainGrafo_nonNeg : NonNeg mainGrafo := by unfold NonNeg; decide

theorem mainGrafo_total : totalWeight mainGrafo ≤ INT_MAX := by decide

/-! ## Dijkstra: the turns of a run -/

theorem relax_cases {u : Int} {s s1 : State} {a : Aresta} (h : relax u s a = some s1) :
    s1 = s ∨ ∃ x, x < dAt s.dist a.destino ∧
      s1 = { dist := s.dist.set a.destino.toNat x, pq := pqPush (x, a.destino) s.pq } := by
  unfold relax at h
  cases hu : readAt s.dist u with
  | none => simp [hu] at h
  | some du =>
    cases hv : readAt s.dist a.destino with
    | none => simp [hu, hv] at h
    | some dv =>
      simp only [hu, hv] at h
      obtain ⟨-, -, h2⟩ := readAt_some hv
      split at h
      · rename_i hless
        simp only [Option.some.injEq] at h
        exact Or.inr ⟨_, by rw [h2]; exact hless, h.symm⟩
      · simp only [Option.some.injEq] at h
        exact Or.inl h.symm

/-- A property that every turn keeps and under which no turn reads outside the bounds:
the run reaches, after fewer turns than the fuel, a state with an empty queue that has the
property, and the loop returns the distances of that state. -/
theorem loop_reaches {grafo : Grafo} (P : State → Prop)
    (hkeep : ∀ s s1, P s → step grafo s = .next s1 → P s1)
    (hsafe : ∀ s, P s → step grafo s ≠ .outOfBounds) :
    ∀ (fuel : Nat) (s : State), P s → potential s < fuel →
      ∃ k s1, k < fuel ∧ runN grafo k s = some s1 ∧ P s1 ∧ s1.pq = [] ∧
        ∀ j, loop grafo (k + j) s = .done s1.dist
  | 0, s, _, h => by omega
  | fuel + 1, s, hP, h => by
    cases hs : step grafo s with
    | finished =>
      have hpq := step_finished_iff.mp hs
      refine ⟨0, s, by omega, rfl, hP, hpq, ?_⟩
      intro j
      cases j with
      | zero => simp [loop, hpq]
      | succ j => simp [loop, hs]
    | outOfBounds => exact absurd hs (hsafe s hP)
    | next s1 =>
      have := step_potential hs
      obtain ⟨k, s2, hk, hrun, hP2, hpq, hloop⟩ :=
        loop_reaches P hkeep hsafe fuel s1 (hkeep s s1 hP hs) (by omega)
      refine ⟨k + 1, s2, by omega, by simp [runN, hs, hrun], hP2, hpq, ?_⟩
      intro j
      have e : k + 1 + j = (k + j) + 1 := by omega
      rw [e]
      simp only [loop, hs]
      exact hloop j

theorem runN_add {grafo : Grafo} : ∀ (k j : Nat) (s s1 : State),
    runN grafo k s = some s1 → runN grafo (k + j) s = runN grafo j s1
  | 0, j, s, s1, h => by
    simp only [runN, Option.some.injEq] at h
    subst h
    simp
  | k + 1, j, s, s1, h => by
    have e : k + 1 + j = (k + j) + 1 := by omega
    rw [e]
    simp only [runN] at h ⊢
    cases hs : step grafo s with
    | finished => simp [hs] at h
    | outOfBounds => simp [hs] at h
    | next s2 =>
      simp only [hs] at h ⊢
      exact runN_add k j s2 s1 h

/-- A property that holds at the start and is kept by every turn holds after any number of
turns. -/
theorem runN_invariant {grafo : Grafo} (P : State → Prop)
    (hkeep : ∀ s s1, P s → step grafo s = .next s1 → P s1) :
    ∀ (k : Nat) (s s1 : State), P s → runN grafo k s = some s1 → P s1
  | 0, s, s1, hP, h => by
    simp only [runN, Option.some.injEq] at h
    subst h
    exact hP
  | k + 1, s, s1, hP, h => by
    simp only [runN] at h
    cases hs : step grafo s with
    | finished => simp [hs] at h
    | outOfBounds => simp [hs] at h
    | next s2 =>
      simp only [hs] at h
      exact runN_invariant P hkeep k s2 s1 (hkeep s s2 hP hs) h

/-! ## Trees: number of emitted values -/

theorem preorder_length (t : Node) : (preorder t).length = t.size := by
  refine Node.rec
    (motive_1 := fun t => (preorder t).length = t.size)
    (motive_2 := fun cs => (preorderList cs).length = sizeList cs)
    ?_ ?_ ?_ t
  · intro v cs ih
    simp only [preorder, Node.size, List.length_cons, ih]
    omega
  · simp [preorderList, sizeList]
  · intro c cs ihc ihcs
    simp [preorderList, sizeList, ihc, ihcs]

theorem bfsLoop_short : ∀ (fuel : Nat) (q : List Node) (out : List Int),
    fuel < sizeList q → bfsLoop fuel q out = none
  | 0, [], _, h => by simp [sizeList] at h
  | 0, _ :: _, _, _ => rfl
  | fuel + 1, [], _, h => by simp [sizeList] at h
  | fuel + 1, c :: q, out, h => by
    simp only [bfsLoop, pushChildren_eq]
    apply bfsLoop_short fuel
    rw [sizeList_append]
    simp only [sizeList, size_children c] at h
    omega

/-! ## Dijkstra: the points of a run -/

theorem loop_no_outOfBounds {grafo : Grafo} (P : State → Prop)
    (hkeep : ∀ s s1, P s → step grafo s = .next s1 → P s1)
    (hsafe : ∀ s, P s → step grafo s ≠ .outOfBounds) :
    ∀ (fuel : Nat) (s : State), P s → loop grafo fuel s ≠ .outOfBounds
  | 0, s, _ => by
    simp only [loop]
    split <;> simp
  | fuel + 1, s, hP => by
    simp only [loop]
    cases hs : step grafo s with
    | finished => simp
    | outOfBounds => exact absurd hs (hsafe s hP)
    | next s1 => exact loop_no_outOfBounds P hkeep hsafe fuel s1 (hkeep s s1 hP hs)

/-- A property `P` kept by whole turns and a property `Q` that follows from `P`, holds
after `pq.pop()` and holds after relaxing the first few edges of a node that passed the
stale check: `Q` holds at every point of the run. -/
theorem runPoint_induct {grafo : Grafo} {origem n : Int} (P Q : State → Prop)
    (hinit : P (initState origem n))
    (hkeep : ∀ s s1, P s → step grafo s = .next s1 → P s1)
    (hPQ : ∀ s, P s → Q s)
    (hpop : ∀ s d u, P s → pqTop s.pq = some (d, u) → Q { dist := s.dist, pq := pqPop s.pq })
    (hrelax : ∀ s d u done rest s1, P s → pqTop s.pq = some (d, u) → d ≤ dAt s.dist u →
      adj grafo u = done ++ rest →
      relaxAll u done { dist := s.dist, pq := pqPop s.pq } = some s1 → Q s1) :
    ∀ s1, RunPoint grafo origem n s1 → Q s1 := by
  rintro s1 ⟨s, ⟨k, hk⟩, hs1⟩
  have hP : P s := runN_invariant P hkeep k _ s hinit hk
  rcases hs1 with rfl | ⟨d, u, ht, rfl | ⟨hd, done, rest, hadj, hr⟩⟩
  · exact hPQ _ hP
  · exact hpop s d u hP ht
  · exact hrelax s d u done rest s1 hP ht hd hadj hr

theorem safe_runPoint {grafo : Grafo} {n origem : Int} (hg : InRange grafo n)
    (ho0 : 0 ≤ origem) (ho1 : origem < n) :
    ∀ s, RunPoint grafo origem n s → Safe grafo n origem s := by
  apply runPoint_induct (Safe grafo n origem) (Safe grafo n origem) (safe_init ho0 ho1)
    (safe_step hg) (fun _ h => h) (fun _ _ _ h _ => safe_pop h)
  intro s d u done rest s1 hs ht _ hadj hr
  obtain ⟨hu0, hu1, hur⟩ := hs.pqIdx _ (pqTop_mem ht)
  obtain ⟨s2, hr2, hs2⟩ := relaxAll_induct (fun _ s => Safe grafo n origem s) done
    (fun _ a _ ha hQ => safe_relax hg hQ hu0 hu1 hur
      (by rw [hadj]; exact List.mem_append_left _ ha))
    done [] _ rfl (safe_pop hs)
  rw [hr2] at hr
  simp only [Option.some.injEq] at hr
  subst hr
  exact hs2

/-! ## Dijkstra: the invariant for weights of either sign -/

/-- Induction over the `for` loop when `bad` flags none of its sums. -/
theorem relaxAll_induct_flags {u : Int} (bad : Int → Int → Bool)
    (Q : List Aresta → State → Prop) (l : List Aresta)
    (hstep : ∀ done a s, a ∈ l → Q done s → bad (dAt s.dist u) a.peso = false →
      ∃ s1, relax u s a = some s1 ∧ Q (done ++ [a]) s1) :
    ∀ (rest done : List Aresta) (s : State), done ++ rest = l → Q done s →
      relaxAllFlags bad u rest s = false → ∃ s1, relaxAll u rest s = some s1 ∧ Q l s1
  | [], done, s, hl, hQ, _ => by
    simp only [List.append_nil] at hl
    subst hl
    exact ⟨s, rfl, hQ⟩
  | a :: rest, done, s, hl, hQ, hf => by
    have ha : a ∈ l := by rw [← hl]; simp
    simp only [relaxAllFlags, Bool.or_eq_false_iff] at hf
    obtain ⟨s1, hr, hQ1⟩ := hstep done a s ha hQ hf.1
    have hf2 := hf.2
    simp only [hr] at hf2
    obtain ⟨s2, hr2, hQ2⟩ :=
      relaxAll_induct_flags bad Q l hstep rest (done ++ [a]) s1 (by simpa using hl) hQ1 hf2
    exact ⟨s2, by simp [relaxAll, hr, hr2], hQ2⟩

theorem dAt_neg {dist : List Int} {w : Int} (h : ¬ 0 ≤ w) : dAt dist w = 0 := by
  simp [dAt, readAt, h]

theorem dAt_set_le {dist : List Int} {v x : Int} (hv0 : 0 ≤ v) (hv1 : v < dist.length)
    (hx : x ≤ dAt dist v) (w : Int) : dAt (dist.set v.toNat x) w ≤ dAt dist w := by
  by_cases hw : 0 ≤ w
  · rw [dAt_set _ hv0 hw hv1]
    split
    · rename_i hwv; subst hwv; exact hx
    · exact le_refl _
  · rw [dAt_neg hw, dAt_neg hw]

theorem genIn_push {bad : Int → Int → Bool} {grafo : Grafo} {n u x : Int}
    {done : List Aresta} {s s1 : State} {a : Aresta} (hg : InRange grafo n)
    (hu0 : 0 ≤ u) (hs : GenIn bad grafo n u done s) (ha : a ∈ adj grafo u)
    (hb : bad (dAt s.dist u) a.peso = false) (hx : x = wrapInt (dAt s.dist u + a.peso))
    (hlt : x < dAt s.dist a.destino) (hdist : s1.dist = s.dist.set a.destino.toNat x)
    (hpq : s1.pq = (x, a.destino) :: s.pq) : GenIn bad grafo n u (done ++ [a]) s1 := by
  obtain ⟨hv0, hv1⟩ := adj_inRange hg ha
  have hlen := hs.len
  have hD : ∀ w, 0 ≤ w → dAt s1.dist w = if w = a.destino then x else dAt s.dist w := by
    intro w hw
    rw [hdist]
    exact dAt_set _ hv0 hw (by omega)
  have hmono : ∀ w, dAt s1.dist w ≤ dAt s.dist w := by
    intro w
    rw [hdist]
    exact dAt_set_le hv0 (by omega) (le_of_lt hlt) w
  have hkeep : ∀ w l, w ≠ a.destino → 0 ≤ w → OpenOrDone bad s w l → OpenOrDone bad s1 w l := by
    intro w l hwv hw0 h
    unfold OpenOrDone at h ⊢
    rw [hD w hw0, if_neg hwv, hpq]
    rcases h with hin | hrel
    · left; exact List.mem_cons_of_mem _ hin
    · right
      intro b hb
      refine ⟨(hrel b hb).1, ?_⟩
      have h1 := (hrel b hb).2
      have h2 := hmono b.destino
      omega
  have hopen : ∀ l, OpenOrDone bad s1 a.destino l := by
    intro l
    left
    rw [hD _ hv0, if_pos rfl, hpq]
    exact List.mem_cons_self _ _
  refine ⟨by rw [hdist]; simpa using hlen, ?_, ?_, ?_, ?_, ?_, ?_⟩
  · intro w h0 h1
    exact le_trans (hmono w) (hs.hi w h0 h1)
  · intro e he
    rw [hpq] at he
    rcases List.mem_cons.mp he with rfl | he
    · exact ⟨hv0, hv1⟩
    · exact hs.pqIdx e he
  · intro e he
    rw [hpq] at he
    rcases List.mem_cons.mp he with rfl | he
    · simp only
      rw [hD _ hv0, if_pos rfl]
    · exact le_trans (hmono _) (hs.pqGe e he)
  · intro e he
    rw [hpq] at he
    rcases List.mem_cons.mp he with rfl | he
    · have := hs.hi a.destino hv0 hv1
      simp only
      omega
    · exact hs.pqLt e he
  · intro w h0 h1 hwu hne
    by_cases hwv : w = a.destino
    · subst hwv; exact hopen _
    · rw [hD w h0, if_neg hwv] at hne
      exact hkeep w _ hwv h0 (hs.others w h0 h1 hwu hne)
  · by_cases huv : u = a.destino
    · rw [huv]; exact hopen _
    · have h1 := hkeep u done huv hu0 hs.mine
      unfold OpenOrDone at h1 ⊢
      rcases h1 with hin | hrel
      · left; exact hin
      · right
        intro b hb2
        rcases List.mem_append.mp hb2 with hb2 | hb2
        · exact hrel b hb2
        · simp only [List.mem_singleton] at hb2
          subst hb2
          rw [hD u hu0, if_neg huv, hD _ hv0, if_pos rfl]
          refine ⟨hb, ?_⟩
          rw [← hx]
          exact lt_irrefl _

theorem genIn_relax {bad : Int → Int → Bool} {grafo : Grafo} {n u : Int}
    {done : List Aresta} {s : State} {a : Aresta} (hg : InRange grafo n)
    (hu0 : 0 ≤ u) (hu1 : u < n) (hs : GenIn bad grafo n u done s) (ha : a ∈ adj grafo u)
    (hb : bad (dAt s.dist u) a.peso = false) :
    ∃ s1, relax u s a = some s1 ∧ GenIn bad grafo n u (done ++ [a]) s1 := by
  obtain ⟨hv0, hv1⟩ := adj_inRange hg ha
  have hlen := hs.len
  refine ⟨_, relax_eq hu0 (by omega) hv0 (by omega), ?_⟩
  split
  · rename_i hlt
    exact genIn_push hg hu0 hs ha hb rfl hlt rfl rfl
  · rename_i hnlt
    refine ⟨hs.len, hs.hi, hs.pqIdx, hs.pqGe, hs.pqLt, hs.others, ?_⟩
    rcases hs.mine with hin | hrel
    · left; exact hin
    · right
      intro b hb2
      rcases List.mem_append.mp hb2 with hb2 | hb2
      · exact hrel b hb2
      · simp only [List.mem_singleton] at hb2
        subst hb2
        exact ⟨hb, hnlt⟩

theorem gen_pop {bad : Int → Int → Bool} {grafo : Grafo} {n : Int} {s : State}
    (hs : Gen bad grafo n s) {d u : Int} (ht : pqTop s.pq = some (d, u)) :
    GenIn bad grafo n u [] { dist := s.dist, pq := pqPop s.pq } := by
  refine ⟨hs.len, hs.hi, fun e he => hs.pqIdx e (mem_pqPop he),
    fun e he => hs.pqGe e (mem_pqPop he), fun e he => hs.pqLt e (mem_pqPop he), ?_,
    Or.inr (by simp)⟩
  intro w h0 h1 hwu hne
  rcases hs.closed w h0 h1 hne with hin | hrel
  · left
    refine mem_pqPop_of_ne ht hin ?_
    intro heq
    exact hwu (congrArg Prod.snd heq)
  · right; exact hrel

theorem gen_pop_stale {bad : Int → Int → Bool} {grafo : Grafo} {n : Int} {s : State}
    (hs : Gen bad grafo n s) {d u : Int} (ht : pqTop s.pq = some (d, u))
    (hstale : dAt s.dist u < d) :
    Gen bad grafo n { dist := s.dist, pq := pqPop s.pq } := by
  refine ⟨hs.len, hs.hi, fun e he => hs.pqIdx e (mem_pqPop he),
    fun e he => hs.pqGe e (mem_pqPop he), fun e he => hs.pqLt e (mem_pqPop he), ?_⟩
  intro w h0 h1 hne
  rcases hs.closed w h0 h1 hne with hin | hrel
  · left
    refine mem_pqPop_of_ne ht hin ?_
    intro heq
    have h1 := congrArg Prod.fst heq
    have h2 := congrArg Prod.snd heq
    simp only at h1 h2
    subst h2
    omega
  · right; exact hrel

/-- A turn that expands a node keeps `Gen` when `bad` flags none of its sums. -/
theorem gen_expand {bad : Int → Int → Bool} {grafo : Grafo} {n : Int} {s : State}
    (hg : InRange grafo n) (hs : Gen bad grafo n s) {d u : Int}
    (ht : pqTop s.pq = some (d, u))
    (hf : relaxAllFlags bad u (adj grafo u) { dist := s.dist, pq := pqPop s.pq } = false) :
    ∃ s2, relaxAll u (adj grafo u) { dist := s.dist, pq := pqPop s.pq } = some s2 ∧
      Gen bad grafo n s2 := by
  obtain ⟨hu0, hu1⟩ := hs.pqIdx _ (pqTop_mem ht)
  simp only at hu0 hu1
  obtain ⟨s2, hr2, hs2⟩ := relaxAll_induct_flags bad
    (fun done s => GenIn bad grafo n u done s) (adj grafo u)
    (fun _ _ _ ha hQ hb => genIn_relax hg hu0 hu1 hQ ha hb)
    (adj grafo u) [] _ rfl (gen_pop hs ht) hf
  refine ⟨s2, hr2, hs2.len, hs2.hi, hs2.pqIdx, hs2.pqGe, hs2.pqLt, ?_⟩
  intro w h0 h1 hne
  by_cases hwu : w = u
  · subst hwu; exact hs2.mine
  · exact hs2.others w h0 h1 hwu hne

theorem gen_step {bad : Int → Int → Bool} {grafo : Grafo} {n : Int} {s s1 : State}
    (hg : InRange grafo n) (hs : Gen bad grafo n s) (hf : stepFlags bad grafo s = false)
    (h : step grafo s = .next s1) : Gen bad grafo n s1 := by
  obtain ⟨d, u, ht, -, -, hc⟩ := step_next_cases h
  obtain ⟨hu0, hu1⟩ := hs.pqIdx _ (pqTop_mem ht)
  simp only at hu0 hu1
  rcases hc with ⟨hstale, rfl⟩ | ⟨hd, l, hl, hra⟩
  · exact gen_pop_stale hs ht hstale
  · have hlen := hs.len
    have hgl := hg.1
    rw [adjAt_eq_adj hu0 (by omega)] at hl
    simp only [Option.some.injEq] at hl
    subst hl
    have hf2 : relaxAllFlags bad u (adj grafo u) { dist := s.dist, pq := pqPop s.pq } = false := by
      unfold stepFlags at hf
      simp only [ht] at hf
      rw [if_neg (by omega)] at hf
      exact hf
    obtain ⟨s2, hr2, hs2⟩ := gen_expand hg hs ht hf2
    rw [hr2] at hra
    simp only [Option.some.injEq] at hra
    subst hra
    exact hs2

theorem gen_init (bad : Int → Int → Bool) {grafo : Grafo} {n origem : Int}
    (ho0 : 0 ≤ origem) (ho1 : origem < n) : Gen bad grafo n (initState origem n) := by
  have hD : ∀ v, 0 ≤ v → v < n →
      dAt (initState origem n).dist v = if v = origem then 0 else INT_MAX :=
    fun v h0 h1 => dAt_init ho0 ho1 h0 h1
  have hpq : (initState origem n).pq = [(0, origem)] := rfl
  refine ⟨by simp [initState]; omega, ?_, ?_, ?_, ?_, ?_⟩
  · intro v h0 h1
    rw [hD v h0 h1]
    split <;> simp [INT_MAX]
  · intro e he
    rw [hpq, List.mem_singleton] at he
    subst he
    exact ⟨ho0, ho1⟩
  · intro e he
    rw [hpq, List.mem_singleton] at he
    subst he
    simp only
    rw [hD origem ho0 ho1, if_pos rfl]
  · intro e he
    rw [hpq, List.mem_singleton] at he
    subst he
    simp [INT_MAX]
  · intro u h0 h1 hne
    left
    rw [hD u h0 h1] at hne ⊢
    by_cases hu : u = origem
    · subst hu
      simp [hpq]
    · simp [hu] at hne

theorem runFlags_succ {bad : Int → Int → Bool} {grafo : Grafo} {s : State}
    (h : ∀ fuel, runFlags bad grafo fuel s = false) :
    stepFlags bad grafo s = false ∧
      ∀ s1, step grafo s = .next s1 → ∀ fuel, runFlags bad grafo fuel s1 = false := by
  constructor
  · have := h 1
    simp only [runFlags, Bool.or_eq_false_iff] at this
    exact this.1
  · intro s1 hs fuel
    have := h (fuel + 1)
    simp only [runFlags, Bool.or_eq_false_iff, hs] at this
    exact this.2

/-- The property carried along a run on which `bad` flags no sum. -/
theorem gen_keep {bad : Int → Int → Bool} {grafo : Grafo} {n origem : Int}
    (hg : InRange grafo n) (s s1 : State)
    (hs : Safe grafo n origem s ∧ Gen bad grafo n s ∧ ∀ fuel, runFlags bad grafo fuel s = false)
    (h : step grafo s = .next s1) :
    Safe grafo n origem s1 ∧ Gen bad grafo n s1 ∧ ∀ fuel, runFlags bad grafo fuel s1 = false :=
  ⟨safe_step hg s s1 hs.1 h, gen_step hg hs.2.1 (runFlags_succ hs.2.2).1 h,
    (runFlags_succ hs.2.2).2 s1 h⟩

/-- On a graph with destinations in range, a run on which `bad` flags no sum ends in a
state with an empty queue that satisfies `Gen`. -/
theorem dijkstra_gen {bad : Int → Int → Bool} {grafo : Grafo} {n origem : Int}
    (hg : InRange grafo n) (ho0 : 0 ≤ origem) (ho1 : origem < n)
    (hno : ∀ fuel, runFlags bad grafo fuel (initState origem n) = false) :
    ∃ s, dijkstra (potential (initState origem n) + 1) origem n grafo = .done s.dist ∧
      Gen bad grafo n s ∧ s.pq = [] := by
  obtain ⟨s, hrun, hs, hpq⟩ := loop_invariant
    (fun s => Safe grafo n origem s ∧ Gen bad grafo n s ∧
      ∀ fuel, runFlags bad grafo fuel s = false)
    (gen_keep hg) (fun s hs => safe_no_outOfBounds hg s hs.1)
    (potential (initState origem n) + 1) (initState origem n)
    ⟨safe_init ho0 ho1, gen_init bad ho0 ho1, hno⟩ (by omega)
  exact ⟨s, by simpa [dijkstra, ho0, ho1] using hrun, hs.2.1, hpq⟩

/-! ## Dijkstra: the stale check only skips work -/

theorem relaxAll_noop {u : Int} : ∀ (l : List Aresta) (s : State), 0 ≤ u → u < s.dist.length →
    (∀ a ∈ l, 0 ≤ a.destino ∧ a.destino < s.dist.length ∧
      ¬ (wrapInt (dAt s.dist u + a.peso) < dAt s.dist a.destino)) →
    relaxAll u l s = some s
  | [], _, _, _, _ => rfl
  | a :: rest, s, hu0, hu1, h => by
    obtain ⟨hv0, hv1, hn⟩ := h a (List.mem_cons_self _ _)
    simp only [relaxAll, relax_eq hu0 hu1 hv0 hv1, if_neg hn]
    exact relaxAll_noop rest s hu0 hu1 (fun b hb => h b (List.mem_cons_of_mem _ hb))

theorem relaxAllFlags_noCheck (u : Int) : ∀ (l : List Aresta) (s : State),
    relaxAllFlags noCheck u l s = false
  | [], _ => rfl
  | a :: rest, s => by
    simp only [relaxAllFlags, noCheck, Bool.false_or]
    cases relax u s a with
    | none => rfl
    | some s1 => exact relaxAllFlags_noCheck u rest s1

theorem runFlags_noCheck (grafo : Grafo) : ∀ (fuel : Nat) (s : State),
    runFlags noCheck grafo fuel s = false
  | 0, _ => rfl
  | fuel + 1, s => by
    have h1 : stepFlags noCheck grafo s = false := by
      unfold stepFlags
      cases pqTop s.pq with
      | none => rfl
      | some e =>
        simp only
        split
        · rfl
        · exact relaxAllFlags_noCheck _ _ _
    simp only [runFlags, h1, Bool.false_or]
    cases step grafo s with
    | finished => rfl
    | outOfBounds => rfl
    | next s1 => exact runFlags_noCheck grafo fuel s1

/-- In a state of the run the turn without the stale check does what the turn with the
check does: the edges of a node whose pair is stale cannot be relaxed. -/
theorem stepNoStale_eq {grafo : Grafo} {n : Int} {s : State} (hg : InRange grafo n)
    (hs : Gen noCheck grafo n s) : stepNoStale grafo s = step grafo s := by
  cases ht : pqTop s.pq with
  | none => simp [step, stepNoStale, ht]
  | some e =>
    obtain ⟨d, u⟩ := e
    obtain ⟨hu0, hu1⟩ := hs.pqIdx _ (pqTop_mem ht)
    simp only at hu0 hu1
    have hlen := hs.len
    have hgl := hg.1
    rw [step_eq ht hu0 (by omega) (by omega)]
    unfold stepNoStale
    simp only [ht, adjAt_eq_adj hu0 (show u < grafo.length by omega)]
    by_cases hstale : d > dAt s.dist u
    · rw [if_pos hstale]
      have hlt := hs.pqLt _ (pqTop_mem ht)
      simp only at hlt
      have hne : dAt s.dist u ≠ INT_MAX := by omega
      have hrel : ∀ a ∈ adj grafo u,
          ¬ (wrapInt (dAt s.dist u + a.peso) < dAt s.dist a.destino) := by
        rcases hs.closed u hu0 hu1 hne with hin | hrel
        · have := pqTop_le ht _ hin
          simp only at this
          omega
        · exact fun a ha => (hrel a ha).2
      rw [relaxAll_noop (adj grafo u) { dist := s.dist, pq := pqPop s.pq } hu0
        (by simp only; omega)
        (fun a ha => ⟨(adj_inRange hg ha).1, by have := (adj_inRange hg ha).2; simp only; omega,
          hrel a ha⟩)]
    · rw [if_neg hstale]

theorem loopNoStale_eq {grafo : Grafo} {n : Int} (hg : InRange grafo n) :
    ∀ (fuel : Nat) (s : State), Gen noCheck grafo n s →
      loopNoStale grafo fuel s = loop grafo fuel s
  | 0, _, _ => rfl
  | fuel + 1, s, hs => by
    simp only [loopNoStale, loop, stepNoStale_eq hg hs]
    cases hst : step grafo s with
    | finished => rfl
    | outOfBounds => rfl
    | next s1 =>
      have hf : stepFlags noCheck grafo s = false := by
        have := runFlags_noCheck grafo 1 s
        simp only [runFlags, Bool.or_eq_false_iff] at this
        exact this.1
      exact loopNoStale_eq hg fuel s1 (gen_step hg hs hf hst)

/-! ## Dijkstra: runs without overflow -/

/-- Once the loop has ended within `f` turns, a check that flags nothing in these turns
flags nothing in any number of turns. -/
theorem runFlags_of_done {bad : Int → Int → Bool} {grafo : Grafo} :
    ∀ (f : Nat) (s : State) (d : List Int), loop grafo f s = .done d →
      runFlags bad grafo f s = false → ∀ fuel, runFlags bad grafo fuel s = false
  | 0, s, d, h, _, fuel => by
    simp only [loop] at h
    split at h
    · rename_i hpq
      cases fuel with
      | zero => rfl
      | succ fuel =>
        simp [runFlags, stepFlags, step_finished_iff.mpr hpq, hpq, pqTop]
    · simp at h
  | f + 1, s, d, h, hf, fuel => by
    simp only [loop] at h
    simp only [runFlags, Bool.or_eq_false_iff] at hf
    cases fuel with
    | zero => rfl
    | succ fuel =>
      simp only [runFlags, Bool.or_eq_false_iff]
      refine ⟨hf.1, ?_⟩
      cases hs : step grafo s with
      | finished => rfl
      | outOfBounds => rfl
      | next s1 =>
        simp only [hs] at h hf ⊢
        exact runFlags_of_done f s1 d h hf.2 fuel

theorem relaxAllFlags_weaken {bad1 bad2 : Int → Int → Bool} {u : Int}
    (himp : ∀ x y, bad1 x y = false → bad2 x y = false) :
    ∀ (l : List Aresta) (s : State), relaxAllFlags bad1 u l s = false →
      relaxAllFlags bad2 u l s = false
  | [], _, _ => rfl
  | a :: rest, s, h => by
    simp only [relaxAllFlags, Bool.or_eq_false_iff] at h ⊢
    refine ⟨himp _ _ h.1, ?_⟩
    cases hr : relax u s a with
    | none => rfl
    | some s1 =>
      have h2 := h.2
      simp only [hr] at h2 ⊢
      exact relaxAllFlags_weaken himp rest s1 h2

theorem stepFlags_weaken {bad1 bad2 : Int → Int → Bool} {grafo : Grafo}
    (himp : ∀ x y, bad1 x y = false → bad2 x y = false) (s : State)
    (h : stepFlags bad1 grafo s = false) : stepFlags bad2 grafo s = false := by
  unfold stepFlags at h ⊢
  cases ht : pqTop s.pq with
  | none => rfl
  | some e =>
    simp only [ht] at h ⊢
    split
    · rfl
    · rename_i hd
      rw [if_neg hd] at h
      exact relaxAllFlags_weaken himp _ _ h

theorem runFlags_weaken {bad1 bad2 : Int → Int → Bool} {grafo : Grafo}
    (himp : ∀ x y, bad1 x y = false → bad2 x y = false) :
    ∀ (fuel : Nat) (s : State), runFlags bad1 grafo fuel s = false →
      runFlags bad2 grafo fuel s = false
  | 0, _, _ => rfl
  | fuel + 1, s, h => by
    simp only [runFlags, Bool.or_eq_false_iff] at h ⊢
    refine ⟨stepFlags_weaken himp s h.1, ?_⟩
    cases hs : step grafo s with
    | finished => rfl
    | outOfBounds => rfl
    | next s1 =>
      have h2 := h.2
      simp only [hs] at h2 ⊢
      exact runFlags_weaken himp fuel s1 h2

theorem overflows_of_outside (x y : Int) (h : outside x y = false) : overflows x y = false := by
  simp only [outside, overflows, INT_MAX, decide_eq_false_iff_not, not_or, not_lt,
    ne_eq, not_not] at h ⊢
  exact wrapInt_eq (by omega) (by omega)

theorem wrapInt_of_not_overflows {x y : Int} (h : overflows x y = false) :
    wrapInt (x + y) = x + y := by
  simpa [overflows] using h

theorem relaxExact_eq {u : Int} {s : State} {a : Aresta}
    (h : overflows (dAt s.dist u) a.peso = false) : relaxExact u s a = relax u s a := by
  unfold relaxExact relax
  cases hu : readAt s.dist u with
  | none => rfl
  | some du =>
    cases hv : readAt s.dist a.destino with
    | none => rfl
    | some dv =>
      have hdu := (readAt_some hu).2.2
      rw [hdu] at h
      simp only [wrapInt_of_not_overflows h]

theorem relaxAllExact_eq {u : Int} : ∀ (l : List Aresta) (s : State),
    relaxAllFlags overflows u l s = false → relaxAllExact u l s = relaxAll u l s
  | [], _, _ => rfl
  | a :: rest, s, h => by
    simp only [relaxAllFlags, Bool.or_eq_false_iff] at h
    simp only [relaxAllExact, relaxAll, relaxExact_eq h.1]
    cases hr : relax u s a with
    | none => rfl
    | some s1 =>
      have h2 := h.2
      simp only [hr] at h2 ⊢
      exact relaxAllExact_eq rest s1 h2

theorem adj_of_adjAt {grafo : Grafo} {u : Int} {l : List Aresta} (h : adjAt grafo u = some l) :
    adj grafo u = l := by
  simp [adj, h]

theorem stepExact_eq {grafo : Grafo} {s : State} (h : stepFlags overflows grafo s = false) :
    stepExact grafo s = step grafo s := by
  unfold stepExact step
  unfold stepFlags at h
  cases ht : pqTop s.pq with
  | none => rfl
  | some e =>
    obtain ⟨d, u⟩ := e
    simp only [ht] at h ⊢
    cases hr : readAt s.dist u with
    | none => rfl
    | some du =>
      simp only
      have hdu := (readAt_some hr).2.2
      rw [hdu] at h
      by_cases hd : d > du
      · simp only [if_pos hd]
      · simp only [if_neg hd] at h ⊢
        cases ha : adjAt grafo u with
        | none => rfl
        | some l =>
          rw [adj_of_adjAt ha] at h
          simp only [relaxAllExact_eq l _ h]

theorem loopExact_eq {grafo : Grafo} : ∀ (fuel : Nat) (s : State),
    runFlags overflows grafo fuel s = false → loopExact grafo fuel s = loop grafo fuel s
  | 0, _, _ => rfl
  | fuel + 1, s, h => by
    simp only [runFlags, Bool.or_eq_false_iff] at h
    simp only [loopExact, loop, stepExact_eq h.1]
    cases hs : step grafo s with
    | finished => rfl
    | outOfBounds => rfl
    | next s1 =>
      have h2 := h.2
      simp only [hs] at h2 ⊢
      exact loopExact_eq fuel s1 h2

/-- Induction over the `for` loop that shows that `bad` flags none of its sums. -/
theorem relaxAllFlags_false {u : Int} (bad : Int → Int → Bool)
    (Q : List Aresta → State → Prop) (l : List Aresta)
    (hstep : ∀ done a s, a ∈ l → Q done s → ∃ s1, relax u s a = some s1 ∧ Q (done ++ [a]) s1)
    (hbad : ∀ done a s, a ∈ l → Q done s → bad (dAt s.dist u) a.peso = false) :
    ∀ (rest done : List Aresta) (s : State), done ++ rest = l → Q done s →
      relaxAllFlags bad u rest s = false
  | [], _, _, _, _ => rfl
  | a :: rest, done, s, hl, hQ => by
    have ha : a ∈ l := by rw [← hl]; simp
    obtain ⟨s1, hr, hQ1⟩ := hstep done a s ha hQ
    simp only [relaxAllFlags, Bool.or_eq_false_iff, hr]
    exact ⟨hbad done a s ha hQ,
      relaxAllFlags_false bad Q l hstep hbad rest (done ++ [a]) s1 (by simpa using hl) hQ1⟩

/-- What the invariant gives when the least pair `(d, u)` is not stale: `d` is the distance
of `u`, it lies in `[0, INT_MAX)`, no sum `d + peso` over an edge out of `u` exceeds
`INT_MAX`, and the `for` loop starts in a state that satisfies its invariant. -/
theorem inv_expand_start {grafo : Grafo} {n origem : Int} {s : State} (hg : InRange grafo n)
    (hnn : NonNeg grafo) (htot : totalWeight grafo ≤ INT_MAX) (ho0 : 0 ≤ origem)
    (ho1 : origem < n) (hs : Inv grafo n origem s) {d u : Int}
    (ht : pqTop s.pq = some (d, u)) (hd : d ≤ dAt s.dist u) :
    0 ≤ u ∧ u < n ∧ 0 ≤ d ∧ d < INT_MAX ∧ (∀ b ∈ adj grafo u, d + b.peso ≤ INT_MAX) ∧
      InvIn grafo n origem u d [] { dist := s.dist, pq := pqPop s.pq } := by
  obtain ⟨hu0, hu1, -, hdmax⟩ := hs.core.pqOk _ (pqTop_mem ht)
  simp only at hu0 hu1 hdmax
  obtain ⟨hfix, hmin⟩ := inv_top_min hg hnn ho0 ho1 hs ht hd
  have hd0 : 0 ≤ d := by
    have := (hs.core.rng u hu0 hu1).1
    omega
  obtain ⟨p, hp, hpw⟩ := hs.core.walk u hu0 hu1 (by omega)
  obtain ⟨q, hq, hqw⟩ := exists_simple hnn hp
  have hqd : pathWeight q = d := by
    have := hmin q hq.1
    omega
  refine ⟨hu0, hu1, hd0, hdmax, ?_, core_pop hs.core, hfix, ?_, by simp⟩
  · intro b hb
    have := simple_snoc_le_total hg hnn ho0 ho1 hq hb
    omega
  · intro w h0 h1 hwu hlt
    rcases hs.closed w h0 h1 hlt with hin | hrel
    · left
      refine mem_pqPop_of_ne ht hin ?_
      intro heq
      exact hwu (congrArg Prod.snd heq)
    · right; exact hrel

/-- Under the invariant for non-negative weights, every sum of a turn has `dist[u]`
different from `INT_MAX` and a value in `[0, INT_MAX]`. -/
theorem inv_stepFlags {grafo : Grafo} {n origem : Int} {s : State} (hg : InRange grafo n)
    (hnn : NonNeg grafo) (htot : totalWeight grafo ≤ INT_MAX) (ho0 : 0 ≤ origem)
    (ho1 : origem < n) (hs : Inv grafo n origem s) : stepFlags outside grafo s = false := by
  unfold stepFlags
  cases ht : pqTop s.pq with
  | none => rfl
  | some e =>
    obtain ⟨d, u⟩ := e
    simp only
    split
    · rfl
    · rename_i hd
      obtain ⟨hu0, hu1, hd0, hdmax, hno, hstart⟩ :=
        inv_expand_start hg hnn htot ho0 ho1 hs ht (by omega)
      apply relaxAllFlags_false outside
        (fun done s => InvIn grafo n origem u d done s) (adj grafo u)
        (fun _ _ _ ha hQ => invIn_relax hg hnn ho0 hu0 hu1 hd0 hno hQ ha)
        ?_ (adj grafo u) [] _ rfl hstart
      intro done a s1 ha hQ
      have h1 := hno a ha
      have h2 := adj_nonneg hnn ha
      simp only [outside, hQ.fixed, decide_eq_false_iff_not, not_or, not_lt]
      exact ⟨by omega, by omega, h1⟩

theorem inv_runFlags {grafo : Grafo} {n origem : Int} (hg : InRange grafo n)
    (hnn : NonNeg grafo) (htot : totalWeight grafo ≤ INT_MAX) (ho0 : 0 ≤ origem)
    (ho1 : origem < n) : ∀ (fuel : Nat) (s : State), Inv grafo n origem s →
      runFlags outside grafo fuel s = false
  | 0, _, _ => rfl
  | fuel + 1, s, hs => by
    simp only [runFlags, Bool.or_eq_false_iff]
    refine ⟨inv_stepFlags hg hnn htot ho0 ho1 hs, ?_⟩
    cases hst : step grafo s with
    | finished => rfl
    | outOfBounds => rfl
    | next s1 =>
      exact inv_runFlags hg hnn htot ho0 ho1 fuel s1 (inv_step hg hnn htot ho0 ho1 s s1 hs hst)

/-! ## Dijkstra: the invariant at every point of a run -/

theorem core_runPoint {grafo : Grafo} {n origem : Int} (hg : InRange grafo n)
    (hnn : NonNeg grafo) (htot : totalWeight grafo ≤ INT_MAX) (ho0 : 0 ≤ origem)
    (ho1 : origem < n) : ∀ s, RunPoint grafo origem n s → Core grafo n origem s := by
  apply runPoint_induct (Inv grafo n origem) (Core grafo n origem) (inv_init ho0 ho1)
    (inv_step hg hnn htot ho0 ho1) (fun _ h => h.core) (fun _ _ _ h _ => core_pop h.core)
  intro s d u done rest s1 hs ht hd hadj hr
  obtain ⟨hu0, hu1, hd0, -, hno, hstart⟩ := inv_expand_start hg hnn htot ho0 ho1 hs ht hd
  obtain ⟨s2, hr2, hs2⟩ := relaxAll_induct
    (fun done s => InvIn grafo n origem u d done s) done
    (fun _ _ _ ha hQ => invIn_relax hg hnn ho0 hu0 hu1 hd0 hno hQ
      (by rw [hadj]; exact List.mem_append_left _ ha))
    done [] _ rfl hstart
  rw [hr2] at hr
  simp only [Option.some.injEq] at hr
  subst hr
  exact hs2.core

/-! ## Dijkstra: every node is expanded once -/

theorem relax_some {u : Int} {s s1 : State} {a : Aresta} (h : relax u s a = some s1) :
    0 ≤ a.destino ∧ a.destino < s.dist.length ∧
    (s1 = s ∨ (wrapInt (dAt s.dist u + a.peso) < dAt s.dist a.destino ∧
      s1.dist = s.dist.set a.destino.toNat (wrapInt (dAt s.dist u + a.peso)) ∧
      s1.pq = (wrapInt (dAt s.dist u + a.peso), a.destino) :: s.pq)) := by
  unfold relax at h
  cases hu : readAt s.dist u with
  | none => simp [hu] at h
  | some du =>
    cases hv : readAt s.dist a.destino with
    | none => simp [hu, hv] at h
    | some dv =>
      simp only [hu, hv] at h
      obtain ⟨-, -, hdu⟩ := readAt_some hu
      obtain ⟨hv0, hv1, hdv⟩ := readAt_some hv
      refine ⟨hv0, hv1, ?_⟩
      subst hdu hdv
      split at h
      · rename_i hless
        simp only [Option.some.injEq] at h
        subst h
        exact Or.inr ⟨hless, rfl, rfl⟩
      · simp only [Option.some.injEq] at h
        exact Or.inl h.symm

theorem settled_push {S : List (Int × Int)} {s s1 : State} {v x d : Int}
    (hs : Settled S s) (hpqOk : ∀ e ∈ s.pq, dAt s.dist e.2 ≤ e.1) (hv0 : 0 ≤ v)
    (hv1 : v < s.dist.length) (hSd : ∀ y ∈ S, y.1 ≤ d) (hdx : d ≤ x)
    (hlt : x < dAt s.dist v) (hdist : s1.dist = s.dist.set v.toNat x)
    (hpq : s1.pq = (x, v) :: s.pq) : Settled S s1 := by
  have hnot : ∀ y ∈ S, y.2 ≠ v := by
    intro y hy hyv
    have h1 := hs.fixed y hy
    have h2 := hSd y hy
    rw [hyv] at h1
    omega
  have hsame : ∀ y ∈ S, dAt s1.dist y.2 = dAt s.dist y.2 := by
    intro y hy
    by_cases h0 : 0 ≤ y.2
    · rw [hdist, dAt_set _ hv0 h0 hv1, if_neg (hnot y hy)]
    · rw [dAt_neg h0, dAt_neg h0]
  refine ⟨?_, ?_, ?_, ?_⟩
  · rw [hpq]
    refine List.nodup_cons.mpr ⟨?_, hs.nodup⟩
    intro hmem
    have := hpqOk _ hmem
    simp only at this
    omega
  · intro y hy
    rw [hsame y hy]
    exact hs.fixed y hy
  · intro y hy e he
    rw [hpq] at he
    rcases List.mem_cons.mp he with rfl | he
    · have := hSd y hy
      simp only
      omega
    · exact hs.below y hy e he
  · intro y hy e he hey
    rw [hpq] at he
    rcases List.mem_cons.mp he with rfl | he
    · exact absurd hey.symm (hnot y hy)
    · exact hs.stale y hy e he hey

theorem settled_relax {grafo : Grafo} {n origem u d : Int} {done : List Aresta}
    {S : List (Int × Int)} {s s1 : State} {a : Aresta} (hnn : NonNeg grafo)
    (hno : ∀ b ∈ adj grafo u, d + b.peso ≤ INT_MAX) (hd0 : 0 ≤ d)
    (hQ : InvIn grafo n origem u d done s) (hS : Settled S s) (hSd : ∀ y ∈ S, y.1 ≤ d)
    (ha : a ∈ adj grafo u) (hr : relax u s a = some s1) : Settled S s1 := by
  obtain ⟨hv0, hv1, hc⟩ := relax_some hr
  have hap := adj_nonneg hnn ha
  have hov := hno a ha
  have hwrap : wrapInt (d + a.peso) = d + a.peso := by
    unfold INT_MAX at hov
    exact wrapInt_eq (by omega) hov
  rw [hQ.fixed, hwrap] at hc
  rcases hc with rfl | ⟨hlt, hdist, hpq⟩
  · exact hS
  · exact settled_push hS (fun e he => (hQ.core.pqOk e he).2.2.1) hv0 hv1 hSd
      (show d ≤ d + a.peso by omega) hlt hdist hpq

theorem settled_pop {S : List (Int × Int)} {s : State} (hS : Settled S s) :
    Settled S { dist := s.dist, pq := pqPop s.pq } := by
  refine ⟨?_, hS.fixed, fun y hy e he => hS.below y hy e (mem_pqPop he),
    fun y hy e he => hS.stale y hy e (mem_pqPop he)⟩
  show (pqPop s.pq).Nodup
  unfold pqPop
  split
  · exact hS.nodup
  · exact hS.nodup.erase _

/-- A turn of the loop and the pairs that have passed the stale check: a stale pair adds
nothing; a pair that passes is not below any earlier one, its node has not passed before,
and it joins the list. -/
theorem settled_step {grafo : Grafo} {n origem : Int} {S : List (Int × Int)} {s s1 : State}
    {d u : Int} (hg : InRange grafo n) (hnn : NonNeg grafo)
    (htot : totalWeight grafo ≤ INT_MAX) (ho0 : 0 ≤ origem) (ho1 : origem < n)
    (hs : Inv grafo n origem s) (hS : Settled S s) (ht : pqTop s.pq = some (d, u))
    (h : step grafo s = .next s1) :
    (dAt s.dist u < d → Settled S s1) ∧
    (d ≤ dAt s.dist u →
      Settled ((d, u) :: S) s1 ∧ (∀ y ∈ S, y.1 ≤ d) ∧ (∀ y ∈ S, y.2 ≠ u)) := by
  obtain ⟨d2, u2, ht2, -, -, hc⟩ := step_next_cases h
  rw [ht] at ht2
  simp only [Option.some.injEq, Prod.mk.injEq] at ht2
  obtain ⟨rfl, rfl⟩ := ht2
  constructor
  · intro hstale
    rcases hc with ⟨-, rfl⟩ | ⟨hd, -⟩
    · exact settled_pop hS
    · omega
  · intro hd
    rcases hc with ⟨hstale, -⟩ | ⟨-, l, hl, hra⟩
    · omega
    obtain ⟨hu0, hu1, hd0, -, hno, hstart⟩ := inv_expand_start hg hnn htot ho0 ho1 hs ht hd
    have hfix : dAt s.dist u = d := hstart.fixed
    have hmem := pqTop_mem ht
    have hSd : ∀ y ∈ S, y.1 ≤ d := fun y hy => hS.below y hy _ hmem
    have hSu : ∀ y ∈ S, y.2 ≠ u := by
      intro y hy hyu
      have h1 := hS.stale y hy _ hmem hyu.symm
      have h2 := hS.fixed y hy
      rw [hyu] at h2
      simp only at h1
      omega
    have hSd2 : ∀ y ∈ (d, u) :: S, y.1 ≤ d := by
      intro y hy
      rcases List.mem_cons.mp hy with rfl | hy
      · exact le_refl _
      · exact hSd y hy
    have hpop := settled_pop hS
    have hS0 : Settled ((d, u) :: S) { dist := s.dist, pq := pqPop s.pq } := by
      refine ⟨hpop.nodup, ?_, ?_, ?_⟩
      · intro y hy
        rcases List.mem_cons.mp hy with rfl | hy
        · exact hfix
        · exact hpop.fixed y hy
      · intro y hy e he
        rcases List.mem_cons.mp hy with rfl | hy
        · exact pqTop_le ht e (mem_pqPop he)
        · exact hpop.below y hy e he
      · intro y hy e he hey
        rcases List.mem_cons.mp hy with rfl | hy
        · have he2 : e ∈ s.pq.erase (d, u) := by
            have := he
            simp only [pqPop_of_top ht] at this
            exact this
          obtain ⟨hne, hin⟩ := (hS.nodup.mem_erase_iff).mp he2
          have hge := (hs.core.pqOk e hin).2.2.1
          simp only at hey
          rw [hey, hfix] at hge
          have : e.1 ≠ d := by
            intro h1
            apply hne
            exact Prod.ext h1 hey
          simp only
          omega
        · exact hpop.stale y hy e he hey
    have hlen := hs.core.len
    have hgl := hg.1
    rw [adjAt_eq_adj hu0 (by omega)] at hl
    simp only [Option.some.injEq] at hl
    subst hl
    obtain ⟨s2, hr2, -, hS2⟩ := relaxAll_induct
      (fun done s => InvIn grafo n origem u d done s ∧ Settled ((d, u) :: S) s) (adj grafo u)
      (fun _ _ _ ha hQ => by
        obtain ⟨s3, hr3, hQ3⟩ := invIn_relax hg hnn ho0 hu0 hu1 hd0 hno hQ.1 ha
        exact ⟨s3, hr3, hQ3, settled_relax hnn hno hd0 hQ.1 hQ.2 hSd2 ha hr3⟩)
      (adj grafo u) [] _ rfl ⟨hstart, hS0⟩
    rw [hr2] at hra
    simp only [Option.some.injEq] at hra
    subst hra
    exact ⟨hS2, hSd, hSu⟩

theorem settled_init (origem n : Int) : Settled [] (initState origem n) :=
  ⟨by simp [initState, pqPush], by simp, by simp, by simp⟩

/-- The pairs that pass the stale check from a state of the run on: their distances never
decrease, no node passes twice, and neither is below, or has the node of, a pair that
passed before. -/
theorem expanded_sorted {grafo : Grafo} {n origem : Int} (hg : InRange grafo n)
    (hnn : NonNeg grafo) (htot : totalWeight grafo ≤ INT_MAX) (ho0 : 0 ≤ origem)
    (ho1 : origem < n) : ∀ (fuel : Nat) (S : List (Int × Int)) (s : State),
    Inv grafo n origem s → Settled S s →
      ((expanded grafo fuel s).map Prod.fst).Pairwise (fun x y => x ≤ y) ∧
      ((expanded grafo fuel s).map Prod.snd).Nodup ∧
      (∀ y ∈ S, ∀ t ∈ expanded grafo fuel s, y.1 ≤ t.1 ∧ y.2 ≠ t.2)
  | 0, _, _, _, _ => by simp [expanded]
  | fuel + 1, S, s, hs, hS => by
    cases ht : pqTop s.pq with
    | none => simp [expanded, ht]
    | some e =>
      obtain ⟨d, u⟩ := e
      cases hst : step grafo s with
      | finished => simp [expanded, ht, hst]
      | outOfBounds => simp [expanded, ht, hst]
      | next s1 =>
        have hs1 := inv_step hg hnn htot ho0 ho1 s s1 hs hst
        obtain ⟨hA, hB⟩ := settled_step hg hnn htot ho0 ho1 hs hS ht hst
        simp only [expanded, ht, hst]
        by_cases hd : d > dAt s.dist u
        · rw [if_pos hd]
          exact expanded_sorted hg hnn htot ho0 ho1 fuel S s1 hs1 (hA (by omega))
        · rw [if_neg hd]
          obtain ⟨hS1, hSd, hSu⟩ := hB (by omega)
          obtain ⟨ih1, ih2, ih3⟩ :=
            expanded_sorted hg hnn htot ho0 ho1 fuel ((d, u) :: S) s1 hs1 hS1
          refine ⟨?_, ?_, ?_⟩
          · simp only [List.map_cons, List.pairwise_cons]
            refine ⟨?_, ih1⟩
            intro x hx
            obtain ⟨t, htm, rfl⟩ := List.mem_map.mp hx
            exact (ih3 (d, u) (List.mem_cons_self _ _) t htm).1
          · simp only [List.map_cons, List.nodup_cons]
            refine ⟨?_, ih2⟩
            intro hx
            obtain ⟨t, htm, hte⟩ := List.mem_map.mp hx
            exact (ih3 (d, u) (List.mem_cons_self _ _) t htm).2 hte.symm
          · intro y hy t htm
            rcases List.mem_cons.mp htm with rfl | htm
            · exact ⟨hSd y hy, hSu y hy⟩
            · exact ih3 y (List.mem_cons_of_mem _ hy) t htm

/-- The distance of a node that has passed the stale check stays what it is in all later
turns. -/
theorem settled_runN {grafo : Grafo} {n origem : Int} (hg : InRange grafo n)
    (hnn : NonNeg grafo) (htot : totalWeight grafo ≤ INT_MAX) (ho0 : 0 ≤ origem)
    (ho1 : origem < n) : ∀ (j : Nat) (S : List (Int × Int)) (s s1 : State),
    Inv grafo n origem s → Settled S s → runN grafo j s = some s1 →
      ∃ S1, (∀ y ∈ S, y ∈ S1) ∧ Inv grafo n origem s1 ∧ Settled S1 s1
  | 0, S, s, s1, hs, hS, h => by
    simp only [runN, Option.some.injEq] at h
    subst h
    exact ⟨S, fun _ h => h, hs, hS⟩
  | j + 1, S, s, s1, hs, hS, h => by
    simp only [runN] at h
    cases hst : step grafo s with
    | finished => simp [hst] at h
    | outOfBounds => simp [hst] at h
    | next s2 =>
      simp only [hst] at h
      have hs2 := inv_step hg hnn htot ho0 ho1 s s2 hs hst
      obtain ⟨d, u, ht, -⟩ := step_next_cases hst
      obtain ⟨hA, hB⟩ := settled_step hg hnn htot ho0 ho1 hs hS ht hst
      by_cases hd : dAt s.dist u < d
      · exact settled_runN hg hnn htot ho0 ho1 j S s2 s1 hs2 (hA hd) h
      · obtain ⟨S1, hsub, hs1, hS1⟩ :=
          settled_runN hg hnn htot ho0 ho1 j ((d, u) :: S) s2 s1 hs2 (hB (by omega)).1 h
        exact ⟨S1, fun y hy => hsub y (List.mem_cons_of_mem _ hy), hs1, hS1⟩

/-! ## Dijkstra as a label-correcting procedure: negative weights without overflow -/

theorem walked_relax {grafo : Grafo} {n origem u : Int} {s s1 : State} {a : Aresta}
    (hlen : (s.dist.length : Int) = n) (hhi : ∀ v, 0 ≤ v → v < n → dAt s.dist v ≤ INT_MAX)
    (hw : Walked grafo n origem s) (hu0 : 0 ≤ u) (hu1 : u < n)
    (hne : dAt s.dist u ≠ INT_MAX) (ha : a ∈ adj grafo u)
    (hb : overflows (dAt s.dist u) a.peso = false) (hr : relax u s a = some s1) :
    Walked grafo n origem s1 ∧ dAt s1.dist u ≠ INT_MAX := by
  obtain ⟨hv0, hv1, hc⟩ := relax_some hr
  rw [wrapInt_of_not_overflows hb] at hc
  rcases hc with rfl | ⟨hlt, hdist, -⟩
  · exact ⟨hw, hne⟩
  · have hmono : ∀ w, dAt s1.dist w ≤ dAt s.dist w := by
      intro w
      rw [hdist]
      exact dAt_set_le hv0 hv1 (le_of_lt hlt) w
    refine ⟨⟨le_trans (hmono _) hw.srcLe, ?_⟩, ?_⟩
    · intro w h0 h1 hw1
      rw [hdist, dAt_set _ hv0 h0 hv1] at hw1 ⊢
      by_cases hwv : w = a.destino
      · simp only [hwv, if_true]
        obtain ⟨p, hp, hpw⟩ := hw.walk u hu0 hu1 hne
        exact ⟨p ++ [a], walk_snoc hp ha, by rw [pathWeight_snoc, hpw]⟩
      · simp only [hwv, if_false] at hw1 ⊢
        exact hw.walk w h0 h1 hw1
    · have h1 := hmono u
      have h2 := hhi u hu0 hu1
      omega

/-- A turn of a run without overflow keeps `Walked`. -/
theorem walked_step {grafo : Grafo} {n origem : Int} {s s1 : State} (hg : InRange grafo n)
    (hs : Gen overflows grafo n s) (hw : Walked grafo n origem s)
    (hf : stepFlags overflows grafo s = false) (h : step grafo s = .next s1) :
    Walked grafo n origem s1 := by
  obtain ⟨d, u, ht, -, -, hc⟩ := step_next_cases h
  obtain ⟨hu0, hu1⟩ := hs.pqIdx _ (pqTop_mem ht)
  simp only at hu0 hu1
  rcases hc with ⟨-, rfl⟩ | ⟨hd, l, hl, hra⟩
  · exact ⟨hw.srcLe, hw.walk⟩
  · have hlen := hs.len
    have hgl := hg.1
    rw [adjAt_eq_adj hu0 (by omega)] at hl
    simp only [Option.some.injEq] at hl
    subst hl
    have hf2 : relaxAllFlags overflows u (adj grafo u)
        { dist := s.dist, pq := pqPop s.pq } = false := by
      unfold stepFlags at hf
      simp only [ht] at hf
      rw [if_neg (by omega)] at hf
      exact hf
    have hne : dAt s.dist u ≠ INT_MAX := by
      have h1 := hs.pqLt _ (pqTop_mem ht)
      have h2 := hs.pqGe _ (pqTop_mem ht)
      simp only at h1 h2
      omega
    obtain ⟨s2, hr2, -, hw2, -⟩ := relaxAll_induct_flags overflows
      (fun done s => GenIn overflows grafo n u done s ∧ Walked grafo n origem s ∧
        dAt s.dist u ≠ INT_MAX) (adj grafo u)
      (fun _ _ _ ha hQ hb => by
        obtain ⟨s3, hr3, hQ3⟩ := genIn_relax hg hu0 hu1 hQ.1 ha hb
        exact ⟨s3, hr3, hQ3,
          walked_relax hQ.1.len hQ.1.hi hQ.2.1 hu0 hu1 hQ.2.2 ha hb hr3⟩)
      (adj grafo u) [] _ rfl ⟨gen_pop hs ht, ⟨hw.srcLe, hw.walk⟩, hne⟩ hf2
    rw [hr2] at hra
    simp only [Option.some.injEq] at hra
    subst hra
    exact hw2

theorem walked_init {grafo : Grafo} {n origem : Int} (ho0 : 0 ≤ origem) (ho1 : origem < n) :
    Walked grafo n origem (initState origem n) := by
  refine ⟨by rw [dAt_init ho0 ho1 ho0 ho1, if_pos rfl], ?_⟩
  intro v h0 h1 hne
  rw [dAt_init ho0 ho1 h0 h1] at hne ⊢
  by_cases hv : v = origem
  · subst hv
    exact ⟨[], rfl, by simp [pathWeight]⟩
  · simp [hv] at hne

/-- A run without overflow on a graph with destinations in range ends in a state with an
empty queue that satisfies `Gen` and `Walked`. -/
theorem dijkstra_walked {grafo : Grafo} {n origem : Int} (hg : InRange grafo n)
    (ho0 : 0 ≤ origem) (ho1 : origem < n)
    (hno : ∀ fuel, runFlags overflows grafo fuel (initState origem n) = false) :
    ∃ s, dijkstra (potential (initState origem n) + 1) origem n grafo = .done s.dist ∧
      Gen overflows grafo n s ∧ Walked grafo n origem s ∧ s.pq = [] := by
  obtain ⟨s, hrun, hs, hpq⟩ := loop_invariant
    (fun s => (Safe grafo n origem s ∧ Gen overflows grafo n s ∧
      ∀ fuel, runFlags overflows grafo fuel s = false) ∧ Walked grafo n origem s)
    (fun s s1 hs h => ⟨gen_keep hg s s1 hs.1 h,
      walked_step hg hs.1.2.1 hs.2 (runFlags_succ hs.1.2.2).1 h⟩)
    (fun s hs => safe_no_outOfBounds hg s hs.1.1)
    (potential (initState origem n) + 1) (initState origem n)
    ⟨⟨safe_init ho0 ho1, gen_init overflows ho0 ho1, hno⟩, walked_init ho0 ho1⟩ (by omega)
  exact ⟨s, by simpa [dijkstra, ho0, ho1] using hrun, hs.1.2.1, hs.2, hpq⟩

theorem walk_snoc_inv {grafo : Grafo} : ∀ {q : List Aresta} {x v : Int} {a : Aresta},
    Walk grafo x (q ++ [a]) v → ∃ z, Walk grafo x q z ∧ a ∈ adj grafo z ∧ a.destino = v
  | [], x, v, a, h => by
    simp only [List.nil_append, Walk] at h
    exact ⟨x, rfl, h.1, h.2⟩
  | b :: q, x, v, a, h => by
    simp only [List.cons_append, Walk] at h
    obtain ⟨z, hz, haz, hv⟩ := walk_snoc_inv h.2
    exact ⟨z, ⟨h.1, hz⟩, haz, hv⟩

theorem pathNodes_snoc (x : Int) (q : List Aresta) (a : Aresta) :
    pathNodes x (q ++ [a]) = pathNodes x q ++ [a.destino] := by
  simp [pathNodes]

/-- At the end of a run without overflow, when every simple path from the origin weighs
less than `INT_MAX`, no distance exceeds the weight of a simple path to its node. -/
theorem final_le_simple {grafo : Grafo} {n origem : Int} {s : State} (hg : InRange grafo n)
    (ho0 : 0 ≤ origem) (ho1 : origem < n) (hs : Gen overflows grafo n s)
    (hw : Walked grafo n origem s) (hpq : s.pq = [])
    (hlt : ∀ p v, SimplePath grafo origem p v → pathWeight p < INT_MAX) :
    ∀ (p : List Aresta) (v : Int), SimplePath grafo origem p v →
      dAt s.dist v ≤ pathWeight p := by
  intro p
  induction p using List.reverseRecOn with
  | nil =>
    intro v hp
    have : origem = v := hp.1
    subst this
    simpa [pathWeight] using hw.srcLe
  | append_singleton q a ih =>
    intro v hp
    obtain ⟨z, hz, haz, hv⟩ := walk_snoc_inv hp.1
    have hnd : (pathNodes origem q).Nodup := by
      have := hp.2
      rw [pathNodes_snoc] at this
      exact (List.nodup_append.mp this).1
    have hq : SimplePath grafo origem q z := ⟨hz, hnd⟩
    have h1 := ih z hq
    have h2 := hlt q z hq
    obtain ⟨hz0, hz1⟩ := walk_inRange hg hz ho0 ho1
    rcases hs.closed z hz0 hz1 (by omega) with hin | hrel
    · rw [hpq] at hin; simp at hin
    · obtain ⟨h3, h4⟩ := hrel a haz
      rw [wrapInt_of_not_overflows h3, hv] at h4
      rw [pathWeight_snoc]
      omega

/-- A walk that goes through `x` splits there into a walk to `x` and a walk from `x`. -/
theorem walk_split_cycle {grafo : Grafo} : ∀ {q : List Aresta} {y v x : Int},
    Walk grafo y q v → x ∈ pathNodes y q →
    ∃ q1 q2 front, q = q1 ++ q2 ∧ Walk grafo y q1 x ∧ Walk grafo x q2 v ∧
      pathNodes y q = front ++ pathNodes x q2
  | [], y, v, x, h, hx => by
    simp only [pathNodes, List.map_nil, List.mem_singleton] at hx
    subst hx
    exact ⟨[], [], [], rfl, rfl, h, rfl⟩
  | a :: q, y, v, x, h, hx => by
    by_cases hxy : x = y
    · subst hxy
      exact ⟨[], a :: q, [], rfl, rfl, h, rfl⟩
    · have hx2 : x ∈ pathNodes a.destino q := by
        rw [pathNodes_cons] at hx
        rcases List.mem_cons.mp hx with hx | hx
        · exact absurd hx hxy
        · exact hx
      obtain ⟨q1, q2, front, hq, hw1, hw2, hn⟩ := walk_split_cycle h.2 hx2
      refine ⟨a :: q1, q2, y :: front, by simp [hq], ⟨h.1, hw1⟩, hw2, ?_⟩
      rw [pathNodes_cons, hn]
      rfl

/-- Without negative cycles every walk from a node that can be reached contains a simple
path between the same nodes that weighs no more. -/
theorem exists_simple_of_noNegCycle {grafo : Grafo} {origem : Int}
    (hcyc : NoNegCycle grafo origem) :
    ∀ {p : List Aresta} {x v : Int}, Reachable grafo origem x → Walk grafo x p v →
      ∃ q, SimplePath grafo x q v ∧ pathWeight q ≤ pathWeight p
  | [], x, v, _, h => ⟨[], ⟨h, by simp [pathNodes]⟩, le_refl _⟩
  | a :: p, x, v, hx, h => by
    obtain ⟨q, ⟨hq, hnd⟩, hle⟩ := exists_simple_of_noNegCycle hcyc (reachable_step hx h.1) h.2
    by_cases hxq : x ∈ pathNodes a.destino q
    · obtain ⟨q1, q2, front, hsplit, hw1, hw2, hn⟩ := walk_split_cycle hq hxq
      refine ⟨q2, ⟨hw2, ?_⟩, ?_⟩
      · have hsuf : pathNodes x q2 <:+ pathNodes a.destino q := ⟨front, hn.symm⟩
        exact hnd.sublist hsuf.sublist
      · have hc : Walk grafo x (a :: q1) x := ⟨h.1, hw1⟩
        have h1 := hcyc x (a :: q1) hx hc
        rw [hsplit, pathWeight_append] at hle
        rw [pathWeight_cons] at h1 ⊢
        omega
    · refine ⟨a :: q, ⟨⟨h.1, hq⟩, ?_⟩, ?_⟩
      · rw [pathNodes_cons]
        exact List.nodup_cons.mpr ⟨hxq, hnd⟩
      · rw [pathWeight_cons, pathWeight_cons]
        omega

/-! ## Graphs whose edges all go to a node of larger index -/

/-- A property of the edges that holds, list by list, for every adjacency list of the
graph holds for every edge of `adj`. -/
theorem adj_forall {grafo : Grafo} {P : Int → Aresta → Prop}
    (h : ∀ i < grafo.length, ∀ a ∈ (grafo[i]?).getD [], P (i : Int) a) :
    ∀ u a, a ∈ adj grafo u → P u a := by
  intro u a ha
  unfold adj adjAt at ha
  split at ha
  · rename_i h0
    by_cases hlt : u.toNat < grafo.length
    · have := h u.toNat hlt a ha
      rwa [Int.toNat_of_nonneg h0] at this
    · rw [List.getElem?_eq_none (by omega)] at ha
      simp at ha
  · simp at ha

theorem walk_increasing {grafo : Grafo} (hinc : ∀ u a, a ∈ adj grafo u → u < a.destino) :
    ∀ {p : List Aresta} {x v : Int}, Walk grafo x p v → p = [] ∨ x < v
  | [], _, _, _ => Or.inl rfl
  | a :: p, x, v, h => by
    have h1 := hinc x a h.1
    rcases walk_increasing hinc h.2 with hp | hlt
    · subst hp
      have : a.destino = v := h.2
      right; omega
    · right; omega

theorem noNegCycle_of_increasing {grafo : Grafo} (origem : Int)
    (hinc : ∀ u a, a ∈ adj grafo u → u < a.destino) : NoNegCycle grafo origem := by
  intro u p _ hp
  rcases walk_increasing hinc hp with rfl | hlt
  · simp [pathWeight]
  · omega

theorem walk_weight_le_length {grafo : Grafo} {W : Int}
    (hW : ∀ u a, a ∈ adj grafo u → a.peso ≤ W) :
    ∀ {p : List Aresta} {x v : Int}, Walk grafo x p v → pathWeight p ≤ p.length * W
  | [], _, _, _ => by simp [pathWeight]
  | a :: p, x, v, h => by
    have h1 := hW x a h.1
    have h2 := walk_weight_le_length hW h.2
    rw [pathWeight_cons, List.length_cons]
    push_cast
    linarith

theorem nodup_length_le {L : List Nat} {m : Nat} (hnd : L.Nodup) (h : ∀ x ∈ L, x < m) :
    L.length ≤ m := by
  have h1 : L.toFinset ⊆ Finset.range m := by
    intro x hx
    rw [List.mem_toFinset] at hx
    exact Finset.mem_range.mpr (h x hx)
  have h2 := Finset.card_le_card h1
  rw [List.toFinset_card_of_nodup hnd, Finset.card_range] at h2
  exact h2

/-- A simple path from a node of the graph has fewer edges than the graph has nodes. -/
theorem simple_length_lt {grafo : Grafo} {n o v : Int} {p : List Aresta}
    (hg : InRange grafo n) (ho0 : 0 ≤ o) (ho1 : o < n) (hp : SimplePath grafo o p v) :
    (p.length : Int) < n := by
  have hr := pathNodes_inRange hg hp.1 ho0 ho1
  have hnd : ((pathNodes o p).map Int.toNat).Nodup := by
    apply List.Nodup.map_on _ hp.2
    intro x hx y hy hxy
    have := (hr x hx).1
    have := (hr y hy).1
    omega
  have hlen := nodup_length_le (m := n.toNat) hnd (by
    intro x hx
    obtain ⟨z, hz, rfl⟩ := List.mem_map.mp hx
    have := hr z hz
    omega)
  simp only [List.length_map, pathNodes, List.length_cons] at hlen
  omega

/-! ## The claims -/

/-- C1, as stated, fails on `overflowGrafo`: destinations are in range and the weights are
non-negative, `dijkstra` prints `[0, 2^30, -2^31]`, node 2 can be reached from node 0, and
`-2^31` is not the least weight of a simple path from 0 to 2 (the sum `2^30 + 2^30` wrapped
around). -/
theorem dijkstra_overflow_not_shortest :
    InRange overflowGrafo 3 ∧ NonNeg overflowGrafo ∧
    DijkstraOutput 0 3 overflowGrafo [0, 1073741824, -2147483648] ∧
    Reachable overflowGrafo 0 2 ∧
    readAt [0, 1073741824, -2147483648] 2 = some (-2147483648) ∧
    ¬ IsMinPathWeight overflowGrafo 0 2 (-2147483648) := by
  have hnn : NonNeg overflowGrafo := by unfold NonNeg; decide
  refine ⟨by unfold InRange; decide, hnn, ⟨3, by decide⟩, ?_, by decide, ?_⟩
  · exact ⟨[⟨1, 1073741824⟩, ⟨2, 1073741824⟩], by decide, by decide, rfl⟩
  · rintro ⟨⟨p, hp, hw⟩, -⟩
    have := walk_weight_nonneg hnn hp.1
    omega

/-- C1, amended: when the destinations are in range, the weights are non-negative, the
sum of all edge weights is at most `INT_MAX` and `origem` is in `[0, n)`, the call
`dijkstra(origem, n, grafo)` ends and, for every node `v` that can be reached from
`origem`, `dist[v]` is the minimum over all simple paths from `origem` to `v` of the sum of
the weights along the path. -/
theorem dijkstra_shortest_paths (grafo : Grafo) (n origem : Int) (hg : InRange grafo n)
    (hnn : NonNeg grafo) (htot : totalWeight grafo ≤ INT_MAX) (ho0 : 0 ≤ origem)
    (ho1 : origem < n) :
    ∃ dist, DijkstraOutput origem n grafo dist ∧
      ∀ v, Reachable grafo origem v →
        ∃ d, readAt dist v = some d ∧ IsMinPathWeight grafo origem v d := by
  obtain ⟨dist, hout, hlen, hall⟩ := dijkstra_exact hg hnn htot ho0 ho1
  refine ⟨dist, hout, ?_⟩
  intro v hv
  obtain ⟨h0, h1⟩ := reachable_inRange hg ho0 ho1 hv
  exact ⟨_, readAt_eq_dAt h0 (by omega), (hall v h0 h1).1 hv⟩

/-- C1, amended, on the graph of `main` with origin 0. -/
theorem dijkstra_shortest_paths_main :
    InRange mainGrafo 5 ∧ NonNeg mainGrafo ∧ totalWeight mainGrafo ≤ INT_MAX ∧
    ∃ dist, DijkstraOutput 0 5 mainGrafo dist ∧
      ∀ v, Reachable mainGrafo 0 v →
        ∃ d, readAt dist v = some d ∧ IsMinPathWeight mainGrafo 0 v d :=
  ⟨mainGrafo_inRange, mainGrafo_nonNeg, mainGrafo_total,
    dijkstra_shortest_paths mainGrafo 5 0 mainGrafo_inRange mainGrafo_nonNeg mainGrafo_total
      (by decide) (by decide)⟩

/-- C2: for every tree, `dfs` appends to the output the pre-order of the tree; what `dfs`
emits on a node is the value of the node followed by what `dfs` emits on each child, in the
order the children are listed; on the tree of `main` it emits 1 2 5 6 3 4 7. -/
theorem dfs_preorder :
    (∀ (t : Node) (out : List Int), dfs t out = out ++ preorder t) ∧
    (∀ (v : Int) (cs : List Node),
      dfs (.mk v cs) [] = v :: (cs.map (fun c => dfs c [])).flatten) ∧
    dfs demoTree [] = [1, 2, 5, 6, 3, 4, 7] := by
  refine ⟨dfs_eq_preorder, ?_, by decide⟩
  intro v cs
  have : (fun c => dfs c []) = preorder := by
    funext c
    simp [dfs_eq_preorder]
  rw [this, dfs_eq_preorder, preorder, preorderList_eq_flatten]
  simp

/-- C3: for every tree, `bfs` ends and emits the values of level 0, level 1, level 2, ...
one after the other, where level 0 is the root alone and level `k + 1` holds the children
of the nodes of level `k` in order; more fuel changes nothing; the levels from `root.size`
on are empty; on the tree of `main` it emits 1 2 3 4 5 6 7. -/
theorem bfs_level_order :
    (∀ t : Node, bfs t = some (levelOrder t)) ∧
    (∀ (t : Node) (k : Nat), bfsLoop (t.size + k) [t] [] = some (levelOrder t)) ∧
    (∀ t : Node, levelFrom [t] 0 = [t]) ∧
    (∀ (t : Node) (k : Nat),
      levelFrom [t] (k + 1) = ((levelFrom [t] k).map Node.children).flatten) ∧
    (∀ (t : Node) (m : Nat), t.size ≤ m → levelFrom [t] m = []) ∧
    bfs demoTree = some [1, 2, 3, 4, 5, 6, 7] := by
  refine ⟨bfs_eq_levelOrder, ?_, fun _ => rfl, fun _ _ => rfl, ?_, by decide⟩
  · intro t k
    have h : sizeList [t] = t.size := by simp [sizeList]
    have := bfsLoop_levelsFrom t.size [t] [] (t.size + k) (by omega) (by omega)
    simpa [levelOrder, levelsFrom_eq] using this
  · intro t m hm
    exact levelFrom_size_nil [t] m (by simpa [sizeList] using hm)

/-- C4: when the destinations are in range and `origem` is in `[0, n)`, the call
`dijkstra(origem, n, grafo)` ends and every node `v` that cannot be reached from `origem`
has `dist[v] = INT_MAX`; the weights may have either sign. -/
theorem dijkstra_unreachable_sentinel (grafo : Grafo) (n origem : Int)
    (hg : InRange grafo n) (ho0 : 0 ≤ origem) (ho1 : origem < n) :
    ∃ dist, DijkstraOutput origem n grafo dist ∧
      ∀ v, 0 ≤ v → v < n → ¬ Reachable grafo origem v → readAt dist v = some INT_MAX := by
  obtain ⟨s, hrun, hs, -⟩ := dijkstra_safe hg ho0 ho1
  refine ⟨s.dist, ⟨_, hrun⟩, ?_⟩
  intro v h0 h1 hnr
  have hlen := hs.len
  rw [readAt_eq_dAt h0 (by omega)]
  congr 1
  by_contra hne
  exact hnr (hs.reach v h0 h1 hne)

/-- C4 on the graph of `main` with origin 1, from which node 0 cannot be reached. -/
theorem dijkstra_unreachable_sentinel_main :
    InRange mainGrafo 5 ∧
    ∃ dist, DijkstraOutput 1 5 mainGrafo dist ∧
      ∀ v, 0 ≤ v → v < 5 → ¬ Reachable mainGrafo 1 v → readAt dist v = some INT_MAX :=
  ⟨mainGrafo_inRange,
    dijkstra_unreachable_sentinel mainGrafo 5 1 mainGrafo_inRange (by decide) (by decide)⟩

/-- C5, as stated, fails on `overflowCycleGrafo`: destinations are in range and the weights
are non-negative, and `dijkstra` with origin 0 prints `[-2^31, -2^30, -2^31]`, so the
distance of the origin is not 0. -/
theorem dijkstra_overflow_source_not_zero :
    InRange overflowCycleGrafo 3 ∧ NonNeg overflowCycleGrafo ∧
    DijkstraOutput 0 3 overflowCycleGrafo [-2147483648, -1073741824, -2147483648] ∧
    readAt [-2147483648, -1073741824, -2147483648] 0 ≠ some 0 :=
  ⟨by unfold InRange; decide, by unfold NonNeg; decide, ⟨5, by decide⟩, by decide⟩

/-- C5, amended: when the destinations are in range, the weights are non-negative, the
sum of all edge weights is at most `INT_MAX` and `origem` is in `[0, n)`, the call
`dijkstra(origem, n, grafo)` ends with `dist[origem] = 0`. -/
theorem dijkstra_source_zero (grafo : Grafo) (n origem : Int) (hg : InRange grafo n)
    (hnn : NonNeg grafo) (htot : totalWeight grafo ≤ INT_MAX) (ho0 : 0 ≤ origem)
    (ho1 : origem < n) :
    ∃ dist, DijkstraOutput origem n grafo dist ∧ readAt dist origem = some 0 := by
  obtain ⟨s, hrun, hs, -⟩ := dijkstra_inv hg hnn htot ho0 ho1
  have hlen := hs.core.len
  refine ⟨s.dist, ⟨_, hrun⟩, ?_⟩
  rw [readAt_eq_dAt ho0 (by omega), hs.core.src]

/-- C5, amended, on the graph of `main` with origin 2. -/
theorem dijkstra_source_zero_main :
    InRange mainGrafo 5 ∧ NonNeg mainGrafo ∧ totalWeight mainGrafo ≤ INT_MAX ∧
    ∃ dist, DijkstraOutput 2 5 mainGrafo dist ∧ readAt dist 2 = some 0 :=
  ⟨mainGrafo_inRange, mainGrafo_nonNeg, mainGrafo_total,
    dijkstra_source_zero mainGrafo 5 2 mainGrafo_inRange mainGrafo_nonNeg mainGrafo_total
      (by decide) (by decide)⟩

/-- C6: on the graph of `main` with origin 0, `dijkstra` prints exactly `[0, 1, 3, 6, 6]`;
the loop takes six turns, so any fuel from 6 on gives this result. -/
theorem dijkstra_main_distances :
    (∀ k, dijkstra (6 + k) 0 5 mainGrafo = .done [0, 1, 3, 6, 6]) ∧
    DijkstraOutput 0 5 mainGrafo [0, 1, 3, 6, 6] :=
  ⟨fun k => loop_mono mainGrafo 6 (initState 0 5) _ (by decide) k, ⟨6, by decide⟩⟩

/-- C7, as stated, fails on `loopsGrafo` and `loopsGrafoSwapped`: both have destinations in
range and non-negative weights, each adjacency list of one is a permutation of that of
the other, and `dijkstra` with origin 0 prints `[0, -1073741825]` on the first and
`[0, -2147483647]` on the second. -/
theorem dijkstra_overflow_order_dependent :
    InRange loopsGrafo 2 ∧ InRange loopsGrafoSwapped 2 ∧
    NonNeg loopsGrafo ∧ NonNeg loopsGrafoSwapped ∧
    List.Forall₂ List.Perm loopsGrafo loopsGrafoSwapped ∧
    DijkstraOutput 0 2 loopsGrafo [0, -1073741825] ∧
    DijkstraOutput 0 2 loopsGrafoSwapped [0, -2147483647] ∧
    ¬ ∃ dist, DijkstraOutput 0 2 loopsGrafo dist ∧ DijkstraOutput 0 2 loopsGrafoSwapped dist := by
  have h1 : DijkstraOutput 0 2 loopsGrafo [0, -1073741825] := ⟨3, by decide⟩
  have h2 : DijkstraOutput 0 2 loopsGrafoSwapped [0, -2147483647] := ⟨3, by decide⟩
  refine ⟨by unfold InRange; decide, by unfold InRange; decide, by unfold NonNeg; decide,
    by unfold NonNeg; decide, by decide, h1, h2, ?_⟩
  rintro ⟨dist, hd1, hd2⟩
  have e1 := dijkstraOutput_unique hd1 h1
  have e2 := dijkstraOutput_unique hd2 h2
  rw [e1] at e2
  exact absurd e2 (by decide)

/-- C7, amended: when `g1` has destinations in range, non-negative weights and a sum of
all edge weights of at most `INT_MAX`, every adjacency list of `g2` is a permutation of the
one of `g1` at the same index, and `origem` is in `[0, n)`, `dijkstra` ends on both graphs
and prints the same distances. -/
theorem dijkstra_edge_order (g1 g2 : Grafo) (n origem : Int) (hg : InRange g1 n)
    (hnn : NonNeg g1) (htot : totalWeight g1 ≤ INT_MAX)
    (hperm : List.Forall₂ List.Perm g1 g2) (ho0 : 0 ≤ origem) (ho1 : origem < n) :
    ∃ dist, DijkstraOutput origem n g1 dist ∧ DijkstraOutput origem n g2 dist := by
  obtain ⟨d1, hout1, hlen1, hall1⟩ := dijkstra_exact hg hnn htot ho0 ho1
  obtain ⟨d2, hout2, hlen2, hall2⟩ := dijkstra_exact (inRange_perm hperm hg)
    (nonNeg_perm hperm hnn) (by rw [← totalWeight_perm hperm]; exact htot) ho0 ho1
  have heq : d1 = d2 := by
    apply ext_dAt hlen1 hlen2
    intro v h0 h1
    by_cases hr : Reachable g1 origem v
    · have hr2 : Reachable g2 origem v := by
        obtain ⟨p, hp⟩ := hr
        exact ⟨p, (walk_perm hperm).mp hp⟩
      exact isMinPathWeight_unique (isMinPathWeight_perm hperm ((hall1 v h0 h1).1 hr))
        ((hall2 v h0 h1).1 hr2)
    · have hr2 : ¬ Reachable g2 origem v := by
        rintro ⟨p, hp⟩
        exact hr ⟨p, (walk_perm hperm).mpr hp⟩
      rw [(hall1 v h0 h1).2 hr, (hall2 v h0 h1).2 hr2]
  subst heq
  exact ⟨d1, hout1, hout2⟩

/-- C7, amended, on the graph of `main` and the same graph with two adjacency lists
reordered. -/
theorem dijkstra_edge_order_main :
    InRange mainGrafo 5 ∧ NonNeg mainGrafo ∧ totalWeight mainGrafo ≤ INT_MAX ∧
    List.Forall₂ List.Perm mainGrafo mainGrafoSwapped ∧
    ∃ dist, DijkstraOutput 0 5 mainGrafo dist ∧ DijkstraOutput 0 5 mainGrafoSwapped dist :=
  ⟨mainGrafo_inRange, mainGrafo_nonNeg, mainGrafo_total, by decide,
    dijkstra_edge_order mainGrafo mainGrafoSwapped 5 0 mainGrafo_inRange mainGrafo_nonNeg
      mainGrafo_total (by decide) (by decide) (by decide)⟩

/-- C8: for every tree, `bfs` ends and what it emits is a permutation of what `dfs` emits;
on the tree of `main` the two sequences differ, 1 2 5 6 3 4 7 against 1 2 3 4 5 6 7. -/
theorem bfs_perm_dfs :
    (∀ t : Node, ∃ out, bfs t = some out ∧ out.Perm (dfs t [])) ∧
    (∃ t : Node, bfs t ≠ some (dfs t [])) ∧
    dfs demoTree [] = [1, 2, 5, 6, 3, 4, 7] ∧ bfs demoTree = some [1, 2, 3, 4, 5, 6, 7] := by
  refine ⟨?_, ⟨demoTree, by decide⟩, by decide, by decide⟩
  intro t
  refine ⟨levelOrder t, bfs_eq_levelOrder t, ?_⟩
  rw [dfs_eq_preorder]
  simpa using levelOrder_perm_preorder t

/-- C9, as stated, fails on `heavyEdgeGrafo`: destinations are in range and the only
weight, `INT_MAX`, is a non-negative `int`; node 1 can be reached from node 0, and
`dijkstra` leaves `dist[1] = INT_MAX`. -/
theorem dijkstra_reachable_at_sentinel :
    InRange heavyEdgeGrafo 2 ∧ NonNeg heavyEdgeGrafo ∧
    DijkstraOutput 0 2 heavyEdgeGrafo [0, 2147483647] ∧
    Reachable heavyEdgeGrafo 0 1 ∧ readAt [0, 2147483647] 1 = some INT_MAX :=
  ⟨by unfold InRange; decide, by unfold NonNeg; decide, ⟨1, by decide⟩,
    ⟨[⟨1, 2147483647⟩], by decide, rfl⟩, by decide⟩

/-- C9, amended: when the destinations are in range, the weights are non-negative, the
sum of all edge weights is less than `INT_MAX` and `origem` is in `[0, n)`, the call
`dijkstra(origem, n, grafo)` ends, every node that can be reached from `origem` has a
distance less than `INT_MAX`, and a distance of `INT_MAX` is found only at nodes that
cannot be reached. -/
theorem dijkstra_below_sentinel (grafo : Grafo) (n origem : Int) (hg : InRange grafo n)
    (hnn : NonNeg grafo) (htot : totalWeight grafo < INT_MAX) (ho0 : 0 ≤ origem)
    (ho1 : origem < n) :
    ∃ dist, DijkstraOutput origem n grafo dist ∧
      (∀ v, Reachable grafo origem v → ∃ d, readAt dist v = some d ∧ d < INT_MAX) ∧
      (∀ v, readAt dist v = some INT_MAX → ¬ Reachable grafo origem v) := by
  obtain ⟨dist, hout, hlen, hall⟩ := dijkstra_exact hg hnn (le_of_lt htot) ho0 ho1
  have key : ∀ v, Reachable grafo origem v → 0 ≤ v ∧ v < n ∧ dAt dist v < INT_MAX := by
    intro v hv
    obtain ⟨h0, h1⟩ := reachable_inRange hg ho0 ho1 hv
    obtain ⟨⟨q, hq, hqw⟩, -⟩ := (hall v h0 h1).1 hv
    have := simple_le_total hg hnn ho0 ho1 hq
    exact ⟨h0, h1, by omega⟩
  refine ⟨dist, hout, ?_, ?_⟩
  · intro v hv
    obtain ⟨h0, h1, hlt⟩ := key v hv
    exact ⟨_, readAt_eq_dAt h0 (by omega), hlt⟩
  · intro v hread hv
    obtain ⟨-, -, hlt⟩ := key v hv
    have := (readAt_some hread).2.2
    omega

/-- C9, amended, on the graph of `main` with origin 0. -/
theorem dijkstra_below_sentinel_main :
    InRange mainGrafo 5 ∧ NonNeg mainGrafo ∧ totalWeight mainGrafo < INT_MAX ∧
    ∃ dist, DijkstraOutput 0 5 mainGrafo dist ∧
      (∀ v, Reachable mainGrafo 0 v → ∃ d, readAt dist v = some d ∧ d < INT_MAX) ∧
      (∀ v, readAt dist v = some INT_MAX → ¬ Reachable mainGrafo 0 v) :=
  ⟨mainGrafo_inRange, mainGrafo_nonNeg, by decide,
    dijkstra_below_sentinel mainGrafo 5 0 mainGrafo_inRange mainGrafo_nonNeg (by decide)
      (by decide) (by decide)⟩

/-- C10: there is a graph with destinations in range and a negative weight, and an origin
in `[0, n)`, on which `dijkstra` runs to completion and prints, for a node `v` that can be
reached from the origin, a distance that is not the least weight of a simple path to `v`:
on `negativeLoopGrafo` with origin 0 it prints `[0, -2147483647]`, and the only simple path
from 0 to 1 weighs 1. -/
theorem dijkstra_negative_weight_wrong :
    ∃ (grafo : Grafo) (n origem v d : Int) (dist : List Int),
      InRange grafo n ∧ (∃ l ∈ grafo, ∃ a ∈ l, a.peso < 0) ∧ 0 ≤ origem ∧ origem < n ∧
      DijkstraOutput origem n grafo dist ∧ Reachable grafo origem v ∧
      readAt dist v = some d ∧ ¬ IsMinPathWeight grafo origem v d := by
  refine ⟨negativeLoopGrafo, 2, 0, 1, -2147483647, [0, -2147483647],
    by unfold InRange; decide, by decide, by decide, by decide, ⟨4, by decide⟩,
    ⟨[⟨1, 1⟩], by decide, rfl⟩, by decide, ?_⟩
  rintro ⟨⟨p, ⟨hw, hnd⟩, hpw⟩, -⟩
  have h0 : adj negativeLoopGrafo 0 = [⟨1, 1⟩] := rfl
  have h1 : adj negativeLoopGrafo 1 = [⟨1, -1073741824⟩] := rfl
  match p, hw, hnd, hpw with
  | [], hw, _, _ => simp [Walk] at hw
  | [a], hw, _, hpw =>
    have ha : a = ⟨1, 1⟩ := by simpa [h0] using hw.1
    subst ha
    simp [pathWeight] at hpw
  | a :: b :: r, hw, hnd, _ =>
    have ha : a = ⟨1, 1⟩ := by simpa [h0] using hw.1
    subst ha
    have hb : b = ⟨1, -1073741824⟩ := by simpa [h1] using hw.2.1
    subst hb
    simp [pathNodes] at hnd

/-- C11: when the destinations are in range and `origem` is in `[0, n)`, the `while` loop of
`dijkstra` reaches a state with an empty queue after finitely many turns, and `dijkstra`
returns the distances of that state for any fuel that covers these turns; every turn that
goes on lowers the measure `potential`, because a relaxation either leaves the state as
it is or pushes a pair for a node whose distance it has just made strictly smaller. The
weights may have either sign, cycles, loops and parallel edges are allowed. -/
theorem dijkstra_terminates (grafo : Grafo) (n origem : Int) (hg : InRange grafo n)
    (ho0 : 0 ≤ origem) (ho1 : origem < n) :
    (∃ k s, runN grafo k (initState origem n) = some s ∧ s.pq = [] ∧
      ∀ j, dijkstra (k + j) origem n grafo = .done s.dist) ∧
    (∀ s s1, step grafo s = .next s1 → potential s1 < potential s) ∧
    (∀ u s a s1, relax u s a = some s1 → s1 = s ∨
      ∃ x, x < dAt s.dist a.destino ∧
        s1 = { dist := s.dist.set a.destino.toNat x, pq := pqPush (x, a.destino) s.pq }) := by
  refine ⟨?_, fun _ _ h => step_potential h, fun _ _ _ _ h => relax_cases h⟩
  obtain ⟨k, s, -, hrun, -, hpq, hloop⟩ :=
    loop_reaches (Safe grafo n origem) (safe_step hg) (safe_no_outOfBounds hg)
      (potential (initState origem n) + 1) (initState origem n) (safe_init ho0 ho1) (by omega)
  refine ⟨k, s, hrun, hpq, ?_⟩
  intro j
  simpa [dijkstra, ho0, ho1] using hloop j

/-- C11 on the graph of `main` with origin 0. -/
theorem dijkstra_terminates_main :
    InRange mainGrafo 5 ∧
    ((∃ k s, runN mainGrafo k (initState 0 5) = some s ∧ s.pq = [] ∧
      ∀ j, dijkstra (k + j) 0 5 mainGrafo = .done s.dist) ∧
    (∀ s s1, step mainGrafo s = .next s1 → potential s1 < potential s) ∧
    (∀ u s a s1, relax u s a = some s1 → s1 = s ∨
      ∃ x, x < dAt s.dist a.destino ∧
        s1 = { dist := s.dist.set a.destino.toNat x, pq := pqPush (x, a.destino) s.pq })) :=
  ⟨mainGrafo_inRange, dijkstra_terminates mainGrafo 5 0 mainGrafo_inRange (by decide) (by decide)⟩

/-- C12: for every tree, the queue loop of `bfs` ends and emits as many values as the tree
has nodes; the loop takes exactly that many turns, since with less fuel it does not end;
`dfs` emits the same number of values. -/
theorem bfs_dfs_count :
    (∀ t : Node, ∃ out, bfs t = some out ∧ out.length = t.size) ∧
    (∀ (t : Node) (fuel : Nat), fuel < t.size → bfsLoop fuel [t] [] = none) ∧
    (∀ t : Node, (dfs t []).length = t.size) := by
  refine ⟨?_, ?_, ?_⟩
  · intro t
    refine ⟨levelOrder t, bfs_eq_levelOrder t, ?_⟩
    rw [(levelOrder_perm_preorder t).length_eq, preorder_length]
  · intro t fuel h
    exact bfsLoop_short fuel [t] [] (by simpa [sizeList] using h)
  · intro t
    rw [dfs_eq_preorder]
    simpa using preorder_length t

/-- C13: when `grafo` has `n` adjacency lists, every destination lies in `[0, n)` and
`origem` is in `[0, n)`, no read or write of `dijkstra` is outside the bounds, whatever the
fuel; at every point of the run `dist` has length `n` and every node in the queue lies in
`[0, n)`; and the distances printed at the end are `n` values. -/
theorem dijkstra_index_safe (grafo : Grafo) (n origem : Int) (hg : InRange grafo n)
    (ho0 : 0 ≤ origem) (ho1 : origem < n) :
    (∀ fuel, dijkstra fuel origem n grafo ≠ .outOfBounds) ∧
    (∀ s, RunPoint grafo origem n s →
      (s.dist.length : Int) = n ∧ ∀ e ∈ s.pq, 0 ≤ e.2 ∧ e.2 < n) ∧
    (∃ dist, DijkstraOutput origem n grafo dist ∧ (dist.length : Int) = n) := by
  refine ⟨?_, ?_, ?_⟩
  · intro fuel
    have := loop_no_outOfBounds (Safe grafo n origem) (safe_step hg) (safe_no_outOfBounds hg)
      fuel (initState origem n) (safe_init ho0 ho1)
    simpa [dijkstra, ho0, ho1] using this
  · intro s hs
    have h := safe_runPoint hg ho0 ho1 s hs
    exact ⟨h.len, fun e he => ⟨(h.pqIdx e he).1, (h.pqIdx e he).2.1⟩⟩
  · obtain ⟨s, hrun, hs, -⟩ := dijkstra_safe hg ho0 ho1
    exact ⟨s.dist, ⟨_, hrun⟩, hs.len⟩

/-- C13 on the graph of `main` with origin 0. -/
theorem dijkstra_index_safe_main :
    InRange mainGrafo 5 ∧
    ((∀ fuel, dijkstra fuel 0 5 mainGrafo ≠ .outOfBounds) ∧
    (∀ s, RunPoint mainGrafo 0 5 s →
      (s.dist.length : Int) = 5 ∧ ∀ e ∈ s.pq, 0 ≤ e.2 ∧ e.2 < 5) ∧
    (∃ dist, DijkstraOutput 0 5 mainGrafo dist ∧ (dist.length : Int) = 5)) :=
  ⟨mainGrafo_inRange, dijkstra_index_safe mainGrafo 5 0 mainGrafo_inRange (by decide) (by decide)⟩

/-- C14: when the destinations are in range and `origem` is in `[0, n)`, `dijkstra` with the
stale check removed returns, for every fuel, what `dijkstra` returns, and both end with the
same distances; the weights may have either sign. -/
theorem dijkstra_stale_check_irrelevant (grafo : Grafo) (n origem : Int)
    (hg : InRange grafo n) (ho0 : 0 ≤ origem) (ho1 : origem < n) :
    (∀ fuel, dijkstraNoStale fuel origem n grafo = dijkstra fuel origem n grafo) ∧
    ∃ dist, DijkstraOutput origem n grafo dist ∧
      ∃ fuel, dijkstraNoStale fuel origem n grafo = .done dist := by
  have heq : ∀ fuel, dijkstraNoStale fuel origem n grafo = dijkstra fuel origem n grafo := by
    intro fuel
    simp only [dijkstraNoStale, dijkstra, ho0, ho1, and_self, if_true]
    exact loopNoStale_eq hg fuel _ (gen_init noCheck ho0 ho1)
  refine ⟨heq, ?_⟩
  obtain ⟨s, hrun, -, -⟩ := dijkstra_safe hg ho0 ho1
  exact ⟨s.dist, ⟨_, hrun⟩, _, (heq _).trans hrun⟩

/-- C14 on the graph of `main` with origin 0. -/
theorem dijkstra_stale_check_irrelevant_main :
    InRange mainGrafo 5 ∧
    ((∀ fuel, dijkstraNoStale fuel 0 5 mainGrafo = dijkstra fuel 0 5 mainGrafo) ∧
    ∃ dist, DijkstraOutput 0 5 mainGrafo dist ∧
      ∃ fuel, dijkstraNoStale fuel 0 5 mainGrafo = .done dist) :=
  ⟨mainGrafo_inRange,
    dijkstra_stale_check_irrelevant mainGrafo 5 0 mainGrafo_inRange (by decide) (by decide)⟩

/-- C17: on a graph with destinations in range, weights of either sign, and a run on which
no sum `dist[u] + peso` overflows, whenever `dijkstra` ends, the distances `dist` it prints
satisfy `dist[v] ≤ dist[u] + w` for every edge `u -> v` of weight `w` with `dist[u]`
different from `INT_MAX`. -/
theorem dijkstra_no_edge_relaxable (grafo : Grafo) (n origem : Int) (hg : InRange grafo n)
    (ho0 : 0 ≤ origem) (ho1 : origem < n)
    (hno : ∀ fuel, runFlags overflows grafo fuel (initState origem n) = false) :
    ∀ dist, DijkstraOutput origem n grafo dist →
      ∀ u, 0 ≤ u → u < n → dAt dist u ≠ INT_MAX →
        ∀ a ∈ adj grafo u, dAt dist a.destino ≤ dAt dist u + a.peso := by
  intro dist hout u hu0 hu1 hne a ha
  obtain ⟨s, hrun, hs, hpq⟩ := dijkstra_gen hg ho0 ho1 hno
  have hd : dist = s.dist := dijkstraOutput_unique hout ⟨_, hrun⟩
  subst hd
  rcases hs.closed u hu0 hu1 hne with hin | hrel
  · rw [hpq] at hin; simp at hin
  · obtain ⟨h1, h2⟩ := hrel a ha
    rw [wrapInt_of_not_overflows h1] at h2
    omega

/-- C17 on `negativeEdgeGrafo` with origin 0, where `dijkstra` prints `[0, 5, 1]`. -/
theorem dijkstra_no_edge_relaxable_negative :
    InRange negativeEdgeGrafo 3 ∧
    (∀ fuel, runFlags overflows negativeEdgeGrafo fuel (initState 0 3) = false) ∧
    DijkstraOutput 0 3 negativeEdgeGrafo [0, 5, 1] ∧
    ∀ u, 0 ≤ u → u < 3 → dAt [0, 5, 1] u ≠ INT_MAX →
      ∀ a ∈ adj negativeEdgeGrafo u, dAt [0, 5, 1] a.destino ≤ dAt [0, 5, 1] u + a.peso := by
  have hg : InRange negativeEdgeGrafo 3 := by unfold InRange; decide
  have hno : ∀ fuel, runFlags overflows negativeEdgeGrafo fuel (initState 0 3) = false :=
    runFlags_of_done 4 _ [0, 5, 1] (by decide) (by decide)
  have hout : DijkstraOutput 0 3 negativeEdgeGrafo [0, 5, 1] := ⟨4, by decide⟩
  exact ⟨hg, hno, hout,
    dijkstra_no_edge_relaxable negativeEdgeGrafo 3 0 hg (by decide) (by decide) hno _ hout⟩

/-- C18: when the destinations are in range, the weights are non-negative, the sum of all
edge weights is at most `INT_MAX` and `origem` is in `[0, n)`, every sum `dist[u] + peso`
that `dijkstra` evaluates has `dist[u]` different from `INT_MAX` and a value in
`[0, INT_MAX]`, so none overflows, and `dijkstra` returns, for every fuel, what the same
algorithm over unbounded integers returns. -/
theorem dijkstra_no_overflow (grafo : Grafo) (n origem : Int) (hg : InRange grafo n)
    (hnn : NonNeg grafo) (htot : totalWeight grafo ≤ INT_MAX) (ho0 : 0 ≤ origem)
    (ho1 : origem < n) :
    (∀ fuel, runFlags outside grafo fuel (initState origem n) = false) ∧
    (∀ fuel, runFlags overflows grafo fuel (initState origem n) = false) ∧
    (∀ fuel, dijkstraExact fuel origem n grafo = dijkstra fuel origem n grafo) := by
  have h1 : ∀ fuel, runFlags outside grafo fuel (initState origem n) = false :=
    fun fuel => inv_runFlags hg hnn htot ho0 ho1 fuel _ (inv_init ho0 ho1)
  have h2 : ∀ fuel, runFlags overflows grafo fuel (initState origem n) = false :=
    fun fuel => runFlags_weaken overflows_of_outside fuel _ (h1 fuel)
  refine ⟨h1, h2, ?_⟩
  intro fuel
  simp only [dijkstraExact, dijkstra, ho0, ho1, and_self, if_true]
  exact loopExact_eq fuel _ (h2 fuel)

/-- C18 on the graph of `main` with origin 0. -/
theorem dijkstra_no_overflow_main :
    InRange mainGrafo 5 ∧ NonNeg mainGrafo ∧ totalWeight mainGrafo ≤ INT_MAX ∧
    ((∀ fuel, runFlags outside mainGrafo fuel (initState 0 5) = false) ∧
    (∀ fuel, runFlags overflows mainGrafo fuel (initState 0 5) = false) ∧
    (∀ fuel, dijkstraExact fuel 0 5 mainGrafo = dijkstra fuel 0 5 mainGrafo)) :=
  ⟨mainGrafo_inRange, mainGrafo_nonNeg, mainGrafo_total,
    dijkstra_no_overflow mainGrafo 5 0 mainGrafo_inRange mainGrafo_nonNeg mainGrafo_total
      (by decide) (by decide)⟩

/-- C16, as stated, fails on `overflowGrafo`: destinations are in range and the weights are
non-negative, yet after two turns of the loop `dist[2] = -2^31`, which is neither `INT_MAX`
nor the weight of a path from node 0 to node 2. -/
theorem dijkstra_overflow_not_a_path_weight :
    InRange overflowGrafo 3 ∧ NonNeg overflowGrafo ∧
    RunPoint overflowGrafo 0 3
      { dist := [0, 1073741824, -2147483648], pq := [(-2147483648, 2)] } ∧
    dAt [0, 1073741824, -2147483648] 2 ≠ INT_MAX ∧
    ¬ ∃ p, Walk overflowGrafo 0 p 2 ∧ pathWeight p = dAt [0, 1073741824, -2147483648] 2 := by
  have hnn : NonNeg overflowGrafo := by unfold NonNeg; decide
  refine ⟨by unfold InRange; decide, hnn, ⟨_, ⟨2, by decide⟩, Or.inl rfl⟩, by decide, ?_⟩
  rintro ⟨p, hp, hw⟩
  have h1 := walk_weight_nonneg hnn hp
  have h2 : dAt [0, 1073741824, -2147483648] 2 = -2147483648 := by decide
  omega

/-- C16, amended: when the destinations are in range, the weights are non-negative, the
sum of all edge weights is at most `INT_MAX` and `origem` is in `[0, n)`, at every point of
the run of `dijkstra` (after the initialisation, after every `pq.pop()` and after every
relaxation) each `dist[v]` is `INT_MAX` or the weight of a walk from `origem` to `v`, and
every pair `(d, v)` in the queue has `d ≥ dist[v]`. -/
theorem dijkstra_distances_never_underestimate (grafo : Grafo) (n origem : Int)
    (hg : InRange grafo n) (hnn : NonNeg grafo) (htot : totalWeight grafo ≤ INT_MAX)
    (ho0 : 0 ≤ origem) (ho1 : origem < n) :
    ∀ s, RunPoint grafo origem n s →
      (∀ v, 0 ≤ v → v < n →
        dAt s.dist v = INT_MAX ∨ ∃ p, Walk grafo origem p v ∧ pathWeight p = dAt s.dist v) ∧
      (∀ e ∈ s.pq, dAt s.dist e.2 ≤ e.1) := by
  intro s hs
  have hc := core_runPoint hg hnn htot ho0 ho1 s hs
  refine ⟨?_, fun e he => (hc.pqOk e he).2.2.1⟩
  intro v h0 h1
  by_cases hv : dAt s.dist v = INT_MAX
  · exact Or.inl hv
  · have := (hc.rng v h0 h1).2
    exact Or.inr (hc.walk v h0 h1 (by omega))

/-- C16, amended, on the graph of `main` with origin 0. -/
theorem dijkstra_distances_never_underestimate_main :
    InRange mainGrafo 5 ∧ NonNeg mainGrafo ∧ totalWeight mainGrafo ≤ INT_MAX ∧
    ∀ s, RunPoint mainGrafo 0 5 s →
      (∀ v, 0 ≤ v → v < 5 →
        dAt s.dist v = INT_MAX ∨ ∃ p, Walk mainGrafo 0 p v ∧ pathWeight p = dAt s.dist v) ∧
      (∀ e ∈ s.pq, dAt s.dist e.2 ≤ e.1) :=
  ⟨mainGrafo_inRange, mainGrafo_nonNeg, mainGrafo_total,
    dijkstra_distances_never_underestimate mainGrafo 5 0 mainGrafo_inRange mainGrafo_nonNeg
      mainGrafo_total (by decide) (by decide)⟩

/-- C15, as stated, fails on `overflowCycleGrafo`, which has destinations in range and
non-negative weights: the pairs that pass the stale check are `(0, 0)`, `(2^30, 1)`,
`(-2^31, 2)`, `(-2^31, 0)`, `(-2^30, 1)`, so their distances decrease, nodes 0 and 1 pass
twice, and `dist[0]`, which was 0 when node 0 passed first, is `-2^31` three turns later. -/
theorem dijkstra_overflow_expanded_twice :
    InRange overflowCycleGrafo 3 ∧ NonNeg overflowCycleGrafo ∧
    expanded overflowCycleGrafo 5 (initState 0 3) =
      [(0, 0), (1073741824, 1), (-2147483648, 2), (-2147483648, 0), (-1073741824, 1)] ∧
    ¬ ((expanded overflowCycleGrafo 5 (initState 0 3)).map Prod.fst).Pairwise
        (fun x y => x ≤ y) ∧
    ¬ ((expanded overflowCycleGrafo 5 (initState 0 3)).map Prod.snd).Nodup ∧
    pqTop (initState 0 3).pq = some (0, 0) ∧ 0 ≤ dAt (initState 0 3).dist 0 ∧
    ∃ s1, runN overflowCycleGrafo 3 (initState 0 3) = some s1 ∧ dAt s1.dist 0 ≠ 0 := by
  have he : expanded overflowCycleGrafo 5 (initState 0 3) =
      [(0, 0), (1073741824, 1), (-2147483648, 2), (-2147483648, 0), (-1073741824, 1)] := by
    decide
  refine ⟨by unfold InRange; decide, by unfold NonNeg; decide, he, ?_, ?_, by decide,
    by decide, ?_⟩
  · rw [he]; decide
  · rw [he]; decide
  · exact ⟨{ dist := [-2147483648, 1073741824, -2147483648], pq := [(-2147483648, 0)] },
      by decide, by decide⟩

/-- C15, amended: when the destinations are in range, the weights are non-negative, the
sum of all edge weights is at most `INT_MAX` and `origem` is in `[0, n)`, the distances `d`
of the pairs that pass the stale check never decrease along the run, no node passes the
check twice, and once a pair `(d, u)` passes it `dist[u]` is `d` in every later turn. -/
theorem dijkstra_finalised_once (grafo : Grafo) (n origem : Int) (hg : InRange grafo n)
    (hnn : NonNeg grafo) (htot : totalWeight grafo ≤ INT_MAX) (ho0 : 0 ≤ origem)
    (ho1 : origem < n) :
    (∀ fuel, ((expanded grafo fuel (initState origem n)).map Prod.fst).Pairwise
      (fun x y => x ≤ y)) ∧
    (∀ fuel, ((expanded grafo fuel (initState origem n)).map Prod.snd).Nodup) ∧
    (∀ s d u, AtTurn grafo origem n s → pqTop s.pq = some (d, u) → d ≤ dAt s.dist u →
      ∀ j s1, runN grafo j s = some s1 → dAt s1.dist u = d) := by
  have hsort := fun fuel => expanded_sorted hg hnn htot ho0 ho1 fuel [] (initState origem n)
    (inv_init ho0 ho1) (settled_init origem n)
  refine ⟨fun fuel => (hsort fuel).1, fun fuel => (hsort fuel).2.1, ?_⟩
  rintro s d u ⟨k, hk⟩ ht hd j s1 hj
  obtain ⟨S, -, hs, hS⟩ := settled_runN hg hnn htot ho0 ho1 k [] _ s (inv_init ho0 ho1)
    (settled_init origem n) hk
  cases j with
  | zero =>
    simp only [runN, Option.some.injEq] at hj
    subst hj
    exact (inv_top_min hg hnn ho0 ho1 hs ht hd).1
  | succ j =>
    simp only [runN] at hj
    cases hst : step grafo s with
    | finished => simp [hst] at hj
    | outOfBounds => simp [hst] at hj
    | next s2 =>
      simp only [hst] at hj
      have hs2 := inv_step hg hnn htot ho0 ho1 s s2 hs hst
      obtain ⟨hS2, -, -⟩ := (settled_step hg hnn htot ho0 ho1 hs hS ht hst).2 hd
      obtain ⟨S1, hsub, -, hS1⟩ := settled_runN hg hnn htot ho0 ho1 j _ s2 s1 hs2 hS2 hj
      exact hS1.fixed (d, u) (hsub _ (List.mem_cons_self _ _))

/-- C15, amended, on the graph of `main` with origin 0. -/
theorem dijkstra_finalised_once_main :
    InRange mainGrafo 5 ∧ NonNeg mainGrafo ∧ totalWeight mainGrafo ≤ INT_MAX ∧
    ((∀ fuel, ((expanded mainGrafo fuel (initState 0 5)).map Prod.fst).Pairwise
      (fun x y => x ≤ y)) ∧
    (∀ fuel, ((expanded mainGrafo fuel (initState 0 5)).map Prod.snd).Nodup) ∧
    (∀ s d u, AtTurn mainGrafo 0 5 s → pqTop s.pq = some (d, u) → d ≤ dAt s.dist u →
      ∀ j s1, runN mainGrafo j s = some s1 → dAt s1.dist u = d)) :=
  ⟨mainGrafo_inRange, mainGrafo_nonNeg, mainGrafo_total,
    dijkstra_finalised_once mainGrafo 5 0 mainGrafo_inRange mainGrafo_nonNeg mainGrafo_total
      (by decide) (by decide)⟩

/-- C19, as stated, fails on `sentinelPathGrafo`: destinations are in range, there is no
cycle at all, and the only sum evaluated, `0 + INT_MAX`, does not overflow; `dijkstra` with
origin 0 prints `[0, INT_MAX, INT_MAX]`, because a distance equal to `INT_MAX` is not an
improvement on the sentinel; node 2 can be reached, by a path of weight `INT_MAX - 5`, so
`dist[2] = INT_MAX` is not the least weight of a path to it. -/
theorem dijkstra_sentinel_hides_path :
    InRange sentinelPathGrafo 3 ∧ NoNegCycle sentinelPathGrafo 0 ∧
    (∀ fuel, runFlags overflows sentinelPathGrafo fuel (initState 0 3) = false) ∧
    DijkstraOutput 0 3 sentinelPathGrafo [0, 2147483647, 2147483647] ∧
    Reachable sentinelPathGrafo 0 2 ∧
    readAt [0, 2147483647, 2147483647] 2 = some 2147483647 ∧
    ¬ IsMinWalkWeight sentinelPathGrafo 0 2 2147483647 := by
  have hw : Walk sentinelPathGrafo 0 [⟨1, 2147483647⟩, ⟨2, -5⟩] 2 :=
    ⟨by decide, by decide, rfl⟩
  refine ⟨by unfold InRange; decide,
    noNegCycle_of_increasing 0 (adj_forall (by decide)),
    runFlags_of_done 1 _ [0, 2147483647, 2147483647] (by decide) (by decide),
    ⟨1, by decide⟩, ⟨_, hw⟩, by decide, ?_⟩
  rintro ⟨-, hmin⟩
  have := hmin _ hw
  simp [pathWeight] at this

/-- C19, amended: on a graph with destinations in range, weights of either sign, no
negative cycle that can be reached from `origem`, a run on which no sum `dist[u] + peso`
overflows, and every simple path from `origem` lighter than `INT_MAX`, the call
`dijkstra(origem, n, grafo)` ends and, for every node `v` that can be reached from
`origem`, `dist[v]` is the minimum over all paths from `origem` to `v` of the sum of the
weights along the path. -/
theorem dijkstra_label_correcting (grafo : Grafo) (n origem : Int) (hg : InRange grafo n)
    (ho0 : 0 ≤ origem) (ho1 : origem < n) (hcyc : NoNegCycle grafo origem)
    (hno : ∀ fuel, runFlags overflows grafo fuel (initState origem n) = false)
    (hlt : ∀ p v, SimplePath grafo origem p v → pathWeight p < INT_MAX) :
    ∃ dist, DijkstraOutput origem n grafo dist ∧
      ∀ v, Reachable grafo origem v →
        ∃ d, readAt dist v = some d ∧ IsMinWalkWeight grafo origem v d := by
  obtain ⟨s, hrun, hs, hw, hpq⟩ := dijkstra_walked hg ho0 ho1 hno
  refine ⟨s.dist, ⟨_, hrun⟩, ?_⟩
  intro v hv
  obtain ⟨h0, h1⟩ := reachable_inRange hg ho0 ho1 hv
  have hlen := hs.len
  have hbound : ∀ r, Walk grafo origem r v → dAt s.dist v ≤ pathWeight r := by
    intro r hr
    obtain ⟨q, hq, hqr⟩ := exists_simple_of_noNegCycle hcyc (reachable_refl _ _) hr
    have := final_le_simple hg ho0 ho1 hs hw hpq hlt q v hq
    omega
  obtain ⟨p0, hp0⟩ := hv
  obtain ⟨q0, hq0, -⟩ := exists_simple_of_noNegCycle hcyc (reachable_refl _ _) hp0
  have h2 := final_le_simple hg ho0 ho1 hs hw hpq hlt q0 v hq0
  have h3 := hlt q0 v hq0
  obtain ⟨p, hp, hpw⟩ := hw.walk v h0 h1 (by omega)
  exact ⟨_, readAt_eq_dAt h0 (by omega), ⟨p, hp, hpw⟩, hbound⟩

/-- C19, amended, on `negativeEdgeGrafo` with origin 0: the graph has a negative weight and
no cycle, no sum overflows, and no path has more than two edges. -/
theorem dijkstra_label_correcting_negative :
    InRange negativeEdgeGrafo 3 ∧ NoNegCycle negativeEdgeGrafo 0 ∧
    (∀ fuel, runFlags overflows negativeEdgeGrafo fuel (initState 0 3) = false) ∧
    (∀ p v, SimplePath negativeEdgeGrafo 0 p v → pathWeight p < INT_MAX) ∧
    ∃ dist, DijkstraOutput 0 3 negativeEdgeGrafo dist ∧
      ∀ v, Reachable negativeEdgeGrafo 0 v →
        ∃ d, readAt dist v = some d ∧ IsMinWalkWeight negativeEdgeGrafo 0 v d := by
  have hg : InRange negativeEdgeGrafo 3 := by unfold InRange; decide
  have hcyc : NoNegCycle negativeEdgeGrafo 0 :=
    noNegCycle_of_increasing 0 (adj_forall (by decide))
  have hno : ∀ fuel, runFlags overflows negativeEdgeGrafo fuel (initState 0 3) = false :=
    runFlags_of_done 4 _ [0, 5, 1] (by decide) (by decide)
  have hlt : ∀ p v, SimplePath negativeEdgeGrafo 0 p v → pathWeight p < INT_MAX := by
    intro p v hp
    have h1 := walk_weight_le_length (W := 5) (adj_forall (by decide)) hp.1
    have h2 := simple_length_lt hg (by decide) (by decide) hp
    unfold INT_MAX
    omega
  exact ⟨hg, hcyc, hno, hlt,
    dijkstra_label_correcting negativeEdgeGrafo 3 0 hg (by decide) (by decide) hcyc hno hlt⟩

end Niad
